import Mathlib

/-!
Shallow embedding of the gif-tools library (TypeScript) in Lean 4, together
with theorems settling the specification claims about it.

Conventions of the embedding:
* Bytes and small machine integers are `ℕ` (with explicit `% 256` / `% 2^w`
  where the source relies on wrap-around); quantities that can be negative in
  the source (frame delays, transparent indices) are `ℤ`.
* `Uint8Array` buffers and `string` dictionary keys (which the source builds
  with `String.fromCharCode` from byte values) are `List ℕ`.
* Thrown exceptions (`GifValidationError`, `GifEncodingError`) are modelled by
  `Except GifErr`; the error message text is dropped, only the error class is
  kept.
* `while` loops are modelled by structural recursion on an explicit bound
  (`fuel`) that provably dominates the number of iterations the source loop
  can perform, so that every definition is kernel-computable; each such bound
  is justified in a comment at the definition.
-/

set_option maxHeartbeats 1600000
set_option maxRecDepth 16000

namespace GifTools

/-- The two error classes of the library: `GifValidationError` and
`GifEncodingError` (messages dropped). -/
inductive GifErr where
  | validation : GifErr
  | encoding : GifErr
deriving DecidableEq, Repr

instance {ε α : Type} [DecidableEq ε] [DecidableEq α] :
    DecidableEq (Except ε α) := fun a b =>
  match a, b with
  | .error x, .error y =>
    if h : x = y then .isTrue (by rw [h])
    else .isFalse (fun hc => by cases hc; exact h rfl)
  | .ok x, .ok y =>
    if h : x = y then .isTrue (by rw [h])
    else .isFalse (fun hc => by cases hc; exact h rfl)
  | .error _, .ok _ => .isFalse (fun hc => by cases hc)
  | .ok _, .error _ => .isFalse (fun hc => by cases hc)

/-- `utils.ts`: `MAX_COLORS = 256`. -/
def MAX_COLORS : ℕ := 256

/-- `utils.ts`: `MAX_CODE_VALUE = 0xfff`. -/
def MAX_CODE_VALUE : ℕ := 4095

/-- `utils.ts`: `GIF_SIGNATURE` = "GIF". -/
def GIF_SIGNATURE : List ℕ := [0x47, 0x49, 0x46]

/-- `utils.ts`: `GIF_VERSION_89A` = "89a". -/
def GIF_VERSION_89A : List ℕ := [0x38, 0x39, 0x61]

/-- `utils.ts`: `GIF_TRAILER = 0x3b`. -/
def GIF_TRAILER : ℕ := 0x3b

/-- `utils.ts`: `NETSCAPE_APPLICATION_IDENTIFIER` = "NETSCAPE". -/
def NETSCAPE_APPLICATION_IDENTIFIER : List ℕ :=
  [0x4e, 0x45, 0x54, 0x53, 0x43, 0x41, 0x50, 0x45]

/-- `utils.ts`: `NETSCAPE_APPLICATION_AUTHENTICATION_CODE` = "2.0". -/
def NETSCAPE_APPLICATION_AUTHENTICATION_CODE : List ℕ := [0x32, 0x2e, 0x30]

/-- `utils.ts` `validateDimensions`: positive integers `≤ 65535`
(non-integers are not representable in the `ℕ` embedding). -/
def validateDimensions (width height : ℕ) : Except GifErr Unit :=
  if width = 0 ∨ width > 65535 then .error .validation
  else if height = 0 ∨ height > 65535 then .error .validation
  else .ok ()

/-- `utils.ts` `validatePalette`: non-empty, a multiple of 3 bytes,
at most `MAX_COLORS` colors. -/
def validatePalette (palette : List ℕ) : Except GifErr Unit :=
  if palette.length = 0 ∨ palette.length % 3 ≠ 0 then .error .validation
  else if palette.length / 3 > MAX_COLORS then .error .validation
  else .ok ()

/-- The `while (pow2 < colorCount)` loop of `calculateColorTableSize`.
`fuel` bounds the iteration count: the loop is entered with `pow2 = 2` and
doubles `pow2` each round, so it runs at most `log2 colorCount ≤ colorCount`
times; `calculateColorTableSize` passes `fuel = colorCount`, which is why the
`fuel = 0` branch is unreachable. -/
def ctsGo : ℕ → ℕ → ℕ → ℕ → ℕ
  | 0, _, size, _ => size
  | fuel + 1, colorCount, size, pow2 =>
    if pow2 < colorCount then ctsGo fuel colorCount (size + 1) (pow2 * 2)
    else size

/-- `utils.ts` `calculateColorTableSize`: smallest size field `s` with
`2^(s+1) ≥ colorCount`, computed by doubling. -/
def calculateColorTableSize (colorCount : ℕ) : Except GifErr ℕ :=
  if colorCount = 0 ∨ colorCount > MAX_COLORS then .error .validation
  else .ok (ctsGo colorCount colorCount 0 2)

/-- The value `calculateColorTableSize` returns on success (0 on error). -/
def ctsValue (colorCount : ℕ) : ℕ :=
  match calculateColorTableSize colorCount with
  | .ok s => s
  | .error _ => 0

/-- `utils.ts` `padColorTable`: pad a palette with zero bytes up to
`3 · 2^(requiredSize+1)` bytes (returned unchanged when already that long). -/
def padColorTable (palette : List ℕ) (requiredSize : ℕ) : List ℕ :=
  let currentColors := palette.length / 3
  let targetColors := 2 ^ (requiredSize + 1)
  if currentColors ≥ targetColors then palette
  else palette ++ List.replicate (targetColors * 3 - palette.length) 0

/-- `utils.ts` `write16BitLE`: two bytes, least significant first; validation
error outside `[0, 65535]`. -/
def write16BitLE (value : ℤ) : Except GifErr (List ℕ) :=
  if value < 0 ∨ value > 65535 then .error .validation
  else .ok [value.toNat % 256, value.toNat / 256 % 256]

/-- `utils.ts` `clamp`. -/
def clamp (value min max : ℤ) : ℤ := Max.max min (Min.min max value)

/-- `utils.ts` `msToGifDelay`: `Math.max(0, Math.round(ms / 10))`.
For an integer argument, JavaScript `Math.round(ms / 10)` (round half toward
`+∞`) equals `⌊(ms + 5) / 10⌋`, i.e. `Int.fdiv (ms + 5) 10`. -/
def msToGifDelay (ms : ℤ) : ℤ := Max.max 0 ((ms + 5).fdiv 10)

/-- `utils.ts` `gifDelayToMs`. -/
def gifDelayToMs (delay : ℤ) : ℤ := delay * 10

/-! ### `lzw.ts`: LZW compression -/

/-- State of `CodeToBytesConverter`: accumulated output bytes plus a bit
accumulator holding `remainingBits < 8` pending low-order bits. -/
structure CodeToBytes where
  output : List ℕ
  remainingBits : ℕ
  remainingValue : ℕ
deriving DecidableEq, Repr

/-- The `while (numBits > 0)` loop of `CodeToBytesConverter.push`. Each round
absorbs `bitsToTake = min numBits (8 - remainingBits) ≥ 1` bits (the converter
maintains `remainingBits < 8`), so `fuel = numBits` dominates the iteration
count and the `fuel = 0` branch is unreachable. -/
def pushGo : ℕ → CodeToBytes → ℕ → ℕ → CodeToBytes
  | 0, st, _, _ => st
  | fuel + 1, st, code, numBits =>
    if numBits = 0 then st
    else
      let bitsToTake := Min.min numBits (8 - st.remainingBits)
      let mask := 2 ^ bitsToTake - 1
      let bits := code &&& mask
      let rv := st.remainingValue ||| (bits <<< st.remainingBits)
      let rb := st.remainingBits + bitsToTake
      let st' : CodeToBytes :=
        if rb ≥ 8 then ⟨st.output ++ [rv % 256], rb - 8, rv / 256⟩
        else ⟨st.output, rb, rv⟩
      pushGo fuel st' (code >>> bitsToTake) (numBits - bitsToTake)

/-- `CodeToBytesConverter.push`: `numBits ≤ 0` (here: `= 0`) is an encoding
error (`code < 0` is unrepresentable in the `ℕ` embedding). -/
def CodeToBytes.push (st : CodeToBytes) (code numBits : ℕ) :
    Except GifErr CodeToBytes :=
  if numBits = 0 then .error .encoding
  else .ok (pushGo numBits st code numBits)

/-- `CodeToBytesConverter.flush`: emit the partial final byte if any. -/
def CodeToBytes.flush (st : CodeToBytes) : List ℕ :=
  if st.remainingBits > 0 then st.output ++ [st.remainingValue % 256]
  else st.output

/-- Association-list lookup used to model the encoder's
`Map<string, number>` (keys are the byte sequences the source encodes as
JavaScript strings). -/
def dictGet : List (List ℕ × ℕ) → List ℕ → Option ℕ
  | [], _ => none
  | (k, v) :: rest, key => if k = key then some v else dictGet rest key

/-- `LZWDictionary.reset`: all single-byte strings `0 … 2^k - 1`. -/
def encResetEntries (k : ℕ) : List (List ℕ × ℕ) :=
  (List.range (2 ^ k)).map (fun i => ([i], i))

/-- The `while (max <= maxCode && bits < 12)` loop of `calculateCodeBits`.
The guard keeps `bits < 12`, so the loop runs at most 12 times and
`fuel = 12` dominates it. Returns `min bits 12` like the source. -/
def ccbGo : ℕ → ℕ → ℕ → ℕ → ℕ
  | 0, bits, _, _ => Min.min bits 12
  | fuel + 1, bits, mx, maxCode =>
    if mx ≤ maxCode ∧ bits < 12 then ccbGo fuel (bits + 1) (mx * 2) maxCode
    else Min.min bits 12

/-- `lzw.ts` `calculateCodeBits`: number of bits needed for `maxCode`,
starting from `initialBits`, capped at 12. -/
def calculateCodeBits (maxCode initialBits : ℕ) : ℕ :=
  if maxCode < 2 ^ initialBits then initialBits
  else ccbGo 12 initialBits (2 ^ initialBits) maxCode

/-- Encoder state of `compressLZW`: bit converter, dictionary (entries and
next code), current code width, current string. -/
structure EncState where
  conv : CodeToBytes
  entries : List (List ℕ × ℕ)
  nextCode : ℕ
  currentBits : ℕ
  currentString : List ℕ
deriving DecidableEq, Repr

/-- `LZWDictionary.add` (guard included as in the source; at every call site
the guard is dead because `shouldReset` was checked first). -/
def dictAdd (entries : List (List ℕ × ℕ)) (nextCode : ℕ) (str : List ℕ) :
    Except GifErr (List (List ℕ × ℕ) × ℕ) :=
  if nextCode > MAX_CODE_VALUE then .error .encoding
  else .ok (entries ++ [(str, nextCode)], nextCode + 1)

/-- One iteration of the main `for` loop of `compressLZW` for input byte
`b`. -/
def compressStep (k : ℕ) (st : EncState) (b : ℕ) : Except GifErr EncState :=
  let newString := st.currentString ++ [b]
  if (dictGet st.entries newString).isSome then
    .ok { st with currentString := newString }
  else
    match dictGet st.entries st.currentString with
    | none => .error .encoding
    | some code => do
      let conv ← st.conv.push code st.currentBits
      if st.nextCode > MAX_CODE_VALUE then
        -- dictionary full: emit a clear code and reset
        let conv2 ← conv.push (2 ^ k) st.currentBits
        .ok { conv := conv2, entries := encResetEntries k,
              nextCode := 2 ^ k + 2, currentBits := k + 1,
              currentString := [b] }
      else do
        let (entries, nextCode) ← dictAdd st.entries st.nextCode newString
        let newBits := calculateCodeBits (nextCode - 1) (k + 1)
        let currentBits :=
          if newBits > st.currentBits ∧ newBits ≤ 12 then newBits
          else st.currentBits
        .ok { conv := conv, entries := entries, nextCode := nextCode,
              currentBits := currentBits, currentString := [b] }

/-- `lzw.ts` `compressLZW`. -/
def compressLZW (data : List ℕ) (initialCodeSize : ℕ) :
    Except GifErr (List ℕ) :=
  if data.length = 0 then .error .encoding
  else if initialCodeSize < 1 ∨ initialCodeSize > 8 then .error .encoding
  else do
    let k := initialCodeSize
    let conv0 ← CodeToBytes.push ⟨[], 0, 0⟩ (2 ^ k) (k + 1)
    let st0 : EncState :=
      { conv := conv0, entries := encResetEntries k, nextCode := 2 ^ k + 2,
        currentBits := k + 1, currentString := [] }
    let st ← data.foldlM (compressStep k) st0
    let conv ←
      if st.currentString.length > 0 then
        match dictGet st.entries st.currentString with
        | none => .error .encoding
        | some code => st.conv.push code st.currentBits
      else .ok st.conv
    let conv ← conv.push (2 ^ k + 1) st.currentBits
    .ok conv.flush

/-! ### `lzw.ts`: LZW decompression -/

/-- The distinct `GifEncodingError` raises of `decompressLZW` and
`BytesToCodeConverter.readCode`, kept apart so that theorems can tell which
guard fired. -/
inductive LzwErr where
  | badCodeSize : LzwErr
  | badBitLength : LzwErr
  | firstCodeNotInDict : LzwErr
  | invalidCode : LzwErr
deriving DecidableEq, Repr

/-- State of `BytesToCodeConverter`. -/
structure BytesToCode where
  data : List ℕ
  position : ℕ
  bitBuffer : ℕ
  bitsInBuffer : ℕ
deriving DecidableEq, Repr

/-- The `while (bitsInBuffer < numBits && position < length)` fill loop of
`readCode`. Each round adds 8 bits, so `fuel = numBits` dominates the
iteration count. -/
def fillGo : ℕ → BytesToCode → ℕ → BytesToCode
  | 0, st, _ => st
  | fuel + 1, st, numBits =>
    if st.bitsInBuffer < numBits ∧ st.position < st.data.length then
      fillGo fuel
        { st with
          bitBuffer :=
            st.bitBuffer ||| (st.data.getD st.position 0 <<< st.bitsInBuffer),
          bitsInBuffer := st.bitsInBuffer + 8,
          position := st.position + 1 }
        numBits
    else st

/-- `BytesToCodeConverter.readCode`: `none` when the input is exhausted with
fewer than `numBits` bits remaining. -/
def readCode (st : BytesToCode) (numBits : ℕ) :
    Except LzwErr (Option ℕ × BytesToCode) :=
  if numBits = 0 ∨ numBits > 16 then .error .badBitLength
  else
    let st := fillGo numBits st numBits
    if st.bitsInBuffer < numBits then .ok (none, st)
    else
      let mask := 2 ^ numBits - 1
      let code := st.bitBuffer &&& mask
      .ok (some code,
        { st with bitBuffer := st.bitBuffer >>> numBits,
                  bitsInBuffer := st.bitsInBuffer - numBits })

/-- `BytesToCodeConverter.hasMore`. -/
def hasMore (st : BytesToCode) : Prop :=
  st.position < st.data.length ∨ st.bitsInBuffer > 0

instance (st : BytesToCode) : Decidable (hasMore st) := by
  unfold hasMore; infer_instance

/-- Decoder dictionary of `LZWDecodeDictionary`: `entries` is the backing
array (`none` for the reserved clear/end slots), `nextCode` the next code to
assign. The source maintains `nextCode = entries.length`; both fields are kept
to mirror it. -/
structure DecDict where
  entries : List (Option (List ℕ))
  nextCode : ℕ
deriving DecidableEq, Repr

/-- `LZWDecodeDictionary.reset`. -/
def decReset (k : ℕ) : DecDict :=
  { entries := (List.range (2 ^ k)).map (fun i => some [i]) ++ [none, none],
    nextCode := 2 ^ k + 2 }

/-- `LZWDecodeDictionary.get`. -/
def DecDict.get (d : DecDict) (code : ℕ) : Option (List ℕ) :=
  match d.entries.get? code with
  | none => none
  | some o => o

/-- `LZWDecodeDictionary.add`: append only while `nextCode < MAX_CODE_VALUE`
(so entry 4095 is never created on the decode side). -/
def DecDict.add (d : DecDict) (str : List ℕ) : DecDict :=
  if d.nextCode < MAX_CODE_VALUE then
    { entries := d.entries ++ [some str], nextCode := d.nextCode + 1 }
  else d

/-- The main `while (converter.hasMore())` loop of `decompressLZW`.
Every iteration that continues consumed a code of `currentBits ≥ 1` bits from
the finite bit supply `8 · data.length`, so
`fuel = 8 · data.length + 16` dominates the iteration count. -/
def decodeGo (k : ℕ) :
    ℕ → BytesToCode → DecDict → ℕ → List ℕ → List ℕ →
    Except LzwErr (List ℕ)
  | 0, _, _, _, _, output => .ok output
  | fuel + 1, conv, dict, currentBits, prev, output =>
    if hasMore conv then
      match readCode conv currentBits with
      | .error e => .error e
      | .ok (none, _) => .ok output
      | .ok (some code, conv) =>
        if code = 2 ^ k then
          decodeGo k fuel conv (decReset k) (k + 1) [] output
        else if code = 2 ^ k + 1 then .ok output
        else
          let cur? : Option (List ℕ) :=
            if code < dict.nextCode then some ((dict.get code).getD [])
            else if code = dict.nextCode then
              if prev.length = 0 then none else some (prev ++ prev.take 1)
            else none
          match cur? with
          | none =>
            if code = dict.nextCode ∧ prev.length = 0 then
              .error .firstCodeNotInDict
            else .error .invalidCode
          | some currentString =>
            let output := output ++ currentString
            let (dict, currentBits) :=
              if prev.length > 0 ∧ dict.nextCode < MAX_CODE_VALUE then
                let dict := dict.add (prev ++ currentString.take 1)
                let currentBits :=
                  if dict.nextCode ≥ 2 ^ currentBits ∧ currentBits < 12 then
                    currentBits + 1
                  else currentBits
                (dict, currentBits)
              else (dict, currentBits)
            decodeGo k fuel conv dict currentBits currentString output
    else .ok output

/-- `lzw.ts` `decompressLZW`. -/
def decompressLZW (compressedData : List ℕ) (initialCodeSize : ℕ) :
    Except LzwErr (List ℕ) :=
  if compressedData.length = 0 then .ok []
  else if initialCodeSize < 1 ∨ initialCodeSize > 8 then .error .badCodeSize
  else
    decodeGo initialCodeSize (8 * compressedData.length + 16)
      ⟨compressedData, 0, 0, 0⟩ (decReset initialCodeSize)
      (initialCodeSize + 1) [] []

/-- `lzw.ts` `validateLZWParams` (the `Uint8Array` type test and the
non-integer code sizes are unrepresentable in the embedding). -/
def validateLZWParams (data : List ℕ) (codeSize : ℕ) : Except GifErr Unit :=
  if data.length = 0 then .error .encoding
  else if codeSize < 1 ∨ codeSize > 8 then .error .encoding
  else if data.any (fun v => v > 2 ^ codeSize - 1) then .error .encoding
  else .ok ()

/-! ### Verification scaffolding for the LZW round-trip

Ghost state and specification functions used to relate `compressLZW` and
`decompressLZW`. Nothing below is part of the embedded program; the
program-facing theorems only mention `compressLZW`/`decompressLZW`. -/

/-- Numeric value of a little-endian byte list: bit `i` of byte `j` is bit
`8·j + i` of the packed bit stream. -/
def dataVal : List ℕ → ℕ
  | [] => 0
  | b :: t => b + 256 * dataVal t

/-- Numeric value of all bits held by a `CodeToBytes` converter (output
bytes plus the pending partial byte). -/
def convVal (st : CodeToBytes) : ℕ :=
  dataVal st.output + st.remainingValue * 2 ^ (8 * st.output.length)

/-- Number of bits held by a `CodeToBytes` converter. -/
def convBits (st : CodeToBytes) : ℕ := 8 * st.output.length + st.remainingBits

/-- Well-formedness of a `CodeToBytes` converter state. -/
def ConvInv (st : CodeToBytes) : Prop :=
  st.remainingBits < 8 ∧ st.remainingValue < 2 ^ st.remainingBits ∧
    ∀ b ∈ st.output, b < 256

/-- Numeric value of a `(code, width)` field sequence, first field in the
lowest bits. -/
def packVal : List (ℕ × ℕ) → ℕ
  | [] => 0
  | (c, w) :: rest => c + 2 ^ w * packVal rest

/-- Total width of a field sequence. -/
def wsum : List (ℕ × ℕ) → ℕ
  | [] => 0
  | (_, w) :: rest => w + wsum rest

/-- Numeric value of the unconsumed bits of a `BytesToCode` reader. -/
def rVal (st : BytesToCode) : ℕ :=
  st.bitBuffer + 2 ^ st.bitsInBuffer * dataVal (st.data.drop st.position)

/-- Number of unconsumed bits of a `BytesToCode` reader. -/
def tBits (st : BytesToCode) : ℕ :=
  st.bitsInBuffer + 8 * (st.data.length - st.position)

/-- Well-formedness of a `BytesToCode` reader state between reads. -/
def DInv (st : BytesToCode) : Prop :=
  st.bitsInBuffer < 8 ∧ st.bitBuffer < 2 ^ st.bitsInBuffer ∧
    st.position ≤ st.data.length ∧ ∀ b ∈ st.data, b < 256

/-- The state transformation of one `compressStep`, with the bit converter
left untouched (ghost mirror of `compressStep`; the `none` arm is
unreachable for reachable encoder states). -/
def stepAbs (k : ℕ) (st : EncState) (b : ℕ) : EncState :=
  let newString := st.currentString ++ [b]
  if (dictGet st.entries newString).isSome then
    { st with currentString := newString }
  else
    match dictGet st.entries st.currentString with
    | none => st
    | some _ =>
      if st.nextCode > MAX_CODE_VALUE then
        { st with entries := encResetEntries k, nextCode := 2 ^ k + 2,
                  currentBits := k + 1, currentString := [b] }
      else
        let newBits := calculateCodeBits st.nextCode (k + 1)
        { st with entries := st.entries ++ [(newString, st.nextCode)],
                  nextCode := st.nextCode + 1,
                  currentBits :=
                    if newBits > st.currentBits ∧ newBits ≤ 12 then newBits
                    else st.currentBits,
                  currentString := [b] }

/-- The `(code, width)` fields one `compressStep` pushes. -/
def stepFields (k : ℕ) (st : EncState) (b : ℕ) : List (ℕ × ℕ) :=
  let newString := st.currentString ++ [b]
  if (dictGet st.entries newString).isSome then []
  else
    match dictGet st.entries st.currentString with
    | none => []
    | some code =>
      if st.nextCode > MAX_CODE_VALUE then
        [(code, st.currentBits), (2 ^ k, st.currentBits)]
      else [(code, st.currentBits)]

/-- All fields pushed by the main loop of `compressLZW` from state `st`. -/
def bodyFields (k : ℕ) : List ℕ → EncState → List (ℕ × ℕ)
  | [], _ => []
  | b :: rest, st => stepFields k st b ++ bodyFields k rest (stepAbs k st b)

/-- The fields pushed after the main loop: the final string's code (if any)
followed by the end code, both at the final width. -/
def tailFields (k : ℕ) (st : EncState) : List (ℕ × ℕ) :=
  if st.currentString.length > 0 then
    match dictGet st.entries st.currentString with
    | none => [(2 ^ k + 1, st.currentBits)]
    | some code => [(code, st.currentBits), (2 ^ k + 1, st.currentBits)]
  else [(2 ^ k + 1, st.currentBits)]

/-- Invariant of reachable encoder states: the width tracks the largest
assigned code, the next code is in range, the current string and all single
bytes are in the dictionary, and every stored code is below `nextCode` and
distinct from the reserved clear/end codes. -/
def EncOk (k : ℕ) (st : EncState) : Prop :=
  st.currentBits = calculateCodeBits (st.nextCode - 1) (k + 1) ∧
  2 ^ k + 2 ≤ st.nextCode ∧ st.nextCode ≤ 4096 ∧
  (st.currentString ≠ [] → (dictGet st.entries st.currentString).isSome) ∧
  (∀ b, b < 2 ^ k → dictGet st.entries [b] = some b) ∧
  (∀ s c, dictGet st.entries s = some c →
    c < st.nextCode ∧ c ≠ 2 ^ k ∧ c ≠ 2 ^ k + 1)

/-- Correspondence between the encoder state and the decoder's dictionary
and previous string: either both sides are freshly reset (decoder one code
behind nothing yet), or the decoder is exactly one dictionary entry behind,
resolves every stored encoder code, and the encoder's newest entry is
`prev ++ currentString.take 1`. -/
def SimOk (k : ℕ) (E : EncState) (D : DecDict) (prev : List ℕ) : Prop :=
  D.entries.length = D.nextCode ∧
  ((prev = [] ∧ E.entries = encResetEntries k ∧ E.nextCode = 2 ^ k + 2 ∧
      D = decReset k) ∨
   (prev ≠ [] ∧ E.currentString ≠ [] ∧ D.nextCode = E.nextCode - 1 ∧
      ∀ s c, dictGet E.entries s = some c →
        (c < D.nextCode ∧ D.get c = some s) ∨
        (c = D.nextCode ∧ s = prev ++ E.currentString.take 1)))

/-! ### `writer.ts`: the GIF writer -/

/-- `types.ts` `DisposalMethod` values. -/
def DisposalMethod.None' : ℕ := 0

/-- `DisposalMethod.DoNotDispose`. -/
def DisposalMethod.DoNotDispose : ℕ := 1

/-- `DisposalMethod.RestoreToBackground`. -/
def DisposalMethod.RestoreToBackground : ℕ := 2

/-- `DisposalMethod.RestoreToPrevious`. -/
def DisposalMethod.RestoreToPrevious : ℕ := 3

/-- `types.ts` `IndexedImage`. -/
structure IndexedImage where
  width : ℕ
  height : ℕ
  data : List ℕ
  palette : List ℕ
deriving DecidableEq, Repr

/-- `types.ts` `GlobalColorTableOptions` (all fields optional in the source;
defaults are applied at the use site exactly as there). -/
structure GlobalColorTableOptions where
  colors : Option (List ℕ) := none
  sorted : Bool := false
  backgroundColorIndex : ℕ := 0
  pixelAspect : ℕ := 0
deriving DecidableEq, Repr

/-- `types.ts` `ImageOptions`. `delay` and `transparentIndex` are `ℤ` because
the source uses `-1` as the no-transparency default. -/
structure ImageOptions where
  left : ℕ := 0
  top : ℕ := 0
  delay : Option ℤ := none
  disposal : Option ℕ := none
  transparentIndex : Option ℤ := none
deriving DecidableEq, Repr

/-- `types.ts` `AnimationOptions`. -/
structure AnimationOptions where
  loops : ℤ := 0
deriving DecidableEq, Repr

/-- `writer.ts` `GifWriter` state: the `ByteArrayOutputStream` contents plus
the ordering flags. -/
structure GifWriter where
  output : List ℕ
  hasWrittenHeader : Bool
  hasWrittenLogicalScreen : Bool
  frameCount : ℕ
deriving DecidableEq, Repr

/-- `new GifWriter()` with the default `ByteArrayOutputStream`. -/
def freshWriter : GifWriter :=
  { output := [], hasWrittenHeader := false, hasWrittenLogicalScreen := false,
    frameCount := 0 }

/-- Result of a writer method: on a thrown exception the `GifWriter` state at
the moment of the throw is kept (in JavaScript the partially mutated output
stream survives the exception). -/
abbrev WriterResult := Except (GifErr × GifWriter) GifWriter

/-- `ByteArrayOutputStream.writeByte` (validates the byte range; a negative or
non-integer byte is unrepresentable in `ℕ`). -/
def GifWriter.writeByte (w : GifWriter) (b : ℕ) : WriterResult :=
  if b > 255 then .error (.validation, w)
  else .ok { w with output := w.output ++ [b] }

/-- `ByteArrayOutputStream.writeBytes` on a `Uint8Array` argument: bytes are
appended without validation. -/
def GifWriter.writeBytesU (w : GifWriter) (bs : List ℕ) : GifWriter :=
  { w with output := w.output ++ bs }

/-- `ByteArrayOutputStream.writeBytes` on a `number[]` argument: each byte is
validated via `writeByte`. -/
def GifWriter.writeBytesArr : GifWriter → List ℕ → WriterResult
  | w, [] => .ok w
  | w, b :: rest =>
    match w.writeByte b with
    | .error e => .error e
    | .ok w => w.writeBytesArr rest

/-- `GifWriter.writeHeader`. -/
def GifWriter.writeHeader (w : GifWriter) : WriterResult :=
  if w.hasWrittenHeader then .error (.encoding, w)
  else
    let w := w.writeBytesU GIF_SIGNATURE
    let w := w.writeBytesU GIF_VERSION_89A
    .ok { w with hasWrittenHeader := true }

/-- The "determine color table settings" block of `writeLogicalScreen`
(factored out; it performs no writes). -/
def determineColorTable (options : GlobalColorTableOptions) :
    Except GifErr (Bool × ℕ × Option (List ℕ)) :=
  match options.colors with
  | some colors =>
    if colors.length > 0 then
      match validatePalette colors with
      | .error e => .error e
      | .ok _ =>
        match calculateColorTableSize (colors.length / 3) with
        | .error e => .error e
        | .ok colorTableSize =>
          .ok (true, colorTableSize, some (padColorTable colors colorTableSize))
    else .ok (false, 0, none)
  | none => .ok (false, 0, none)

/-- `GifWriter.writeLogicalScreen`. -/
def GifWriter.writeLogicalScreen (w : GifWriter) (width height : ℕ)
    (options : GlobalColorTableOptions) : WriterResult :=
  if ¬w.hasWrittenHeader then .error (.encoding, w)
  else if w.hasWrittenLogicalScreen then .error (.encoding, w)
  else
    match validateDimensions width height with
    | .error e => .error (e, w)
    | .ok _ =>
      match determineColorTable options with
      | .error e => .error (e, w)
      | .ok (globalColorTableFlag, colorTableSize, paddedColorTable) =>
        match write16BitLE width with
        | .error e => .error (e, w)
        | .ok wle =>
          match write16BitLE height with
          | .error e => .error (e, w)
          | .ok hle =>
            let w := w.writeBytesU wle
            let w := w.writeBytesU hle
            let packedFields :=
              (if globalColorTableFlag then 0x80 else 0x00) |||
              0x70 ||| (if options.sorted then 0x08 else 0x00) ||| colorTableSize
            match w.writeByte packedFields with
            | .error e => .error e
            | .ok w =>
            match w.writeByte (options.backgroundColorIndex &&& 0xff) with
            | .error e => .error e
            | .ok w =>
            match w.writeByte (options.pixelAspect &&& 0xff) with
            | .error e => .error e
            | .ok w =>
              let w :=
                match paddedColorTable with
                | some t => w.writeBytesU t
                | none => w
              .ok { w with hasWrittenLogicalScreen := true }

/-- `GifWriter.writeAnimationInfo` (Netscape 2.0 application extension). -/
def GifWriter.writeAnimationInfo (w : GifWriter)
    (options : AnimationOptions) : WriterResult :=
  if ¬w.hasWrittenLogicalScreen then .error (.encoding, w)
  else
    let loopCount := Max.max 0 (Min.min 65535 options.loops)
    match write16BitLE loopCount with
    | .error e => .error (e, w)
    | .ok le =>
      w.writeBytesArr
        ([0x21, 0xff, 11] ++ NETSCAPE_APPLICATION_IDENTIFIER ++
          NETSCAPE_APPLICATION_AUTHENTICATION_CODE ++
          [3, 0x01] ++ le ++ [0x00])

/-- The `hasTransparency` test of `writeGraphicsControl`. -/
def gceHasTransparency (options : ImageOptions) : Prop :=
  0 ≤ options.transparentIndex.getD (-1) ∧
    options.transparentIndex.getD (-1) ≤ 255

instance (options : ImageOptions) : Decidable (gceHasTransparency options) := by
  unfold gceHasTransparency; infer_instance

/-- The packed-fields byte of `writeGraphicsControl`:
`(disposal & 7) << 2 | transparentFlag`. -/
def gcePacked (options : ImageOptions) : ℕ :=
  ((options.disposal.getD DisposalMethod.RestoreToBackground &&& 0x07)
      <<< 2) |||
    (if gceHasTransparency options then 0x01 else 0x00)

/-- The transparent-color byte of `writeGraphicsControl`. -/
def gceTransparentByte (options : ImageOptions) : ℕ :=
  if gceHasTransparency options then
    (options.transparentIndex.getD (-1)).toNat &&& 0xff
  else 0

/-- `GifWriter.writeGraphicsControl` (private). -/
def GifWriter.writeGraphicsControl (w : GifWriter)
    (options : ImageOptions) : WriterResult :=
  let delay := options.delay.getD 0
  let delayTime := msToGifDelay delay
  match w.writeBytesArr [0x21, 0xf9, 0x04] with
  | .error e => .error e
  | .ok w =>
    match w.writeByte (gcePacked options) with
    | .error e => .error e
    | .ok w =>
      match write16BitLE delayTime with
      | .error e => .error (e, w)
      | .ok le =>
        let w := w.writeBytesU le
        match w.writeByte (gceTransparentByte options) with
        | .error e => .error e
        | .ok w => w.writeByte 0x00

/-- `GifWriter.writeImageDescriptor` (private). -/
def GifWriter.writeImageDescriptor (w : GifWriter) (image : IndexedImage)
    (options : ImageOptions) : WriterResult :=
  match validatePalette image.palette with
  | .error e => .error (e, w)
  | .ok _ =>
    match calculateColorTableSize (image.palette.length / 3) with
    | .error e => .error (e, w)
    | .ok colorTableSize =>
      match w.writeByte 0x2c with
      | .error e => .error e
      | .ok w =>
        match write16BitLE options.left with
        | .error e => .error (e, w)
        | .ok le =>
          let w := w.writeBytesU le
          match write16BitLE options.top with
          | .error e => .error (e, w)
          | .ok le =>
            let w := w.writeBytesU le
            match write16BitLE image.width with
            | .error e => .error (e, w)
            | .ok le =>
              let w := w.writeBytesU le
              match write16BitLE image.height with
              | .error e => .error (e, w)
              | .ok le =>
                let w := w.writeBytesU le
                let packedFields := 0x80 ||| 0x00 ||| 0x00 ||| colorTableSize
                w.writeByte packedFields

/-- The `while (offset < data.length)` chunking loop of
`writeDataSubBlocks`. Each round consumes `min 255 (len - offset) ≥ 1` input
bytes, so `fuel = data.length + 1` dominates the iteration count. -/
def wdsbGo : ℕ → GifWriter → List ℕ → WriterResult
  | 0, w, _ => .ok w
  | fuel + 1, w, data =>
    if data.isEmpty then .ok w
    else
      let blockSize := Min.min 255 data.length
      match w.writeByte blockSize with
      | .error e => .error e
      | .ok w =>
        match w.writeBytesArr (data.take blockSize) with
        | .error e => .error e
        | .ok w => wdsbGo fuel w (data.drop blockSize)

/-- `GifWriter.writeDataSubBlocks` (private): length-prefixed chunks of at
most 255 bytes (the source writes each payload byte through `writeByte`). -/
def GifWriter.writeDataSubBlocks (w : GifWriter) (data : List ℕ) :
    WriterResult :=
  wdsbGo (data.length + 1) w data

/-- `Math.ceil(Math.log2 n)`: the smallest `m` with `2^m ≥ n` (for `n ≥ 1`).
The doubling loop runs at most `log2 n ≤ n` times, so `fuel = n` dominates
it. -/
def clogGo : ℕ → ℕ → ℕ → ℕ
  | 0, m, _ => m
  | fuel + 1, m, n => if 2 ^ m < n then clogGo fuel (m + 1) n else m

/-- `Math.ceil(Math.log2 n)` for natural `n ≥ 1`. -/
def ceilLog2 (n : ℕ) : ℕ := clogGo n 0 n

/-- `GifWriter.writeImageData` (private). -/
def GifWriter.writeImageData (w : GifWriter) (image : IndexedImage) :
    WriterResult :=
  if image.data.length ≠ image.width * image.height then
    .error (.validation, w)
  else
    let colorCount := image.palette.length / 3
    let minCodeSize := if colorCount ≤ 2 then 2 else ceilLog2 colorCount
    let lzwCodeSize := Max.max 2 minCodeSize
    if image.data.any (fun px => (px : ℤ) > (colorCount : ℤ) - 1) then
      .error (.validation, w)
    else
      match validateLZWParams image.data lzwCodeSize with
      | .error e => .error (e, w)
      | .ok _ =>
        match compressLZW image.data lzwCodeSize with
        | .error e => .error (e, w)
        | .ok compressedData =>
          match w.writeByte lzwCodeSize with
          | .error e => .error e
          | .ok w =>
            match w.writeDataSubBlocks compressedData with
            | .error e => .error e
            | .ok w => w.writeByte 0x00

/-- `GifWriter.writeImage`. -/
def GifWriter.writeImage (w : GifWriter) (image : IndexedImage)
    (options : ImageOptions) : WriterResult :=
  if ¬w.hasWrittenLogicalScreen then .error (.encoding, w)
  else
    match validateDimensions image.width image.height with
    | .error e => .error (e, w)
    | .ok _ =>
      match validatePalette image.palette with
      | .error e => .error (e, w)
      | .ok _ =>
        let needsGraphicsControl :=
          w.frameCount > 0 ∨ options.delay.isSome ∨
          options.disposal.isSome ∨ options.transparentIndex.isSome
        let gc : WriterResult :=
          if needsGraphicsControl then w.writeGraphicsControl options
          else .ok w
        match gc with
        | .error e => .error e
        | .ok w =>
          match w.writeImageDescriptor image options with
          | .error e => .error e
          | .ok w =>
            match calculateColorTableSize (image.palette.length / 3) with
            | .error e => .error (e, w)
            | .ok s =>
              let w := w.writeBytesU (padColorTable image.palette s)
              match w.writeImageData image with
              | .error e => .error e
              | .ok w => .ok { w with frameCount := w.frameCount + 1 }

/-- `GifWriter.writeTrailer` (note: the source performs no state check
here). -/
def GifWriter.writeTrailer (w : GifWriter) : WriterResult :=
  w.writeByte GIF_TRAILER

/-! ### `reader.ts`: the GIF reader -/

/-- `reader.ts` `ImageData`-shaped frame pixel buffer. -/
structure ImageDataR where
  data : List ℕ
  width : ℕ
  height : ℕ
deriving DecidableEq, Repr

/-- `reader.ts` `GifFrame`. -/
structure GifFrame where
  imageData : ImageDataR
  delay : ℕ
  disposal : ℕ
  left : ℕ
  top : ℕ
  transparentIndex : ℤ
deriving DecidableEq, Repr

/-- `GifReader.readByte`: one byte at `position`, advancing it. -/
def readByteR (data : List ℕ) (pos : ℕ) : Except GifErr (ℕ × ℕ) :=
  if pos ≥ data.length then .error .validation
  else .ok (data.getD pos 0, pos + 1)

/-- `GifReader.read16`: little-endian 16-bit read. -/
def read16R (data : List ℕ) (pos : ℕ) : Except GifErr (ℕ × ℕ) :=
  match readByteR data pos with
  | .error e => .error e
  | .ok (low, pos) =>
    match readByteR data pos with
    | .error e => .error e
    | .ok (high, pos) => .ok (low ||| (high <<< 8), pos)

/-- `GifReader.readBytes`. -/
def readBytesR (data : List ℕ) (pos count : ℕ) : Except GifErr (List ℕ × ℕ) :=
  if pos + count > data.length then .error .validation
  else .ok ((data.drop pos).take count, pos + count)

/-- `GifReader.skipDataSubBlocks`. Each round advances the position by at
least two (`1 + blockSize` with `blockSize ≥ 1`) or stops, so
`fuel = data.length + 1` dominates the iteration count. -/
def skipSubBlocksGo (data : List ℕ) : ℕ → ℕ → Except GifErr ℕ
  | 0, pos => .ok pos
  | fuel + 1, pos =>
    match readByteR data pos with
    | .error e => .error e
    | .ok (blockSize, pos) =>
      if blockSize > 0 then skipSubBlocksGo data fuel (pos + blockSize)
      else .ok pos

/-- `GifReader.readDataSubBlocks`: gather the sub-block payloads. Same fuel
bound as `skipSubBlocksGo`. -/
def readSubBlocksGo (data : List ℕ) : ℕ → ℕ → List ℕ →
    Except GifErr (List ℕ × ℕ)
  | 0, pos, acc => .ok (acc, pos)
  | fuel + 1, pos, acc =>
    match readByteR data pos with
    | .error e => .error e
    | .ok (blockSize, pos) =>
      if blockSize > 0 then
        match readBytesR data pos blockSize with
        | .error e => .error e
        | .ok (block, pos) => readSubBlocksGo data fuel pos (acc ++ block)
      else .ok (acc, pos)

/-- Write one RGBA quadruple into the canvas (out-of-range writes are
dropped, as for a JavaScript typed array). -/
def setPixel (canvas : List ℕ) (ci r g b a : ℕ) : List ℕ :=
  ((((canvas.set ci r).set (ci + 1) g).set (ci + 2) b).set (ci + 3) a)

/-- `GifReader.clearFrameArea`: clear a sub-rectangle to the background
color. -/
def clearFrameArea (canvas : List ℕ) (left top width height : ℕ)
    (globalColorTable : Option (List ℕ)) (backgroundColorIndex : ℕ)
    (canvasWidth : ℕ) : List ℕ :=
  let bg : ℕ × ℕ × ℕ × ℕ :=
    match globalColorTable with
    | some t =>
      if backgroundColorIndex < t.length / 3 then
        (t.getD (backgroundColorIndex * 3) 0,
          t.getD (backgroundColorIndex * 3 + 1) 0,
          t.getD (backgroundColorIndex * 3 + 2) 0, 255)
      else (0, 0, 0, 0)
    | none => (0, 0, 0, 0)
  (List.range height).foldl (fun canvas y =>
    (List.range width).foldl (fun canvas x =>
      let canvasX := left + x
      let canvasY := top + y
      if canvasX < canvasWidth then
        let canvasIndex := (canvasY * canvasWidth + canvasX) * 4
        if canvasIndex < canvas.length then
          setPixel canvas canvasIndex bg.1 bg.2.1 bg.2.2.1 bg.2.2.2
        else canvas
      else canvas) canvas) canvas

/-- `GifReader.deinterlaceY`: the 4-pass GIF interlace row mapping
(`Math.ceil` over possibly negative numerators is `(a+b-1).fdiv b`). -/
def deinterlaceY (y height : ℕ) : ℤ :=
  let h : ℤ := height
  let c1 := (h + 7).fdiv 8
  let c2 := (h - 4 + 7).fdiv 8
  let c3 := (h - 2 + 3).fdiv 4
  if (y : ℤ) < c1 then (y : ℤ) * 8
  else if (y : ℤ) < c1 + c2 then ((y : ℤ) - c1) * 8 + 4
  else if (y : ℤ) < c1 + c2 + c3 then ((y : ℤ) - c1 - c2) * 4 + 2
  else ((y : ℤ) - c1 - c2 - c3) * 2 + 1

/-- `GifReader.compositeFrame`: draw the frame sub-rectangle onto the
canvas, skipping transparent pixels and clipping to the canvas. -/
def compositeFrame (canvas indexData : List ℕ) (left top width height : ℕ)
    (colorTable : Option (List ℕ)) (transparentIndex : ℤ)
    (interlaced : Bool) (canvasWidth canvasHeight : ℕ) : List ℕ :=
  (List.range (Min.min indexData.length (width * height))).foldl
    (fun canvas i =>
      let colorIndex := indexData.getD i 0
      if (colorIndex : ℤ) = transparentIndex then canvas
      else
        let frameX := i % width
        let frameY := i / width
        let actualY : ℤ :=
          if interlaced then deinterlaceY frameY height else (frameY : ℤ)
        let canvasX : ℤ := (left : ℤ) + frameX
        let canvasY : ℤ := (top : ℤ) + actualY
        if 0 ≤ canvasX ∧ canvasX < (canvasWidth : ℤ) ∧ 0 ≤ canvasY ∧
            canvasY < (canvasHeight : ℤ) then
          let canvasIndex := ((canvasY * canvasWidth + canvasX) * 4).toNat
          if canvasIndex < canvas.length then
            match colorTable with
            | some ct =>
              if colorIndex * 3 + 2 < ct.length then
                setPixel canvas canvasIndex (ct.getD (colorIndex * 3) 0)
                  (ct.getD (colorIndex * 3 + 1) 0)
                  (ct.getD (colorIndex * 3 + 2) 0) 255
              else setPixel canvas canvasIndex 0 0 0 255
            | none => setPixel canvas canvasIndex 0 0 0 255
          else canvas
        else canvas)
    canvas

/-- `GifReader.validateHeader` (constructor): length, HTML/PNG/JPEG
detection, "GIF" signature, version "87a" or "89a". -/
def validateHeader (data : List ℕ) : Except GifErr Unit :=
  if data.length < 6 then .error .validation
  else
    let b0 := data.getD 0 0
    let b1 := data.getD 1 0
    let b2 := data.getD 2 0
    let b3 := data.getD 3 0
    if b0 = 0x3c then .error .validation
    else if (b0 = 0x50 ∧ b1 = 0x4e ∧ b2 = 0x47) ∨
        (b1 = 0x50 ∧ b2 = 0x4e ∧ b3 = 0x47) then .error .validation
    else if b0 = 0xff ∧ b1 = 0xd8 then .error .validation
    else if ¬(b0 = 0x47 ∧ b1 = 0x49 ∧ b2 = 0x46) then .error .validation
    else if ¬((b3 = 0x38 ∧ data.getD 4 0 = 0x37 ∧ data.getD 5 0 = 0x61) ∨
        (b3 = 0x38 ∧ data.getD 4 0 = 0x39 ∧ data.getD 5 0 = 0x61)) then
      .error .validation
    else .ok ()

/-- The `label === 0xF9` (graphics control extension) branch of
`getFrames`: returns the parsed `(delayMs, disposal, transparentIndex)` (or
`none` when the block size is not 4, in which case the cached values are left
unchanged) and the new position. -/
def readGraphicsControl (data : List ℕ) (pos : ℕ) :
    Except GifErr (Option (ℕ × ℕ × ℤ) × ℕ) :=
  match readByteR data pos with
  | .error e => .error e
  | .ok (blockSize, pos) =>
    if blockSize = 4 then
      match readByteR data pos with
      | .error e => .error e
      | .ok (packedFlags, pos) =>
        match read16R data pos with
        | .error e => .error e
        | .ok (rawDelay, pos) =>
          match readByteR data pos with
          | .error e => .error e
          | .ok (tiByte, pos) =>
            match readByteR data pos with
            | .error e => .error e
            | .ok (_, pos) =>
              let delay := rawDelay * 10
              let disposal :=
                match (packedFlags &&& 0x1c) >>> 2 with
                | 1 => DisposalMethod.DoNotDispose
                | 2 => DisposalMethod.RestoreToBackground
                | 3 => DisposalMethod.RestoreToPrevious
                | _ => DisposalMethod.DoNotDispose
              let transparentIndex : ℤ :=
                if packedFlags &&& 0x01 = 0 then -1 else (tiByte : ℤ)
              .ok (some (delay, disposal, transparentIndex), pos)
    else
      match readByteR data (pos + blockSize) with
      | .error e => .error e
      | .ok (_, pos) => .ok (none, pos)

/-- Reader state threaded through the `getFrames` record loop. -/
structure ReaderState where
  position : ℕ
  canvas : List ℕ
  previousCanvas : Option (List ℕ)
  currentDelay : ℕ
  currentDisposal : ℕ
  currentTransparentIndex : ℤ
  frames : List GifFrame
deriving DecidableEq, Repr

/-- The "handle disposal method from previous frame" and "save canvas state"
steps of the image-descriptor branch (source lines: `try { ... }` before the
decompression). Note the source reads `currentDisposal`, which at this point
holds the disposal parsed from the graphics control extension immediately
preceding **this** image descriptor (it is reset after every frame), and the
**current** frame's sub-rectangle. -/
def applyDisposal (canvas : List ℕ) (previousCanvas : Option (List ℕ))
    (currentDisposal : ℕ) (frameLeft frameTop frameWidth frameHeight : ℕ)
    (globalColorTable : Option (List ℕ)) (backgroundColorIndex : ℕ)
    (canvasWidth : ℕ) : List ℕ × Option (List ℕ) :=
  let canvas1 :=
    if previousCanvas.isSome ∧
        currentDisposal = DisposalMethod.RestoreToPrevious then
      previousCanvas.getD []
    else if currentDisposal = DisposalMethod.RestoreToBackground then
      clearFrameArea canvas frameLeft frameTop frameWidth frameHeight
        globalColorTable backgroundColorIndex canvasWidth
    else canvas
  let previousCanvas1 :=
    if currentDisposal = DisposalMethod.RestoreToPrevious then some canvas1
    else previousCanvas
  (canvas1, previousCanvas1)

/-- The fields read by the image-descriptor branch before its `try` block. -/
structure FrameHeader where
  frameLeft : ℕ
  frameTop : ℕ
  frameWidth : ℕ
  frameHeight : ℕ
  interlaceFlag : Bool
  localColorTable : Option (List ℕ)
  lzwMinimumCodeSize : ℕ
  compressedData : List ℕ
  nextPos : ℕ
deriving DecidableEq, Repr

/-- The reads of the image-descriptor branch of `getFrames` that happen
before the `try` block (descriptor fields, local color table, LZW minimum
code size, and the gathered data sub-blocks). A failure here — for example
sub-blocks that run past the end of the stream — propagates out of
`getFrames`. -/
def readImageHeader (data : List ℕ) (pos : ℕ) : Except GifErr FrameHeader :=
  match read16R data pos with
  | .error e => .error e
  | .ok (frameLeft, pos) =>
  match read16R data pos with
  | .error e => .error e
  | .ok (frameTop, pos) =>
  match read16R data pos with
  | .error e => .error e
  | .ok (frameWidth, pos) =>
  match read16R data pos with
  | .error e => .error e
  | .ok (frameHeight, pos) =>
  match readByteR data pos with
  | .error e => .error e
  | .ok (framePacked, pos) =>
    let localColorTableFlag := framePacked &&& 0x80 ≠ 0
    let interlaceFlag := framePacked &&& 0x40 ≠ 0
    let localColorTableSize :=
      if localColorTableFlag then 2 <<< (framePacked &&& 0x07) else 0
    let lctStep : Except GifErr (Option (List ℕ) × ℕ) :=
      if localColorTableFlag then
        match readBytesR data pos (localColorTableSize * 3) with
        | .error e => .error e
        | .ok (t, pos) => .ok (some t, pos)
      else .ok (none, pos)
    match lctStep with
    | .error e => .error e
    | .ok (localColorTable, pos) =>
      match readByteR data pos with
      | .error e => .error e
      | .ok (lzwMinimumCodeSize, pos) =>
        match readSubBlocksGo data (data.length + 1) pos [] with
        | .error e => .error e
        | .ok (compressedData, pos) =>
          .ok ⟨frameLeft, frameTop, frameWidth, frameHeight, interlaceFlag,
            localColorTable, lzwMinimumCodeSize, compressedData, pos⟩

/-- The `try`/`catch` body of the image-descriptor branch: apply the current
disposal, snapshot if needed, then either composite the decompressed pixels
(success) or push a white placeholder frame of the descriptor's dimensions
(when `decompressLZW` raises). This step never throws. -/
def processFrame (width height : ℕ) (globalColorTable : Option (List ℕ))
    (backgroundColorIndex : ℕ) (st : ReaderState) (fh : FrameHeader) :
    ReaderState :=
  let colorTable :=
    match fh.localColorTable with
    | some t => some t
    | none => globalColorTable
  let disposed := applyDisposal st.canvas st.previousCanvas
    st.currentDisposal fh.frameLeft fh.frameTop fh.frameWidth fh.frameHeight
    globalColorTable backgroundColorIndex width
  match decompressLZW fh.compressedData fh.lzwMinimumCodeSize with
  | .ok indexData =>
    let canvas2 := compositeFrame disposed.1 indexData fh.frameLeft
      fh.frameTop fh.frameWidth fh.frameHeight colorTable
      st.currentTransparentIndex fh.interlaceFlag width height
    { position := fh.nextPos, canvas := canvas2, previousCanvas := disposed.2,
      currentDelay := 100, currentDisposal := DisposalMethod.DoNotDispose,
      currentTransparentIndex := -1,
      frames := st.frames ++
        [{ imageData := ⟨canvas2, width, height⟩, delay := st.currentDelay,
           disposal := st.currentDisposal, left := 0, top := 0,
           transparentIndex := st.currentTransparentIndex }] }
  | .error _ =>
    { position := fh.nextPos, canvas := disposed.1, previousCanvas := disposed.2,
      currentDelay := 100, currentDisposal := DisposalMethod.DoNotDispose,
      currentTransparentIndex := -1,
      frames := st.frames ++
        [{ imageData := ⟨List.replicate (fh.frameWidth * fh.frameHeight * 4) 255,
             fh.frameWidth, fh.frameHeight⟩,
           delay := st.currentDelay, disposal := st.currentDisposal,
           left := fh.frameLeft, top := fh.frameTop,
           transparentIndex := st.currentTransparentIndex }] }

/-- The `while (this.position < this.data.length)` record loop of
`GifReader.getFrames`. Every iteration consumes at least the separator byte
(all helpers only advance the position), so `fuel = data.length + 1`
dominates the iteration count. -/
def getFramesGo (data : List ℕ) (width height : ℕ)
    (globalColorTable : Option (List ℕ)) (backgroundColorIndex : ℕ) :
    ℕ → ReaderState → Except GifErr (List GifFrame)
  | 0, st => .ok st.frames
  | fuel + 1, st =>
    if st.position < data.length then
      match readByteR data st.position with
      | .error e => .error e
      | .ok (separator, pos) =>
        if separator = 0x21 then
          match readByteR data pos with
          | .error e => .error e
          | .ok (label, pos) =>
            if label = 0xff then
              match readByteR data pos with
              | .error e => .error e
              | .ok (blockSize, pos) =>
                match readBytesR data pos blockSize with
                | .error e => .error e
                | .ok (_, pos) =>
                  match skipSubBlocksGo data (data.length + 1) pos with
                  | .error e => .error e
                  | .ok pos =>
                    getFramesGo data width height globalColorTable
                      backgroundColorIndex fuel { st with position := pos }
            else if label = 0xf9 then
              match readGraphicsControl data pos with
              | .error e => .error e
              | .ok (vals, pos) =>
                match vals with
                | some (delay, disposal, transparentIndex) =>
                  getFramesGo data width height globalColorTable
                    backgroundColorIndex fuel
                    { st with
                        position := pos
                        currentDelay := delay
                        currentDisposal := disposal
                        currentTransparentIndex := transparentIndex }
                | none =>
                  getFramesGo data width height globalColorTable
                    backgroundColorIndex fuel { st with position := pos }
            else if label = 0xfe then
              match skipSubBlocksGo data (data.length + 1) pos with
              | .error e => .error e
              | .ok pos =>
                getFramesGo data width height globalColorTable
                  backgroundColorIndex fuel { st with position := pos }
            else if label = 0x01 then
              match readByteR data pos with
              | .error e => .error e
              | .ok (blockSize, pos) =>
                match readBytesR data pos blockSize with
                | .error e => .error e
                | .ok (_, pos) =>
                  match skipSubBlocksGo data (data.length + 1) pos with
                  | .error e => .error e
                  | .ok pos =>
                    getFramesGo data width height globalColorTable
                      backgroundColorIndex fuel { st with position := pos }
            else if label = 0xfd then
              match skipSubBlocksGo data (data.length + 1) pos with
              | .error e => .error e
              | .ok pos =>
                getFramesGo data width height globalColorTable
                  backgroundColorIndex fuel { st with position := pos }
            else if 0x80 ≤ label ∧ label ≤ 0xfc then
              match skipSubBlocksGo data (data.length + 1) pos with
              | .error e => .error e
              | .ok pos =>
                getFramesGo data width height globalColorTable
                  backgroundColorIndex fuel { st with position := pos }
            else
              -- unknown label: `try { skip } catch { warn; break }`
              match skipSubBlocksGo data (data.length + 1) pos with
              | .error _ => .ok st.frames
              | .ok pos =>
                getFramesGo data width height globalColorTable
                  backgroundColorIndex fuel { st with position := pos }
        else if separator = 0x2c then
          match readImageHeader data pos with
          | .error e => .error e
          | .ok fh =>
            getFramesGo data width height globalColorTable
              backgroundColorIndex fuel
              (processFrame width height globalColorTable
                backgroundColorIndex st fh)
        else if separator = 0x3b then .ok st.frames
        else .error .validation
    else .ok st.frames

/-- `GifReader.getFrames` (including the constructor's header validation):
parse the logical screen descriptor, initialize the canvas, then run the
record loop. -/
def getFrames (data : List ℕ) : Except GifErr (List GifFrame) :=
  match validateHeader data with
  | .error e => .error e
  | .ok _ =>
    match read16R data 6 with
    | .error e => .error e
    | .ok (width, pos) =>
    match read16R data pos with
    | .error e => .error e
    | .ok (height, pos) =>
    match readByteR data pos with
    | .error e => .error e
    | .ok (packed, pos) =>
    match readByteR data pos with
    | .error e => .error e
    | .ok (backgroundColorIndex, pos) =>
    match readByteR data pos with
    | .error e => .error e
    | .ok (_, pos) =>
      let globalColorTableFlag := packed &&& 0x80 ≠ 0
      let globalColorTableSize := 2 <<< (packed &&& 0x07)
      let gctStep : Except GifErr (Option (List ℕ) × ℕ) :=
        if globalColorTableFlag then
          match readBytesR data pos (globalColorTableSize * 3) with
          | .error e => .error e
          | .ok (t, pos) => .ok (some t, pos)
        else .ok (none, pos)
      match gctStep with
      | .error e => .error e
      | .ok (globalColorTable, pos) =>
        let canvas :=
          match globalColorTable with
          | some t =>
            if backgroundColorIndex < t.length / 3 then
              (List.replicate (width * height)
                [t.getD (backgroundColorIndex * 3) 0,
                  t.getD (backgroundColorIndex * 3 + 1) 0,
                  t.getD (backgroundColorIndex * 3 + 2) 0, 255]).flatten
            else List.replicate (width * height * 4) 0
          | none => List.replicate (width * height * 4) 0
        getFramesGo data width height globalColorTable backgroundColorIndex
          (data.length + 1)
          { position := pos, canvas := canvas, previousCanvas := none,
            currentDelay := 100,
            currentDisposal := DisposalMethod.DoNotDispose,
            currentTransparentIndex := -1, frames := [] }

/-- Specification-side predicate: the writer `w'` holds `w`'s output with
zero or more bytes appended. -/
def outExt (w w' : GifWriter) : Prop := ∃ t, w'.output = w.output ++ t

/-- Specification-side predicate: the writer embedded in a method result
(also in a thrown error) holds `w`'s output with bytes only appended. -/
def resExt (w : GifWriter) : WriterResult → Prop
  | .ok w' => outExt w w'
  | .error (_, w') => outExt w w'

/-- `GifWriter.writeStaticGif`. -/
def GifWriter.writeStaticGif (w : GifWriter) (image : IndexedImage)
    (globalOptions : GlobalColorTableOptions) (imageOptions : ImageOptions) :
    WriterResult :=
  match w.writeHeader with
  | .error e => .error e
  | .ok w =>
    match w.writeLogicalScreen image.width image.height globalOptions with
    | .error e => .error e
    | .ok w =>
      match w.writeImage image imageOptions with
      | .error e => .error e
      | .ok w => w.writeTrailer

/-- The `images.forEach` loop of `writeAnimatedGif`. -/
def writeImagesGo : GifWriter → List (IndexedImage × ImageOptions) →
    WriterResult
  | w, [] => .ok w
  | w, (image, options) :: rest =>
    match w.writeImage image options with
    | .error e => .error e
    | .ok w => writeImagesGo w rest

/-- `GifWriter.writeAnimatedGif`. -/
def GifWriter.writeAnimatedGif (w : GifWriter) (images : List IndexedImage)
    (globalOptions : GlobalColorTableOptions)
    (animationOptions : AnimationOptions)
    (imageOptions : List ImageOptions) : WriterResult :=
  match images with
  | [] => .error (.validation, w)
  | first :: _ =>
    match w.writeHeader with
    | .error e => .error e
    | .ok w =>
      match w.writeLogicalScreen first.width first.height globalOptions with
      | .error e => .error e
      | .ok w =>
        match w.writeAnimationInfo animationOptions with
        | .error e => .error e
        | .ok w =>
          let paired := images.enum.map
            (fun p => (p.2, (imageOptions.get? p.1).getD {}))
          match writeImagesGo w paired with
          | .error e => .error e
          | .ok w => w.writeTrailer

/-! ### `gif-result.ts`: the median-cut color quantizer -/

/-- `types.ts` `RGBColor`. -/
structure RGBColor where
  red : ℕ
  green : ℕ
  blue : ℕ
deriving DecidableEq, Repr

/-- A `ColorCube` is its list of colors. -/
abbrev ColorCube := List RGBColor

/-- The color-component selector (`'red' | 'green' | 'blue'`). -/
inductive CComp where
  | red : CComp
  | green : CComp
  | blue : CComp
deriving DecidableEq, Repr

/-- `color[component]`. -/
def compVal (c : RGBColor) : CComp → ℕ
  | .red => c.red
  | .green => c.green
  | .blue => c.blue

/-- `ColorCubeStats`. -/
structure ColorCubeStats where
  minRed : ℕ
  maxRed : ℕ
  minGreen : ℕ
  maxGreen : ℕ
  minBlue : ℕ
  maxBlue : ℕ
  size : ℕ
deriving DecidableEq, Repr

/-- `analyzeColorCube`: min/max fold from the `(255, 0)` sentinels;
`GifValidationError` on an empty cube. -/
def analyzeColorCube (colors : List RGBColor) :
    Except GifErr ColorCubeStats :=
  if colors.length = 0 then .error .validation
  else
    .ok (colors.foldl
      (fun st c =>
        { st with
            minRed := Min.min st.minRed c.red
            maxRed := Max.max st.maxRed c.red
            minGreen := Min.min st.minGreen c.green
            maxGreen := Max.max st.maxGreen c.green
            minBlue := Min.min st.minBlue c.blue
            maxBlue := Max.max st.maxBlue c.blue })
      { minRed := 255, maxRed := 0, minGreen := 255, maxGreen := 0,
        minBlue := 255, maxBlue := 0, size := colors.length })

/-- `findLargestComponent` with perceptual weights
`red 1.0, green 0.8, blue 0.5`. The floating-point products are modelled by
the exact scaled integers `10·r, 8·g, 5·b`: for ranges `≤ 255` the IEEE
double comparisons the source performs agree with the exact rational ones
(ties are hit exactly because the tied values are representable, and
non-ties differ by at least `1/10`, far above the rounding error). -/
def findLargestComponent (stats : ColorCubeStats) : CComp :=
  let redRange := (stats.maxRed - stats.minRed) * 10
  let greenRange := (stats.maxGreen - stats.minGreen) * 8
  let blueRange := (stats.maxBlue - stats.minBlue) * 5
  if greenRange ≥ blueRange then
    if redRange ≥ greenRange then .red else .green
  else
    if redRange ≥ blueRange then .red else .blue

/-- Swap two positions of a list (out-of-range positions are left alone, as
for a JavaScript array swap via destructuring of in-range indices). -/
def listSwap (l : List ℕ) (a b : ℕ) : List ℕ :=
  (l.set a (l.getD b 0)).set b (l.getD a 0)

/-- The `for (j = left; j < right; j++)` loop of `partition`. The counter is
`right - j`, so the fuel `right - left` is exactly the iteration count. -/
def partGo : ℕ → List ℕ → ℕ → ℕ → ℕ → (List ℕ × ℕ)
  | 0, arr, _, i, _ => (arr, i)
  | n + 1, arr, pivot, i, j =>
    if arr.getD j 0 ≤ pivot then
      partGo n (listSwap arr i j) pivot (i + 1) (j + 1)
    else partGo n arr pivot i (j + 1)

/-- `partition` (Lomuto) of `quickSelect`. -/
def partition (arr : List ℕ) (left right : ℕ) : List ℕ × ℕ :=
  let pivot := arr.getD right 0
  let p := partGo (right - left) arr pivot left left
  (listSwap p.1 p.2 right, p.2)

/-- The `while (left < right)` loop of `quickSelect`. Each round shrinks
`right - left` by at least 1 (the pivot index lies in `[left, right]`), so
`fuel = arr.length + 1` dominates the iteration count. A pivot index of 0
with `k < 0` cannot occur (`k ≥ 0` in `ℕ`), and the JavaScript `right = -1`
exit corresponds to the truncated `0 - 1 = 0` exit here (both return
`arr[k]`). -/
def quickSelectGo : ℕ → List ℕ → ℕ → ℕ → ℕ → ℕ
  | 0, arr, _, _, k => arr.getD k 0
  | fuel + 1, arr, left, right, k =>
    if left < right then
      let p := partition arr left right
      if p.2 = k then p.1.getD k 0
      else if p.2 < k then quickSelectGo fuel p.1 (p.2 + 1) right k
      else quickSelectGo fuel p.1 left (p.2 - 1) k
    else arr.getD k 0

/-- `selectKthElement` (`k < 0` is unrepresentable in `ℕ`). -/
def selectKthElement (array : List ℕ) (k : ℕ) : Except GifErr ℕ :=
  if k ≥ array.length then .error .validation
  else .ok (quickSelectGo (array.length + 1) array 0 (array.length - 1) k)

/-- `findMedian`. -/
def findMedian (colors : List RGBColor) (component : CComp) :
    Except GifErr ℕ :=
  let values := colors.map (fun c => compVal c component)
  selectKthElement values (values.length / 2)

/-- `splitColorCube`: partition at the median of the widest (weighted)
component; a degenerate split returns the cube unsplit. -/
def splitColorCube (colors : List RGBColor) :
    Except GifErr (List ColorCube) :=
  if colors.length ≤ 1 then .ok [colors]
  else
    match analyzeColorCube colors with
    | .error e => .error e
    | .ok stats =>
      let component := findLargestComponent stats
      match findMedian colors component with
      | .error e => .error e
      | .ok median =>
        let lowerHalf := colors.filter (fun c => compVal c component < median)
        let upperHalf :=
          colors.filter (fun c => ¬(compVal c component < median))
        if lowerHalf.length = 0 ∨ upperHalf.length = 0 then .ok [colors]
        else .ok [lowerHalf, upperHalf]

/-- `calculateAverageColor` (floor division). -/
def calculateAverageColor (colors : List RGBColor) :
    Except GifErr RGBColor :=
  if colors.length = 0 then .error .validation
  else
    .ok { red := (colors.map RGBColor.red).sum / colors.length,
          green := (colors.map RGBColor.green).sum / colors.length,
          blue := (colors.map RGBColor.blue).sum / colors.length }

/-- `findLargestCube`: first cube of maximal population (strict `>` keeps the
earliest maximum). -/
def findLargestCube (cubes : List ColorCube) : Except GifErr ColorCube :=
  match cubes with
  | [] => .error .validation
  | c :: rest =>
    .ok (rest.foldl
      (fun best cur => if cur.length > best.length then cur else best) c)

/-- The `while (cubes.length < maxColors)` loop of `medianCut`. Each
continuing round grows `cubes.length` by one while it is below `maxColors`,
so `fuel = maxColors` dominates the iteration count. `cubes.indexOf(largest)`
(JavaScript reference equality on an element of the array) is modelled by the
index of the first structurally equal cube; `splice` + `push` is
`eraseIdx` + append. -/
def medianCutGo (maxColors : ℕ) : ℕ → List ColorCube →
    Except GifErr (List ColorCube)
  | 0, cubes => .ok cubes
  | fuel + 1, cubes =>
    if cubes.length < maxColors then
      match findLargestCube cubes with
      | .error e => .error e
      | .ok largest =>
        if largest.length ≤ 1 then .ok cubes
        else
          match splitColorCube largest with
          | .error e => .error e
          | .ok splits =>
            if splits.length = 1 then .ok cubes
            else
              medianCutGo maxColors fuel
                (cubes.eraseIdx (cubes.indexOf largest) ++ splits)
    else .ok cubes

/-- `medianCut`. -/
def medianCut (colors : List RGBColor) (maxColors : ℕ) :
    Except GifErr (List ColorCube) :=
  if maxColors = 0 then .error .validation
  else if colors.length ≤ maxColors then .ok (colors.map (fun c => [c]))
  else medianCutGo maxColors maxColors [colors]

/-- Specification predicate: a well-formed cube list for a color budget `N` —
nonempty, within budget, and with no empty cube. -/
def CubesOk (N : ℕ) (cubes : List ColorCube) : Prop :=
  cubes ≠ [] ∧ cubes.length ≤ N ∧ ∀ c ∈ cubes, c ≠ []

/-- `extractColors`: distinct pixel colors in first-occurrence order (the
JavaScript `Map` keyed by the `"r,g,b"` string, which is injective on byte
triples). -/
def extractColors (imageData : ImageDataR) : List RGBColor :=
  (List.range (imageData.width * imageData.height)).foldl
    (fun acc i =>
      let c : RGBColor :=
        { red := imageData.data.getD (i * 4) 0,
          green := imageData.data.getD (i * 4 + 1) 0,
          blue := imageData.data.getD (i * 4 + 2) 0 }
      if c ∈ acc then acc else acc ++ [c])
    []

/-- `utils.ts` `colorDistanceSquared`. -/
def colorDistanceSquared (a b : RGBColor) : ℤ :=
  ((a.red : ℤ) - b.red) * ((a.red : ℤ) - b.red) +
    ((a.green : ℤ) - b.green) * ((a.green : ℤ) - b.green) +
    ((a.blue : ℤ) - b.blue) * ((a.blue : ℤ) - b.blue)

/-- The `for (i = 1; i < palette.length; i++)` loop of
`findClosestColorIndex`: `i` is the index of the head of the remaining list,
`bi`/`bd` the best index and distance so far. -/
def fcciGo (target : RGBColor) : List RGBColor → ℕ → ℕ → ℤ → ℕ
  | [], _, bi, _ => bi
  | p :: rest, i, bi, bd =>
    if colorDistanceSquared target p < bd then
      fcciGo target rest (i + 1) i (colorDistanceSquared target p)
    else fcciGo target rest (i + 1) bi bd

/-- `utils.ts` `findClosestColorIndex` (the early `break` on a zero distance
cannot change the result: no distance is below 0). -/
def findClosestColorIndex (target : RGBColor) (palette : List RGBColor) :
    Except GifErr ℕ :=
  match palette with
  | [] => .error .validation
  | p0 :: rest => .ok (fcciGo target rest 1 0 (colorDistanceSquared target p0))

/-- The quantizer's `Map<string, number>` from colors to palette indices:
first-match lookup with overwrite-on-set. -/
def cmLookup : List (RGBColor × ℕ) → RGBColor → Option ℕ
  | [], _ => none
  | (k, v) :: rest, key => if k = key then some v else cmLookup rest key

/-- `Map.set`. -/
def cmSet (m : List (RGBColor × ℕ)) (key : RGBColor) (v : ℕ) :
    List (RGBColor × ℕ) :=
  if (cmLookup m key).isSome then
    m.map (fun p => if p.1 = key then (key, v) else p)
  else m ++ [(key, v)]

/-- The `cubes.forEach((cube, paletteIndex) => ...)` loop of
`buildColorMap`: `i` is the palette index of the head cube. -/
def buildCMGo : ℕ → List ColorCube → List (RGBColor × ℕ) →
    List (RGBColor × ℕ)
  | _, [], m => m
  | i, cube :: rest, m =>
    buildCMGo (i + 1) rest (cube.foldl (fun m c => cmSet m c i) m)

/-- `MedianCutQuantizer.buildColorMap`: every color of cube `i` maps to
palette index `i` (the map is cleared first). -/
def buildColorMap (cubes : List ColorCube) : List (RGBColor × ℕ) :=
  buildCMGo 0 cubes []

/-- `MedianCutQuantizer.mapColor`: memoized nearest-palette-index lookup
(returns the updated memo). -/
def mapColor (palette : List RGBColor) (colorMap : List (RGBColor × ℕ))
    (color : RGBColor) : Except GifErr (ℕ × List (RGBColor × ℕ)) :=
  match cmLookup colorMap color with
  | some index => .ok (index, colorMap)
  | none =>
    match findClosestColorIndex color palette with
    | .error e => .error e
    | .ok index => .ok (index, cmSet colorMap color index)

/-- The `for (i = 0; i < width * height; i++)` loop of `convertToIndexed`,
iterating over the list of pixel indices and threading the memo map. -/
def c2iGo (palette : List RGBColor) (imageData : ImageDataR) :
    List ℕ → List (RGBColor × ℕ) →
    Except GifErr (List ℕ × List (RGBColor × ℕ))
  | [], m => .ok ([], m)
  | i :: rest, m =>
    let color : RGBColor :=
      { red := imageData.data.getD (i * 4) 0,
        green := imageData.data.getD (i * 4 + 1) 0,
        blue := imageData.data.getD (i * 4 + 2) 0 }
    match mapColor palette m color with
    | .error e => .error e
    | .ok r =>
      match c2iGo palette imageData rest r.2 with
      | .error e => .error e
      | .ok acc => .ok (r.1 :: acc.1, acc.2)

/-- `MedianCutQuantizer.convertToIndexed`. -/
def convertToIndexed (palette : List RGBColor)
    (colorMap : List (RGBColor × ℕ)) (imageData : ImageDataR) :
    Except GifErr (List ℕ) :=
  match c2iGo palette imageData
    (List.range (imageData.width * imageData.height)) colorMap with
  | .error e => .error e
  | .ok acc => .ok acc.1

/-- `MedianCutQuantizer.getPaletteData`: flat RGB triplets. -/
def getPaletteData (palette : List RGBColor) : List ℕ :=
  palette.foldr (fun c acc => c.red :: c.green :: c.blue :: acc) []

/-- The `cubes.map(cube => calculateAverageColor(cube.colors))` step of
`quantize`: the first exception aborts the whole map. -/
def mapAvg : List ColorCube → Except GifErr (List RGBColor)
  | [] => .ok []
  | cube :: rest =>
    match calculateAverageColor cube with
    | .error e => .error e
    | .ok color =>
      match mapAvg rest with
      | .error e => .error e
      | .ok colors => .ok (color :: colors)

/-- `new MedianCutQuantizer(maxColors).quantize(imageData)` (constructor
validation included). -/
def quantize (maxColors : ℕ) (imageData : ImageDataR) :
    Except GifErr IndexedImage :=
  if maxColors = 0 ∨ maxColors > 256 then .error .validation
  else
    let uniqueColors := extractColors imageData
    match medianCut uniqueColors maxColors with
    | .error e => .error e
    | .ok cubes =>
      match mapAvg cubes with
      | .error e => .error e
      | .ok palette =>
        let colorMap := buildColorMap cubes
        match convertToIndexed palette colorMap imageData with
        | .error e => .error e
        | .ok indexedData =>
          .ok { width := imageData.width, height := imageData.height,
                data := indexedData, palette := getPaletteData palette }

end GifTools

namespace GifTools

/-- Helper fact, checked by evaluation over the 256 admissible color counts:
`calculateColorTableSize` succeeds on `1 ≤ C ≤ 256` and returns the least
`s ≤ 7` with `C ≤ 2^(s+1)`. -/
theorem ctsValue_spec :
    ∀ C < 257, 1 ≤ C →
      calculateColorTableSize C = .ok (ctsValue C) ∧
      C ≤ 2 ^ (ctsValue C + 1) ∧ ctsValue C ≤ 7 ∧
      ∀ t < ctsValue C, 2 ^ (t + 1) < C := by
  decide

/-- `padColorTable` on a `C`-color palette with `C ≤ 2^(s+1)` always appends
exactly the zero bytes needed to reach `3 · 2^(s+1)` bytes. -/
theorem padColorTable_eq (palette : List ℕ) (s C : ℕ)
    (hlen : palette.length = 3 * C) (hle : C ≤ 2 ^ (s + 1)) :
    padColorTable palette s =
      palette ++ List.replicate (2 ^ (s + 1) * 3 - palette.length) 0 := by
  have hcc : palette.length / 3 = C := by omega
  unfold padColorTable
  simp only [hcc]
  rcases eq_or_lt_of_le hle with heq | hlt
  · rw [if_pos (ge_of_eq heq)]
    have hz : 2 ^ (s + 1) * 3 - palette.length = 0 := by omega
    rw [hz, List.replicate_zero, List.append_nil]
  · rw [if_neg (not_le.mpr hlt)]

/-- C7: for every color count `C ∈ [1, 256]`, `calculateColorTableSize C`
returns the smallest `s ∈ [0, 7]` with `2^(s+1) ≥ C`, and `padColorTable` of a
`C`-color palette with that size field yields exactly `3 · 2^(s+1)` bytes whose
first `3·C` bytes are the original palette and whose remaining bytes are 0. -/
theorem calculateColorTableSize_padColorTable_spec
    (C : ℕ) (palette : List ℕ)
    (h1 : 1 ≤ C) (h2 : C ≤ 256) (hlen : palette.length = 3 * C) :
    ∃ s, calculateColorTableSize C = .ok s ∧
      (C ≤ 2 ^ (s + 1) ∧ s ≤ 7 ∧ ∀ t < s, 2 ^ (t + 1) < C) ∧
      (padColorTable palette s).length = 3 * 2 ^ (s + 1) ∧
      (padColorTable palette s).take (3 * C) = palette ∧
      ∀ b ∈ (padColorTable palette s).drop (3 * C), b = 0 := by
  obtain ⟨hok, hle, hs7, hmin⟩ := ctsValue_spec C (by omega) h1
  set s := ctsValue C with hsdef
  have hpad := padColorTable_eq palette s C hlen hle
  have hbound : 3 * C ≤ 2 ^ (s + 1) * 3 := by omega
  refine ⟨s, hok, ⟨hle, hs7, hmin⟩, ?_, ?_, ?_⟩
  · rw [hpad, List.length_append, hlen, List.length_replicate]
    omega
  · rw [hpad, ← hlen, List.take_left]
  · intro b hb
    rw [hpad, ← hlen, List.drop_left] at hb
    exact List.eq_of_mem_replicate hb

/-- Witness for C7 at `C = 5` with a concrete 15-byte palette. -/
theorem calculateColorTableSize_padColorTable_spec_witness :
    ∃ s, calculateColorTableSize 5 = .ok s ∧
      (5 ≤ 2 ^ (s + 1) ∧ s ≤ 7 ∧ ∀ t < s, 2 ^ (t + 1) < 5) ∧
      (padColorTable [1, 2, 3, 4, 5, 6, 7, 8, 9, 10, 11, 12, 13, 14, 15]
          s).length = 3 * 2 ^ (s + 1) ∧
      (padColorTable [1, 2, 3, 4, 5, 6, 7, 8, 9, 10, 11, 12, 13, 14, 15]
          s).take (3 * 5) = [1, 2, 3, 4, 5, 6, 7, 8, 9, 10, 11, 12, 13, 14, 15] ∧
      ∀ b ∈ (padColorTable [1, 2, 3, 4, 5, 6, 7, 8, 9, 10, 11, 12, 13, 14, 15]
          s).drop (3 * 5), b = 0 :=
  calculateColorTableSize_padColorTable_spec 5
    [1, 2, 3, 4, 5, 6, 7, 8, 9, 10, 11, 12, 13, 14, 15]
    (by norm_num) (by norm_num) (by norm_num)

end GifTools

namespace GifTools

/-! ### Writer output-extension lemmas -/

theorem outExt_refl (w : GifWriter) : outExt w w :=
  ⟨[], (List.append_nil _).symm⟩

theorem outExt_trans {a b c : GifWriter} (h1 : outExt a b) (h2 : outExt b c) :
    outExt a c := by
  obtain ⟨t, ht⟩ := h1
  obtain ⟨s, hs⟩ := h2
  exact ⟨t ++ s, by rw [hs, ht, List.append_assoc]⟩

theorem resExt_mono {w w1 : GifWriter} {r : WriterResult}
    (h : outExt w w1) (hr : resExt w1 r) : resExt w r := by
  cases r with
  | ok w2 => exact outExt_trans h hr
  | error e => obtain ⟨_, w2⟩ := e; exact outExt_trans h hr

theorem writeBytesU_outExt (w : GifWriter) (bs : List ℕ) :
    outExt w (w.writeBytesU bs) := ⟨bs, rfl⟩

theorem writeByte_resExt (w : GifWriter) (b : ℕ) :
    resExt w (w.writeByte b) := by
  unfold GifWriter.writeByte
  split
  · exact outExt_refl w
  · exact ⟨[b], rfl⟩

theorem writeBytesArr_resExt (bs : List ℕ) :
    ∀ w : GifWriter, resExt w (w.writeBytesArr bs) := by
  induction bs with
  | nil => intro w; exact outExt_refl w
  | cons b rest ih =>
    intro w
    unfold GifWriter.writeBytesArr
    cases hb : w.writeByte b with
    | error e =>
      have h := writeByte_resExt w b
      rw [hb] at h
      exact h
    | ok w1 =>
      have h := writeByte_resExt w b
      rw [hb] at h
      exact resExt_mono h (ih w1)

theorem writeHeader_resExt (w : GifWriter) : resExt w w.writeHeader := by
  unfold GifWriter.writeHeader
  split
  · exact outExt_refl w
  · exact ⟨GIF_SIGNATURE ++ GIF_VERSION_89A, by
      simp [GifWriter.writeBytesU, List.append_assoc]⟩

theorem resExt_of_eq {w : GifWriter} {r s : WriterResult}
    (hr : resExt w r) (h : r = s) : resExt w s := h ▸ hr

theorem writeTrailer_eq (w : GifWriter) :
    w.writeTrailer = .ok { w with output := w.output ++ [GIF_TRAILER] } := by
  unfold GifWriter.writeTrailer GifWriter.writeByte
  rw [if_neg (by norm_num [GIF_TRAILER])]

theorem writeHeader_ok_eq (w : GifWriter) (h : w.hasWrittenHeader = false) :
    w.writeHeader = .ok { w with
      output := w.output ++ GIF_SIGNATURE ++ GIF_VERSION_89A,
      hasWrittenHeader := true } := by
  unfold GifWriter.writeHeader
  rw [if_neg (by rw [h]; exact Bool.false_ne_true)]
  rfl

end GifTools
namespace GifTools

theorem writeLogicalScreen_resExt (w : GifWriter) (width height : ℕ)
    (options : GlobalColorTableOptions) :
    resExt w (w.writeLogicalScreen width height options) := by
  unfold GifWriter.writeLogicalScreen
  split
  · exact outExt_refl w
  split
  · exact outExt_refl w
  split
  · exact outExt_refl w
  split
  · exact outExt_refl w
  rename_i tr gctFlag cts padded heq0
  split
  · exact outExt_refl w
  rename_i wle heqw
  split
  · exact outExt_refl w
  rename_i hle heqh
  dsimp only
  have h1 : outExt w ((w.writeBytesU wle).writeBytesU hle) :=
    outExt_trans (writeBytesU_outExt w wle) (writeBytesU_outExt _ hle)
  split
  · rename_i e heq1
    exact resExt_mono h1 (resExt_of_eq (writeByte_resExt _ _) heq1)
  rename_i w3 heq1
  have h2 : outExt w w3 :=
    outExt_trans h1 (resExt_of_eq (writeByte_resExt _ _) heq1)
  split
  · rename_i e heq2
    exact resExt_mono h2 (resExt_of_eq (writeByte_resExt _ _) heq2)
  rename_i w4 heq2
  have h3 : outExt w w4 :=
    outExt_trans h2 (resExt_of_eq (writeByte_resExt _ _) heq2)
  split
  · rename_i e heq3
    exact resExt_mono h3 (resExt_of_eq (writeByte_resExt _ _) heq3)
  rename_i w5 heq3
  have h4 : outExt w w5 :=
    outExt_trans h3 (resExt_of_eq (writeByte_resExt _ _) heq3)
  split
  · exact outExt_trans h4 (writeBytesU_outExt w5 _)
  · exact h4

end GifTools
namespace GifTools

theorem writeAnimationInfo_resExt (w : GifWriter)
    (options : AnimationOptions) :
    resExt w (w.writeAnimationInfo options) := by
  unfold GifWriter.writeAnimationInfo
  split
  · exact outExt_refl w
  dsimp only
  split
  · exact outExt_refl w
  · exact writeBytesArr_resExt _ w

theorem writeGraphicsControl_resExt (w : GifWriter) (options : ImageOptions) :
    resExt w (w.writeGraphicsControl options) := by
  unfold GifWriter.writeGraphicsControl
  dsimp only
  split
  · rename_i e heq
    exact resExt_of_eq (writeBytesArr_resExt _ _) heq
  rename_i w1 heq
  have h1 : outExt w w1 := resExt_of_eq (writeBytesArr_resExt _ _) heq
  split
  · rename_i e heq2
    exact resExt_mono h1 (resExt_of_eq (writeByte_resExt _ _) heq2)
  rename_i w2 heq2
  have h2 : outExt w w2 :=
    outExt_trans h1 (resExt_of_eq (writeByte_resExt _ _) heq2)
  split
  · exact h2
  rename_i le heq3
  have h3 : outExt w (w2.writeBytesU le) :=
    outExt_trans h2 (writeBytesU_outExt w2 le)
  split
  · rename_i e heq4
    exact resExt_mono h3 (resExt_of_eq (writeByte_resExt _ _) heq4)
  rename_i w4 heq4
  have h4 : outExt w w4 :=
    outExt_trans h3 (resExt_of_eq (writeByte_resExt _ _) heq4)
  exact resExt_mono h4 (writeByte_resExt w4 0x00)

theorem writeImageDescriptor_resExt (w : GifWriter) (image : IndexedImage)
    (options : ImageOptions) :
    resExt w (w.writeImageDescriptor image options) := by
  unfold GifWriter.writeImageDescriptor
  split
  · exact outExt_refl w
  split
  · exact outExt_refl w
  split
  · rename_i e heq
    exact resExt_of_eq (writeByte_resExt _ _) heq
  rename_i w1 heq
  have h1 : outExt w w1 := resExt_of_eq (writeByte_resExt _ _) heq
  split
  · exact h1
  rename_i le1 heq1
  have h2 : outExt w (w1.writeBytesU le1) :=
    outExt_trans h1 (writeBytesU_outExt w1 le1)
  split
  · exact h2
  rename_i le2 heq2
  have h3 : outExt w ((w1.writeBytesU le1).writeBytesU le2) :=
    outExt_trans h2 (writeBytesU_outExt _ le2)
  split
  · exact h3
  rename_i le3 heq3
  have h4 : outExt w (((w1.writeBytesU le1).writeBytesU le2).writeBytesU le3) :=
    outExt_trans h3 (writeBytesU_outExt _ le3)
  split
  · exact h4
  rename_i le4 heq4
  have h5 : outExt w
      ((((w1.writeBytesU le1).writeBytesU le2).writeBytesU le3).writeBytesU
        le4) :=
    outExt_trans h4 (writeBytesU_outExt _ le4)
  exact resExt_mono h5 (writeByte_resExt _ _)

theorem wdsbGo_resExt (fuel : ℕ) :
    ∀ (w : GifWriter) (data : List ℕ), resExt w (wdsbGo fuel w data) := by
  induction fuel with
  | zero => intro w data; exact outExt_refl w
  | succ fuel ih =>
    intro w data
    unfold wdsbGo
    split
    · exact outExt_refl w
    dsimp only
    split
    · rename_i e heq
      exact resExt_of_eq (writeByte_resExt _ _) heq
    rename_i w1 heq
    have h1 : outExt w w1 := resExt_of_eq (writeByte_resExt _ _) heq
    split
    · rename_i e heq2
      exact resExt_mono h1 (resExt_of_eq (writeBytesArr_resExt _ _) heq2)
    rename_i w2 heq2
    have h2 : outExt w w2 :=
      outExt_trans h1 (resExt_of_eq (writeBytesArr_resExt _ _) heq2)
    exact resExt_mono h2 (ih w2 _)

theorem writeImageData_resExt (w : GifWriter) (image : IndexedImage) :
    resExt w (w.writeImageData image) := by
  unfold GifWriter.writeImageData
  split
  · exact outExt_refl w
  dsimp only
  split
  · exact outExt_refl w
  split
  · exact outExt_refl w
  split
  · exact outExt_refl w
  rename_i compressedData heqc
  split
  · rename_i e heq
    exact resExt_of_eq (writeByte_resExt _ _) heq
  rename_i w1 heq
  have h1 : outExt w w1 := resExt_of_eq (writeByte_resExt _ _) heq
  split
  · rename_i e heq2
    exact resExt_mono h1
      (resExt_of_eq (wdsbGo_resExt (compressedData.length + 1) w1 compressedData) heq2)
  rename_i w2 heq2
  have h2 : outExt w w2 :=
    outExt_trans h1
      (resExt_of_eq (wdsbGo_resExt (compressedData.length + 1) w1 compressedData) heq2)
  exact resExt_mono h2 (writeByte_resExt w2 0x00)

theorem writeImage_resExt (w : GifWriter) (image : IndexedImage)
    (options : ImageOptions) :
    resExt w (w.writeImage image options) := by
  unfold GifWriter.writeImage
  split
  · exact outExt_refl w
  split
  · exact outExt_refl w
  split
  · exact outExt_refl w
  dsimp only
  have hgc : resExt w (if w.frameCount > 0 ∨ options.delay.isSome = true ∨
      options.disposal.isSome = true ∨ options.transparentIndex.isSome = true
      then w.writeGraphicsControl options else Except.ok w) := by
    split
    · exact writeGraphicsControl_resExt w options
    · exact outExt_refl w
  split
  · rename_i e heq
    exact resExt_of_eq hgc heq
  rename_i w1 heq
  have h1 : outExt w w1 := resExt_of_eq hgc heq
  split
  · rename_i e heq2
    exact resExt_mono h1
      (resExt_of_eq (writeImageDescriptor_resExt _ _ _) heq2)
  rename_i w2 heq2
  have h2 : outExt w w2 :=
    outExt_trans h1 (resExt_of_eq (writeImageDescriptor_resExt _ _ _) heq2)
  split
  · exact h2
  rename_i s heqs
  have h3 : outExt w (w2.writeBytesU (padColorTable image.palette s)) :=
    outExt_trans h2 (writeBytesU_outExt w2 _)
  split
  · rename_i e heq3
    exact resExt_mono h3 (resExt_of_eq (writeImageData_resExt _ _) heq3)
  rename_i w3 heq3
  exact outExt_trans h3 (resExt_of_eq (writeImageData_resExt _ _) heq3)

theorem writeImagesGo_resExt (l : List (IndexedImage × ImageOptions)) :
    ∀ w : GifWriter, resExt w (writeImagesGo w l) := by
  induction l with
  | nil => intro w; exact outExt_refl w
  | cons p rest ih =>
    intro w
    obtain ⟨image, options⟩ := p
    unfold writeImagesGo
    split
    · rename_i e heq
      exact resExt_of_eq (writeImage_resExt _ _ _) heq
    rename_i w1 heq
    have h1 : outExt w w1 := resExt_of_eq (writeImage_resExt _ _ _) heq
    exact resExt_mono h1 (ih w1)

end GifTools
namespace GifTools

/-- C9: every byte string produced by a completed encode
(`writeStaticGif` or `writeAnimatedGif` on a fresh writer, when it succeeds)
starts with the six bytes "GIF89a" and ends with the single trailer byte
`0x3B`. -/
theorem encode_signature_trailer :
    (∀ (image : IndexedImage) (gOpts : GlobalColorTableOptions)
        (iOpts : ImageOptions) (w' : GifWriter),
        freshWriter.writeStaticGif image gOpts iOpts = .ok w' →
        w'.output.take 6 = [0x47, 0x49, 0x46, 0x38, 0x39, 0x61] ∧
        w'.output.getLast? = some 0x3b) ∧
    (∀ (images : List IndexedImage) (gOpts : GlobalColorTableOptions)
        (aOpts : AnimationOptions) (iOptsL : List ImageOptions)
        (w' : GifWriter),
        freshWriter.writeAnimatedGif images gOpts aOpts iOptsL = .ok w' →
        w'.output.take 6 = [0x47, 0x49, 0x46, 0x38, 0x39, 0x61] ∧
        w'.output.getLast? = some 0x3b) := by
  have hsig : ∀ (w1 w3 : GifWriter),
      w1.output = [0x47, 0x49, 0x46, 0x38, 0x39, 0x61] →
      outExt w1 w3 →
      ((w3.output ++ [GIF_TRAILER]).take 6 =
          [0x47, 0x49, 0x46, 0x38, 0x39, 0x61] ∧
        (w3.output ++ [GIF_TRAILER]).getLast? = some 0x3b) := by
    intro w1 w3 h1 hext
    obtain ⟨t, ht⟩ := hext
    constructor
    · rw [ht, h1, List.append_assoc]
      exact List.take_left' rfl
    · exact List.getLast?_concat _
  constructor
  · intro image gOpts iOpts w' h
    unfold GifWriter.writeStaticGif at h
    rw [writeHeader_ok_eq freshWriter rfl] at h
    dsimp only at h
    split at h
    · exact Except.noConfusion h
    rename_i w2 hLS
    split at h
    · exact Except.noConfusion h
    rename_i w3 hIm
    rw [writeTrailer_eq w3] at h
    injection h with h
    subst h
    have e1 : outExt _ w2 :=
      resExt_of_eq (writeLogicalScreen_resExt _ image.width image.height gOpts) hLS
    have e2 : outExt w2 w3 := resExt_of_eq (writeImage_resExt w2 image iOpts) hIm
    exact hsig _ w3 rfl (outExt_trans e1 e2)
  · intro images gOpts aOpts iOptsL w' h
    unfold GifWriter.writeAnimatedGif at h
    split at h
    · exact Except.noConfusion h
    rename_i first rest
    rw [writeHeader_ok_eq freshWriter rfl] at h
    dsimp only at h
    split at h
    · exact Except.noConfusion h
    rename_i w2 hLS
    split at h
    · exact Except.noConfusion h
    rename_i w3 hAI
    split at h
    · exact Except.noConfusion h
    rename_i w4 hGo
    rw [writeTrailer_eq w4] at h
    injection h with h
    subst h
    have e1 : outExt _ w2 :=
      resExt_of_eq (writeLogicalScreen_resExt _ first.width first.height gOpts) hLS
    have e2 : outExt w2 w3 := resExt_of_eq (writeAnimationInfo_resExt w2 aOpts) hAI
    have e3 : outExt w3 w4 := resExt_of_eq (writeImagesGo_resExt _ w3) hGo
    exact hsig _ w4 rfl (outExt_trans (outExt_trans e1 e2) e3)

end GifTools
namespace GifTools

/-- Witness for C9: a concrete 1×1 static encode. -/
theorem encode_signature_trailer_witness :
    (GifWriter.mk
        [71, 73, 70, 56, 57, 97, 1, 0, 1, 0, 112, 0, 0, 44, 0, 0, 0, 0, 1, 0,
          1, 0, 128, 10, 20, 30, 0, 0, 0, 2, 2, 68, 1, 0, 59]
        true true 1).output.take 6 = [0x47, 0x49, 0x46, 0x38, 0x39, 0x61] ∧
    (GifWriter.mk
        [71, 73, 70, 56, 57, 97, 1, 0, 1, 0, 112, 0, 0, 44, 0, 0, 0, 0, 1, 0,
          1, 0, 128, 10, 20, 30, 0, 0, 0, 2, 2, 68, 1, 0, 59]
        true true 1).output.getLast? = some 0x3b :=
  encode_signature_trailer.1 ⟨1, 1, [0], [10, 20, 30]⟩ {} {} _ (by decide)

/-- Error class of `validateDimensions` failures. -/
theorem validateDimensions_error {a b : ℕ} {e : GifErr}
    (h : validateDimensions a b = .error e) : e = .validation := by
  unfold validateDimensions at h
  split at h
  · cases h; rfl
  split at h
  · cases h; rfl
  · cases h

/-- Error class of `validatePalette` failures. -/
theorem validatePalette_error {p : List ℕ} {e : GifErr}
    (h : validatePalette p = .error e) : e = .validation := by
  unfold validatePalette at h
  split at h
  · cases h; rfl
  split at h
  · cases h; rfl
  · cases h

/-- C5 (amended): the writer guards header/logical-screen/animation-info/image
ordering (failing calls append nothing), but `writeTrailer` is entirely
unguarded: it always succeeds and appends `0x3B` in any state. -/
theorem writer_ordering_spec :
    (∀ w : GifWriter, w.hasWrittenHeader = true →
      w.writeHeader = .error (.encoding, w)) ∧
    (∀ (w : GifWriter) (width height : ℕ) (opts : GlobalColorTableOptions),
      w.hasWrittenHeader = false →
      w.writeLogicalScreen width height opts = .error (.encoding, w)) ∧
    (∀ (w : GifWriter) (width height : ℕ) (opts : GlobalColorTableOptions),
      w.hasWrittenLogicalScreen = true →
      w.writeLogicalScreen width height opts = .error (.encoding, w)) ∧
    (∀ (w : GifWriter) (opts : AnimationOptions),
      w.hasWrittenLogicalScreen = false →
      w.writeAnimationInfo opts = .error (.encoding, w)) ∧
    (∀ (w : GifWriter) (image : IndexedImage) (opts : ImageOptions),
      w.hasWrittenLogicalScreen = false →
      w.writeImage image opts = .error (.encoding, w)) ∧
    (∀ w : GifWriter,
      w.writeTrailer = .ok { w with output := w.output ++ [GIF_TRAILER] }) := by
  refine ⟨?_, ?_, ?_, ?_, ?_, writeTrailer_eq⟩
  · intro w h
    unfold GifWriter.writeHeader
    rw [if_pos h]
  · intro w width height opts h
    unfold GifWriter.writeLogicalScreen
    rw [if_pos (by rw [h]; exact Bool.false_ne_true)]
  · intro w width height opts h
    unfold GifWriter.writeLogicalScreen
    by_cases hh : w.hasWrittenHeader = true
    · rw [if_neg (by rw [hh]; exact fun hc => hc rfl), if_pos h]
    · rw [if_pos (by simpa using hh)]
  · intro w opts h
    unfold GifWriter.writeAnimationInfo
    rw [if_pos (by rw [h]; exact Bool.false_ne_true)]
  · intro w image opts h
    unfold GifWriter.writeImage
    rw [if_pos (by rw [h]; exact Bool.false_ne_true)]

/-- Witness for C5: `writeHeader` on a writer that already wrote its header,
and `writeAnimationInfo` on a fresh writer, both fail with
`GifEncodingError` and append nothing. -/
theorem writer_ordering_spec_witness :
    (GifWriter.mk [] true false 0).writeHeader =
      .error (.encoding, GifWriter.mk [] true false 0) ∧
    freshWriter.writeAnimationInfo {} = .error (.encoding, freshWriter) :=
  ⟨writer_ordering_spec.1 _ rfl,
    writer_ordering_spec.2.2.2.1 freshWriter {} rfl⟩

/-- Counterexample for C5 as stated: `writeTrailer` before any frame (on a
fresh writer) does not fail with `GifEncodingError`; it succeeds and appends
the byte `0x3B`. -/
theorem writeTrailer_unguarded_counterexample :
    freshWriter.writeTrailer = .ok (GifWriter.mk [0x3b] false false 0) := by
  decide

/-- C4 (amended): `writeImage` raises dimension and palette validation errors
before appending anything; but a pixel-count mismatch (and likewise an
out-of-range pixel index) is only detected in `writeImageData`, after the
image descriptor and the local color table have already been appended — shown
here on a concrete call that appends 16 bytes before raising
`GifValidationError`. -/
theorem writeImage_validation_spec :
    (∀ (w : GifWriter) (image : IndexedImage) (opts : ImageOptions),
      w.hasWrittenLogicalScreen = true →
      (validateDimensions image.width image.height = .error .validation ∨
        validatePalette image.palette = .error .validation) →
      w.writeImage image opts = .error (.validation, w)) ∧
    (GifWriter.mk [] true true 0).writeImage
        ⟨2, 1, [0], [0, 0, 0, 255, 255, 255]⟩ {} =
      .error (.validation,
        GifWriter.mk [44, 0, 0, 0, 0, 2, 0, 1, 0, 128, 0, 0, 0, 255, 255, 255]
          true true 0) := by
  constructor
  · intro w image opts hls hval
    unfold GifWriter.writeImage
    rw [if_neg (by rw [hls]; exact fun hc => hc rfl)]
    cases hd : validateDimensions image.width image.height with
    | error e =>
      have he := validateDimensions_error hd
      subst he
      rfl
    | ok u =>
      cases hp : validatePalette image.palette with
      | error e =>
        have he := validatePalette_error hp
        subst he
        rfl
      | ok u2 =>
        rcases hval with hval | hval
        · rw [hd] at hval; exact Except.noConfusion hval
        · rw [hp] at hval; exact Except.noConfusion hval
  · decide

/-- Witness for C4 (amended) at a concrete zero-width image: the validation
failure leaves the output untouched. -/
theorem writeImage_validation_spec_witness :
    (GifWriter.mk [] true true 0).writeImage ⟨0, 1, [], [1, 2, 3]⟩ {} =
      .error (.validation, GifWriter.mk [] true true 0) :=
  writeImage_validation_spec.1 (GifWriter.mk [] true true 0)
    ⟨0, 1, [], [1, 2, 3]⟩ {} rfl (Or.inl (by decide))

/-- Counterexample for C4 as stated: a `GifValidationError` for a pixel-count
mismatch is raised only after the image descriptor and local color table
bytes were appended, so the output stream did grow during the failing call. -/
theorem writeImage_mutates_before_error_counterexample :
    (GifWriter.mk [] true true 0).writeImage
        ⟨2, 1, [0], [0, 0, 0, 255, 255, 255]⟩ {} =
      .error (.validation,
        GifWriter.mk [44, 0, 0, 0, 0, 2, 0, 1, 0, 128, 0, 0, 0, 255, 255, 255]
          true true 0) ∧
    [44, 0, 0, 0, 0, 2, 0, 1, 0, 128, 0, 0, 0, 255, 255, 255] ≠
      ([] : List ℕ) := by
  constructor
  · decide
  · decide

end GifTools
namespace GifTools

/-- `readCode` never fails for a bit width in `[1, 16]`. -/
theorem readCode_ok (st : BytesToCode) (numBits : ℕ) (h1 : numBits ≠ 0)
    (h2 : numBits ≤ 16) : ∃ r, readCode st numBits = .ok r := by
  unfold readCode
  rw [if_neg (by omega : ¬(numBits = 0 ∨ numBits > 16))]
  dsimp only
  split
  · exact ⟨_, rfl⟩
  · exact ⟨_, rfl⟩

/-- The decode loop can only fail through its two invalid-code branches:
input exhaustion (`readCode` returning `none`) terminates it cleanly. -/
theorem decodeGo_error (k : ℕ) :
    ∀ (fuel : ℕ) (conv : BytesToCode) (dict : DecDict) (currentBits : ℕ)
      (prev output : List ℕ) (e : LzwErr),
      1 ≤ currentBits → currentBits ≤ 16 → k ≤ 15 →
      decodeGo k fuel conv dict currentBits prev output = .error e →
      e = .firstCodeNotInDict ∨ e = .invalidCode := by
  intro fuel
  induction fuel with
  | zero =>
    intro conv dict cb prev out e h1 h2 hk h
    exact Except.noConfusion h
  | succ fuel ih =>
    intro conv dict cb prev out e h1 h2 hk h
    unfold decodeGo at h
    split at h
    · split at h
      · rename_i e2 heq
        obtain ⟨r, hr⟩ := readCode_ok conv cb (by omega) h2
        rw [hr] at heq
        exact Except.noConfusion heq
      · exact Except.noConfusion h
      rename_i code conv2 heq
      split at h
      · exact ih conv2 (decReset k) (k + 1) [] out e (by omega) (by omega) hk h
      split at h
      · exact Except.noConfusion h
      split at h
      · -- `code < nextCode`: dictionary hit, loop continues
        simp only [] at h
        split at h
        · split at h
          · exact ih _ _ (cb + 1) _ _ e (by omega) (by omega) hk h
          · exact ih _ _ cb _ _ e h1 h2 hk h
        · exact ih _ _ cb _ _ e h1 h2 hk h
      split at h
      · split at h
        · -- `code = nextCode` with empty previous string: KwKwK guard fires
          rename_i hlt hne hlen
          simp only [] at h
          rw [if_pos ⟨hne, hlen⟩] at h
          cases h
          exact Or.inl rfl
        · -- KwKwK reconstruction, loop continues
          simp only [] at h
          split at h
          · split at h
            · exact ih _ _ (cb + 1) _ _ e (by omega) (by omega) hk h
            · exact ih _ _ cb _ _ e h1 h2 hk h
          · exact ih _ _ cb _ _ e h1 h2 hk h
      · -- `code > nextCode`: invalid code
        rename_i hlt hne
        simp only [] at h
        rw [if_neg (fun hc => hne hc.1)] at h
        cases h
        exact Or.inr rfl
    · exact Except.noConfusion h

/-- C10 (amended): `decompressLZW` is total on inputs that merely end
prematurely — the empty input returns an empty result, and for a valid code
size every failure is caused by an invalid code: either a code strictly above
the next assignable code, or a code equal to it when no previous string
exists (the first-code KwKwK guard). Exhaustion of the bitstream never
raises. -/
theorem decompressLZW_premature_end_spec :
    (∀ k : ℕ, decompressLZW [] k = .ok []) ∧
    (∀ (data : List ℕ) (k : ℕ) (e : LzwErr), 1 ≤ k → k ≤ 8 →
      decompressLZW data k = .error e →
      e = .firstCodeNotInDict ∨ e = .invalidCode) := by
  constructor
  · intro k
    rfl
  · intro data k e hk1 hk2 h
    unfold decompressLZW at h
    split at h
    · exact Except.noConfusion h
    rw [if_neg (by omega : ¬(k < 1 ∨ k > 8))] at h
    exact decodeGo_error k _ _ _ (k + 1) _ _ e (by omega) (by omega)
      (by omega) h

/-- Witness for C10 (amended): the empty input, and a concrete one-byte input
whose single 3-bit code 7 exceeds the next assignable code 6. -/
theorem decompressLZW_premature_end_spec_witness :
    decompressLZW [] 2 = .ok [] ∧
    (LzwErr.invalidCode = .firstCodeNotInDict ∨
      LzwErr.invalidCode = .invalidCode) :=
  ⟨decompressLZW_premature_end_spec.1 2,
    decompressLZW_premature_end_spec.2 [255] 2 .invalidCode (by norm_num)
      (by norm_num) (by decide)⟩

/-- Counterexample for C10 as stated: on input `[0x06]` with code size 2 the
only code read is 6, which equals the dictionary's next assignable code (so
the claim's proviso "every code read is at most the next assignable code"
holds), the bitstream is exhausted before any end code, yet `decompressLZW`
raises instead of returning the indices decoded so far. -/
theorem decompressLZW_first_code_counterexample :
    decompressLZW [6] 2 = .error .firstCodeNotInDict := by
  decide

end GifTools
namespace GifTools

/-- C2 (amended): when the gathered sub-block data of a frame fails LZW
decompression, the frame handler emits a white placeholder frame with the
image descriptor's dimensions and position and the decode continues (the
handler never throws); shown both in general and on a concrete 3-frame GIF
whose middle frame carries an invalid LZW bitstream and still decodes to 3
frame records with a white middle placeholder. -/
theorem corrupt_frame_placeholder_spec :
    (∀ (width height : ℕ) (gct : Option (List ℕ)) (bg : ℕ)
        (st : ReaderState) (fh : FrameHeader) (e : LzwErr),
        decompressLZW fh.compressedData fh.lzwMinimumCodeSize = .error e →
        (processFrame width height gct bg st fh).frames =
          st.frames ++
            [{ imageData :=
                ⟨List.replicate (fh.frameWidth * fh.frameHeight * 4) 255,
                  fh.frameWidth, fh.frameHeight⟩,
               delay := st.currentDelay, disposal := st.currentDisposal,
               left := fh.frameLeft, top := fh.frameTop,
               transparentIndex := st.currentTransparentIndex }] ∧
        (processFrame width height gct bg st fh).position = fh.nextPos) ∧
    getFrames
        [71, 73, 70, 56, 57, 97,
         2, 0, 1, 0, 0xF0, 0, 0,
         255, 0, 0, 0, 0, 255,
         0x2C, 0, 0, 0, 0, 2, 0, 1, 0, 0,
         2, 2, 76, 10, 0,
         0x2C, 0, 0, 0, 0, 2, 0, 1, 0, 0,
         2, 1, 7, 0,
         0x2C, 0, 0, 0, 0, 2, 0, 1, 0, 0,
         2, 2, 76, 10, 0,
         0x3B] =
      .ok
        [{ imageData := ⟨[0, 0, 255, 255, 0, 0, 255, 255], 2, 1⟩,
           delay := 100, disposal := 1, left := 0, top := 0,
           transparentIndex := -1 },
         { imageData := ⟨[255, 255, 255, 255, 255, 255, 255, 255], 2, 1⟩,
           delay := 100, disposal := 1, left := 0, top := 0,
           transparentIndex := -1 },
         { imageData := ⟨[0, 0, 255, 255, 0, 0, 255, 255], 2, 1⟩,
           delay := 100, disposal := 1, left := 0, top := 0,
           transparentIndex := -1 }] := by
  constructor
  · intro width height gct bg st fh e h
    unfold processFrame
    rw [h]
    exact ⟨rfl, rfl⟩
  · decide

/-- Witness for C2 (amended) at a concrete corrupt frame header. -/
theorem corrupt_frame_placeholder_spec_witness :
    (processFrame 2 1 (some [255, 0, 0, 0, 0, 255]) 0
        ⟨6, [0, 0, 255, 255, 0, 0, 255, 255], none, 100, 1, -1, []⟩
        ⟨0, 0, 2, 1, false, none, 2, [7], 42⟩).frames =
      [] ++
        [{ imageData := ⟨List.replicate (2 * 1 * 4) 255, 2, 1⟩,
           delay := 100, disposal := 1, left := 0, top := 0,
           transparentIndex := -1 }] ∧
    (processFrame 2 1 (some [255, 0, 0, 0, 0, 255]) 0
        ⟨6, [0, 0, 255, 255, 0, 0, 255, 255], none, 100, 1, -1, []⟩
        ⟨0, 0, 2, 1, false, none, 2, [7], 42⟩).position = 42 :=
  corrupt_frame_placeholder_spec.1 2 1 (some [255, 0, 0, 0, 0, 255]) 0
    ⟨6, [0, 0, 255, 255, 0, 0, 255, 255], none, 100, 1, -1, []⟩
    ⟨0, 0, 2, 1, false, none, 2, [7], 42⟩ .invalidCode (by decide)

/-- Counterexample for C2 as stated: a 3-frame GIF whose middle frame's LZW
sub-blocks are truncated (a sub-block declares 200 payload bytes but the
stream ends first). The sub-block gathering happens before the `try` block,
so the whole decode aborts with `GifValidationError` instead of yielding 3
frame records. -/
theorem truncated_subblocks_abort_counterexample :
    getFrames
        [71, 73, 70, 56, 57, 97,
         2, 0, 1, 0, 0xF0, 0, 0,
         255, 0, 0, 0, 0, 255,
         0x2C, 0, 0, 0, 0, 2, 0, 1, 0, 0,
         2, 2, 76, 10, 0,
         0x2C, 0, 0, 0, 0, 2, 0, 1, 0, 0,
         2, 200, 1, 2, 3,
         0x2C, 0, 0, 0, 0, 2, 0, 1, 0, 0,
         2, 2, 76, 10, 0,
         0x3B] = .error .validation := by
  decide

/-- C3 (amended): the disposal step that runs before a frame is composited
uses the **current** frame's cached graphics-control disposal (the value from
the extension immediately preceding this frame's image descriptor, reset to
`DoNotDispose` after every frame) and the **current** frame's sub-rectangle:
code 2 clears that rectangle to the background color, code 3 restores the
snapshot and re-snapshots, and any other code leaves the canvas untouched.
Shown in general on the disposal step, and on a concrete 2-frame GIF in which
frame 1 carries no graphics control (so the previous frame's disposal
defaults to `DoNotDispose`) while frame 2's own extension requests
restore-to-background: the canvas is cleared to the background color before
frame 2 (all of whose pixels are transparent) is drawn. -/
theorem disposal_uses_current_frame_spec :
    (∀ (canvas : List ℕ) (previousCanvas : Option (List ℕ))
        (fl ft fw fh : ℕ) (gct : Option (List ℕ)) (bg cw : ℕ),
        applyDisposal canvas previousCanvas
            DisposalMethod.RestoreToBackground fl ft fw fh gct bg cw =
          (clearFrameArea canvas fl ft fw fh gct bg cw, previousCanvas) ∧
        (∀ pc, previousCanvas = some pc →
          applyDisposal canvas previousCanvas
              DisposalMethod.RestoreToPrevious fl ft fw fh gct bg cw =
            (pc, some pc)) ∧
        (previousCanvas = none →
          applyDisposal canvas previousCanvas
              DisposalMethod.RestoreToPrevious fl ft fw fh gct bg cw =
            (canvas, some canvas)) ∧
        (∀ d, d = 0 ∨ d = 1 →
          applyDisposal canvas previousCanvas d fl ft fw fh gct bg cw =
            (canvas, previousCanvas))) ∧
    getFrames
        [71, 73, 70, 56, 57, 97,
         2, 0, 1, 0, 0xF0, 0, 0,
         255, 0, 0, 0, 0, 255,
         0x2C, 0, 0, 0, 0, 2, 0, 1, 0, 0,
         2, 2, 76, 10, 0,
         0x21, 0xF9, 4, 9, 0, 0, 0, 0,
         0x2C, 0, 0, 0, 0, 2, 0, 1, 0, 0,
         2, 2, 4, 10, 0,
         0x3B] =
      .ok
        [{ imageData := ⟨[0, 0, 255, 255, 0, 0, 255, 255], 2, 1⟩,
           delay := 100, disposal := 1, left := 0, top := 0,
           transparentIndex := -1 },
         { imageData := ⟨[255, 0, 0, 255, 255, 0, 0, 255], 2, 1⟩,
           delay := 0, disposal := 2, left := 0, top := 0,
           transparentIndex := 0 }] := by
  constructor
  · intro canvas previousCanvas fl ft fw fh gct bg cw
    refine ⟨?_, ?_, ?_, ?_⟩
    · unfold applyDisposal
      cases previousCanvas <;> simp [DisposalMethod.RestoreToBackground,
        DisposalMethod.RestoreToPrevious]
    · intro pc hpc
      subst hpc
      unfold applyDisposal
      simp [DisposalMethod.RestoreToPrevious]
    · intro hpc
      subst hpc
      unfold applyDisposal
      simp [DisposalMethod.RestoreToPrevious, DisposalMethod.RestoreToBackground]
    · intro d hd
      unfold applyDisposal
      rcases hd with rfl | rfl <;>
        cases previousCanvas <;>
          simp [DisposalMethod.RestoreToPrevious,
            DisposalMethod.RestoreToBackground]
  · decide

/-- Witness for C3 (amended) at concrete canvases: disposal 2 clears the
current frame's rectangle, disposal 0 leaves the canvas untouched. -/
theorem disposal_uses_current_frame_spec_witness :
    applyDisposal [1, 2, 3, 4] none DisposalMethod.RestoreToBackground
        0 0 1 1 (some [9, 9, 9]) 0 1 =
      (clearFrameArea [1, 2, 3, 4] 0 0 1 1 (some [9, 9, 9]) 0 1, none) ∧
    applyDisposal [1, 2, 3, 4] none 0 0 0 1 1 (some [9, 9, 9]) 0 1 =
      ([1, 2, 3, 4], none) :=
  ⟨((disposal_uses_current_frame_spec.1 [1, 2, 3, 4] none 0 0 1 1
      (some [9, 9, 9]) 0 1).1),
    ((disposal_uses_current_frame_spec.1 [1, 2, 3, 4] none 0 0 1 1
      (some [9, 9, 9]) 0 1).2.2.2 0 (Or.inl rfl))⟩

/-- Counterexample for C3 as stated: in the 2-frame GIF of the amended
theorem, frame 1 has no graphics control extension, so by the claim (disposal
applies to the previous frame) the canvas should be left untouched before
frame 2 — frame 2 is fully transparent, so its record would repeat frame 1's
pixels `[0,0,255,255, 0,0,255,255]`. The code instead applies frame 2's own
disposal (2) to frame 2's rectangle and clears it to the background color,
yielding `[255,0,0,255, 255,0,0,255]`. -/
theorem disposal_previous_frame_counterexample :
    (getFrames
        [71, 73, 70, 56, 57, 97,
         2, 0, 1, 0, 0xF0, 0, 0,
         255, 0, 0, 0, 0, 255,
         0x2C, 0, 0, 0, 0, 2, 0, 1, 0, 0,
         2, 2, 76, 10, 0,
         0x21, 0xF9, 4, 9, 0, 0, 0, 0,
         0x2C, 0, 0, 0, 0, 2, 0, 1, 0, 0,
         2, 2, 4, 10, 0,
         0x3B]).map (fun fs => fs.map (fun f => f.imageData.data)) =
      .ok [[0, 0, 255, 255, 0, 0, 255, 255],
           [255, 0, 0, 255, 255, 0, 0, 255]] ∧
    [255, 0, 0, 255, 255, 0, 0, 255] ≠ [0, 0, 255, 255, 0, 0, 255, 255] := by
  constructor
  · decide
  · decide

end GifTools
namespace GifTools

/-- Low byte ored with a byte shifted left by 8 is plain positional
notation. -/
theorem lor_shiftLeft8 (q r : ℕ) (hr : r < 256) :
    r ||| (q <<< 8) = 256 * q + r := by
  rw [Nat.shiftLeft_eq, Nat.lor_comm, Nat.mul_comm q (2 ^ 8)]
  have h := (Nat.mul_add_lt_is_or (show r < 2 ^ 8 by norm_num [hr]) q).symm
  norm_num at h ⊢
  exact h

/-- Reading back the two bytes `write16BitLE` produced recovers the value. -/
theorem le16_roundtrip (cs : ℕ) (h : cs < 65536) :
    (cs % 256) ||| ((cs / 256 % 256) <<< 8) = cs := by
  have h1 : cs / 256 < 256 := by omega
  rw [Nat.mod_eq_of_lt h1, lor_shiftLeft8 _ _ (Nat.mod_lt _ (by norm_num))]
  omega

/-- `writeBytesArr` on three valid bytes. -/
theorem writeBytesArr_3 (w : GifWriter) (a b c : ℕ) (ha : a ≤ 255)
    (hb : b ≤ 255) (hc : c ≤ 255) :
    w.writeBytesArr [a, b, c] = .ok { w with output := w.output ++ [a, b, c] } := by
  have h1 : ¬(a > 255) := by omega
  have h2 : ¬(b > 255) := by omega
  have h3 : ¬(c > 255) := by omega
  simp [GifWriter.writeBytesArr, GifWriter.writeByte, h1, h2, h3]

/-- `writeByte` on a valid byte. -/
theorem writeByte_ok (w : GifWriter) (b : ℕ) (hb : b ≤ 255) :
    w.writeByte b = .ok { w with output := w.output ++ [b] } := by
  unfold GifWriter.writeByte
  rw [if_neg (by omega)]

end GifTools
namespace GifTools

/-- The packed byte of a graphics control extension is a valid byte. -/
theorem gcePacked_le (options : ImageOptions) : gcePacked options ≤ 255 := by
  unfold gcePacked
  have h2 : (options.disposal.getD DisposalMethod.RestoreToBackground &&& 0x07)
      <<< 2 < 2 ^ 8 := by
    have h1 : (options.disposal.getD DisposalMethod.RestoreToBackground &&&
        0x07) ≤ 7 := Nat.and_le_right
    rw [Nat.shiftLeft_eq]
    omega
  have h3 : (if gceHasTransparency options then 0x01 else 0x00) < 2 ^ 8 := by
    split <;> norm_num
  have := Nat.or_lt_two_pow h2 h3
  omega

/-- The transparent-color byte of a graphics control extension is a valid
byte. -/
theorem gceTransparentByte_le (options : ImageOptions) :
    gceTransparentByte options ≤ 255 := by
  unfold gceTransparentByte
  split
  · exact Nat.and_le_right
  · omega

/-- `writeGraphicsControl` on an in-range delay: the exact bytes appended. -/
theorem writeGraphicsControl_ok (w : GifWriter) (opts : ImageOptions) (d : ℤ)
    (hd : opts.delay = some d) (hle : msToGifDelay d ≤ 65535) :
    w.writeGraphicsControl opts = .ok { w with
      output := w.output ++ [0x21, 0xf9, 0x04, gcePacked opts,
        (msToGifDelay d).toNat % 256, (msToGifDelay d).toNat / 256 % 256,
        gceTransparentByte opts, 0x00] } := by
  have hcs0 : (0 : ℤ) ≤ msToGifDelay d := le_max_left 0 _
  have e1 := writeBytesArr_3 w 0x21 0xf9 0x04 (by norm_num) (by norm_num)
    (by norm_num)
  have e2 := writeByte_ok
    { w with output := w.output ++ [0x21, 0xf9, 0x04] }
    (gcePacked opts) (gcePacked_le opts)
  have e3 : write16BitLE (msToGifDelay d) =
      .ok [(msToGifDelay d).toNat % 256, (msToGifDelay d).toNat / 256 % 256] := by
    unfold write16BitLE
    rw [if_neg (by omega)]
  have e4 := writeByte_ok
    { w with output := (w.output ++ [0x21, 0xf9, 0x04]) ++ [gcePacked opts] ++
        [(msToGifDelay d).toNat % 256, (msToGifDelay d).toNat / 256 % 256] }
    (gceTransparentByte opts) (gceTransparentByte_le opts)
  have e5 := writeByte_ok
    { w with output := (w.output ++ [0x21, 0xf9, 0x04]) ++ [gcePacked opts] ++
        [(msToGifDelay d).toNat % 256, (msToGifDelay d).toNat / 256 % 256] ++
        [gceTransparentByte opts] }
    0x00 (by norm_num)
  unfold GifWriter.writeGraphicsControl
  rw [hd]
  dsimp only [Option.getD_some]
  simp only [e1]
  simp only [GifWriter.writeBytesU, List.append_assoc] at e2 e4 e5 ⊢
  simp only [e2, e3]
  simp only [GifWriter.writeBytesU, List.append_assoc]
  simp only [e4, e5]
  simp [List.append_assoc]

end GifTools
namespace GifTools

/-- `writeGraphicsControl` when the centisecond value overflows 16 bits: the
`GifValidationError` from `write16BitLE` propagates, with the first four
extension bytes already appended. -/
theorem writeGraphicsControl_overflow (w : GifWriter) (opts : ImageOptions)
    (d : ℤ) (hd : opts.delay = some d) (hgt : msToGifDelay d > 65535) :
    w.writeGraphicsControl opts = .error (.validation,
      { w with output := w.output ++ [0x21, 0xf9, 0x04, gcePacked opts] }) := by
  have e1 := writeBytesArr_3 w 0x21 0xf9 0x04 (by norm_num) (by norm_num)
    (by norm_num)
  have e2 := writeByte_ok
    { w with output := w.output ++ [0x21, 0xf9, 0x04] }
    (gcePacked opts) (gcePacked_le opts)
  have e3 : write16BitLE (msToGifDelay d) = .error .validation := by
    unfold write16BitLE
    rw [if_pos (Or.inr (by omega))]
  unfold GifWriter.writeGraphicsControl
  rw [hd]
  dsimp only [Option.getD_some]
  simp only [e1]
  simp only [List.append_assoc] at e2 ⊢
  simp only [e2, e3]
  simp [List.append_assoc]

/-- The reader's graphics-control branch on the six bytes following the
`0x21 0xF9` introducer that the writer emits. -/
theorem readGraphicsControl_of_written (packed lo hi tb : ℕ) :
    readGraphicsControl [0x04, packed, lo, hi, tb, 0x00] 0 =
      .ok (some ((lo ||| (hi <<< 8)) * 10,
        (match (packed &&& 0x1c) >>> 2 with
          | 1 => DisposalMethod.DoNotDispose
          | 2 => DisposalMethod.RestoreToBackground
          | 3 => DisposalMethod.RestoreToPrevious
          | _ => DisposalMethod.DoNotDispose),
        (if packed &&& 0x01 = 0 then (-1 : ℤ) else (tb : ℤ))), 6) := by
  unfold readGraphicsControl read16R
  norm_num [readByteR, List.getD]

/-- C6 (amended): for a frame delay of `d` ms, the graphics control extension
carries `msToGifDelay d = max 0 (⌊(d+5)/10⌋) = max 0 (round(d/10))`
centiseconds as a little-endian 16-bit field — clamped below at 0 but *not*
clamped above: when that value exceeds 65535 the writer raises
`GifValidationError` (with the first four extension bytes already appended)
instead of clamping. When it fits, the reader's graphics-control parser
reports exactly `max 0 (round(d/10)) · 10` milliseconds. -/
theorem delay_centiseconds_spec :
    ∀ (w : GifWriter) (opts : ImageOptions) (d : ℤ),
      opts.delay = some d →
      (msToGifDelay d ≤ 65535 →
        w.writeGraphicsControl opts = .ok { w with
          output := w.output ++ [0x21, 0xf9, 0x04, gcePacked opts,
            (msToGifDelay d).toNat % 256, (msToGifDelay d).toNat / 256 % 256,
            gceTransparentByte opts, 0x00] } ∧
        (∃ (disp : ℕ) (ti : ℤ),
          readGraphicsControl [0x04, gcePacked opts,
              (msToGifDelay d).toNat % 256,
              (msToGifDelay d).toNat / 256 % 256,
              gceTransparentByte opts, 0x00] 0 =
            .ok (some ((msToGifDelay d).toNat * 10, disp, ti), 6))) ∧
      (msToGifDelay d > 65535 →
        w.writeGraphicsControl opts = .error (.validation,
          { w with output := w.output ++
              [0x21, 0xf9, 0x04, gcePacked opts] })) := by
  intro w opts d hd
  have hcs0 : (0 : ℤ) ≤ msToGifDelay d := le_max_left 0 _
  constructor
  · intro hle
    refine ⟨writeGraphicsControl_ok w opts d hd hle, ?_⟩
    rw [readGraphicsControl_of_written]
    rw [le16_roundtrip (msToGifDelay d).toNat (by omega)]
    exact ⟨_, _, rfl⟩
  · intro hgt
    exact writeGraphicsControl_overflow w opts d hd hgt

/-- Witness for C6 (amended) at `d = 123` ms (written as 12 centiseconds,
decoded as 120 ms) on a fresh writer. -/
theorem delay_centiseconds_spec_witness :
    freshWriter.writeGraphicsControl { delay := some 123 } =
      .ok { freshWriter with
        output := freshWriter.output ++ [0x21, 0xf9, 0x04,
          gcePacked { delay := some 123 },
          (msToGifDelay 123).toNat % 256, (msToGifDelay 123).toNat / 256 % 256,
          gceTransparentByte { delay := some 123 }, 0x00] } ∧
    (∃ (disp : ℕ) (ti : ℤ),
      readGraphicsControl [0x04, gcePacked { delay := some 123 },
          (msToGifDelay 123).toNat % 256,
          (msToGifDelay 123).toNat / 256 % 256,
          gceTransparentByte { delay := some 123 }, 0x00] 0 =
        .ok (some ((msToGifDelay 123).toNat * 10, disp, ti), 6)) :=
  (delay_centiseconds_spec freshWriter { delay := some 123 } 123 rfl).1
    (by decide)

/-- Counterexample for C6 as stated: with `d = 655360` ms the centisecond
value 65536 is not clamped to 65535; the writer raises `GifValidationError`
instead (and has already appended the first four extension bytes). -/
theorem delay_no_upper_clamp_counterexample :
    freshWriter.writeGraphicsControl { delay := some 655360 } =
      .error (.validation, GifWriter.mk [0x21, 0xf9, 0x04, 8] false false 0) := by
  decide

end GifTools

namespace GifTools

/-- The best-index accumulator of `fcciGo` stays below any bound dominating
both the initial index and the scan positions. -/
theorem fcciGo_lt (target : RGBColor) :
    ∀ (rest : List RGBColor) (i bi : ℕ) (bd : ℤ) (B : ℕ),
      bi < B → i + rest.length ≤ B → fcciGo target rest i bi bd < B := by
  intro rest
  induction rest with
  | nil => intro i bi bd B hbi _; simpa [fcciGo] using hbi
  | cons p t ih =>
    intro i bi bd B hbi hiB
    simp only [fcciGo]
    split
    · exact ih (i + 1) i _ B (by simp at hiB; omega) (by simp at hiB ⊢; omega)
    · exact ih (i + 1) bi bd B hbi (by simp at hiB ⊢; omega)

/-- `findClosestColorIndex` on a nonempty palette returns an in-range index. -/
theorem findClosestColorIndex_lt (target : RGBColor)
    (palette : List RGBColor) (h : palette ≠ []) :
    ∃ idx, findClosestColorIndex target palette = .ok idx ∧
      idx < palette.length := by
  match palette with
  | [] => exact absurd rfl h
  | p0 :: rest =>
    refine ⟨_, rfl, ?_⟩
    exact fcciGo_lt target rest 1 0 _ (rest.length + 1) (by omega) (by omega)

/-- A value found by `cmLookup` occurs in the map. -/
theorem cmLookup_lt (B : ℕ) :
    ∀ (m : List (RGBColor × ℕ)) (key : RGBColor) (v : ℕ),
      (∀ p ∈ m, p.2 < B) → cmLookup m key = some v → v < B := by
  intro m
  induction m with
  | nil => intro key v _ h; simp [cmLookup] at h
  | cons p t ih =>
    intro key v hm h
    match p with
    | (k, w) =>
      simp only [cmLookup] at h
      split at h
      · cases h; exact hm (k, v) (by simp)
      · exact ih key v (fun q hq => hm q (by simp [hq])) h

/-- `cmSet` preserves an upper bound on the stored indices. -/
theorem cmSet_lt (B : ℕ) (m : List (RGBColor × ℕ)) (key : RGBColor) (v : ℕ)
    (hm : ∀ p ∈ m, p.2 < B) (hv : v < B) :
    ∀ p ∈ cmSet m key v, p.2 < B := by
  intro p hp
  unfold cmSet at hp
  split at hp
  · obtain ⟨q, hq, hpq⟩ := List.mem_map.mp hp
    subst hpq
    by_cases hk : q.1 = key
    · rw [if_pos hk]; exact hv
    · rw [if_neg hk]; exact hm q hq
  · rcases List.mem_append.mp hp with h | h
    · exact hm p h
    · simp at h; rw [h]; exact hv

end GifTools

namespace GifTools

/-- `mapColor` on a nonempty palette with an in-range memo succeeds with an
in-range index and an in-range memo. -/
theorem mapColor_ok (palette : List RGBColor) (m : List (RGBColor × ℕ))
    (color : RGBColor) (hp : palette ≠ [])
    (hm : ∀ p ∈ m, p.2 < palette.length) :
    ∃ idx m2, mapColor palette m color = .ok (idx, m2) ∧
      idx < palette.length ∧ ∀ p ∈ m2, p.2 < palette.length := by
  unfold mapColor
  cases h : cmLookup m color with
  | some index =>
    exact ⟨index, m, rfl, cmLookup_lt palette.length m color index hm h, hm⟩
  | none =>
    obtain ⟨idx, hfc, hlt⟩ := findClosestColorIndex_lt color palette hp
    rw [hfc]
    exact ⟨idx, _, rfl, hlt, cmSet_lt palette.length m color idx hm hlt⟩

/-- `c2iGo` on a nonempty palette succeeds, producing one in-range index per
pixel. -/
theorem c2iGo_ok (palette : List RGBColor) (img : ImageDataR)
    (hp : palette ≠ []) :
    ∀ (l : List ℕ) (m : List (RGBColor × ℕ)),
      (∀ p ∈ m, p.2 < palette.length) →
      ∃ out m2, c2iGo palette img l m = .ok (out, m2) ∧
        out.length = l.length ∧ ∀ b ∈ out, b < palette.length := by
  intro l
  induction l with
  | nil => intro m _; exact ⟨[], m, rfl, rfl, by simp⟩
  | cons i t ih =>
    intro m hm
    obtain ⟨idx, m2, hmc, hlt, hm2⟩ := mapColor_ok palette m _ hp hm
    obtain ⟨out, m3, hrec, hlen, hout⟩ := ih m2 hm2
    refine ⟨idx :: out, m3, ?_, by simp [hlen], ?_⟩
    · simp only [c2iGo]
      rw [hmc]
      simp only []
      rw [hrec]
    · intro b hb
      rcases List.mem_cons.mp hb with h | h
      · rw [h]; exact hlt
      · exact hout b h

/-- The inner `cube.forEach` fold of `buildCMGo` preserves the index bound. -/
theorem cmFoldCube_lt (B i : ℕ) (hi : i < B) :
    ∀ (cube : List RGBColor) (m : List (RGBColor × ℕ)),
      (∀ p ∈ m, p.2 < B) →
      ∀ p ∈ cube.foldl (fun m c => cmSet m c i) m, p.2 < B := by
  intro cube
  induction cube with
  | nil => intro m hm; simpa using hm
  | cons c t ih =>
    intro m hm
    simp only [List.foldl_cons]
    exact ih (cmSet m c i) (cmSet_lt B m c i hm hi)

/-- `buildCMGo` only stores palette indices below any bound dominating the
running index plus the number of remaining cubes. -/
theorem buildCMGo_lt (B : ℕ) :
    ∀ (rest : List ColorCube) (i : ℕ) (m : List (RGBColor × ℕ)),
      (∀ p ∈ m, p.2 < B) → i + rest.length ≤ B →
      ∀ p ∈ buildCMGo i rest m, p.2 < B := by
  intro rest
  induction rest with
  | nil => intro i m hm _; simpa [buildCMGo] using hm
  | cons cube t ih =>
    intro i m hm hiB
    simp only [buildCMGo]
    refine ih (i + 1) _ ?_ (by simp at hiB ⊢; omega)
    exact cmFoldCube_lt B i (by simp at hiB; omega) cube m hm

/-- Every index stored by `buildColorMap` is a valid cube index. -/
theorem buildColorMap_lt (cubes : List ColorCube) :
    ∀ p ∈ buildColorMap cubes, p.2 < cubes.length := by
  unfold buildColorMap
  exact buildCMGo_lt cubes.length cubes 0 [] (by simp) (by simp)

/-- `mapAvg` succeeds on a list of nonempty cubes, one palette entry per
cube. -/
theorem mapAvg_ok :
    ∀ (cubes : List ColorCube), (∀ c ∈ cubes, c ≠ []) →
      ∃ palette, mapAvg cubes = .ok palette ∧
        palette.length = cubes.length := by
  intro cubes
  induction cubes with
  | nil => intro _; exact ⟨[], rfl, rfl⟩
  | cons c t ih =>
    intro h
    obtain ⟨pal, hpal, hlen⟩ := ih (fun x hx => h x (by simp [hx]))
    have hc : c.length ≠ 0 := (List.length_pos.mpr (h c (by simp))).ne'
    refine ⟨⟨(c.map RGBColor.red).sum / c.length,
        (c.map RGBColor.green).sum / c.length,
        (c.map RGBColor.blue).sum / c.length⟩ :: pal, ?_, by simp [hlen]⟩
    simp only [mapAvg, calculateAverageColor, if_neg hc]
    rw [hpal]

/-- `getPaletteData` emits three bytes per palette color. -/
theorem getPaletteData_length (palette : List RGBColor) :
    (getPaletteData palette).length = 3 * palette.length := by
  induction palette with
  | nil => rfl
  | cons c t ih =>
    simp only [getPaletteData, List.foldr_cons] at ih ⊢
    simp [ih]; ring

end GifTools

namespace GifTools

/-- A fold whose step never returns `[]` never returns `[]` from a start that
is nonempty or a nonempty list. -/
theorem foldl_ne_nil {α β : Type} (g : List α → β → List α)
    (hg : ∀ acc i, g acc i ≠ []) :
    ∀ (l : List β) (acc : List α), (acc ≠ [] ∨ l ≠ []) →
      List.foldl g acc l ≠ [] := by
  intro l
  induction l with
  | nil =>
    intro acc h
    simpa using h.resolve_right (by simp)
  | cons x t ih =>
    intro acc _
    simpa using ih (g acc x) (Or.inl (hg acc x))

/-- An image with at least one pixel yields at least one extracted color. -/
theorem extractColors_ne_nil (img : ImageDataR)
    (h : 1 ≤ img.width * img.height) : extractColors img ≠ [] := by
  unfold extractColors
  refine foldl_ne_nil _ ?_ _ _ (Or.inr ?_)
  · intro acc i
    dsimp only
    split
    · next hmem =>
      intro hnil
      rw [hnil] at hmem
      simp at hmem
    · simp
  · simpa [List.range_eq_nil] using Nat.one_le_iff_ne_zero.mp h

/-- The max-population fold of `findLargestCube` returns its seed or a list
element. -/
theorem pickFold_mem :
    ∀ (rest : List ColorCube) (b : ColorCube),
      List.foldl (fun best cur =>
        if cur.length > best.length then cur else best) b rest = b ∨
      List.foldl (fun best cur =>
        if cur.length > best.length then cur else best) b rest ∈ rest := by
  intro rest
  induction rest with
  | nil => intro b; exact Or.inl rfl
  | cons x t ih =>
    intro b
    simp only [List.foldl_cons]
    rcases ih (if x.length > b.length then x else b) with h | h
    · rw [h]
      split
      · exact Or.inr (by simp)
      · exact Or.inl rfl
    · exact Or.inr (by simp [h])

/-- `findLargestCube` on a nonempty list returns one of its cubes. -/
theorem findLargestCube_mem (cubes : List ColorCube) (h : cubes ≠ []) :
    ∃ largest, findLargestCube cubes = .ok largest ∧ largest ∈ cubes := by
  match cubes with
  | [] => exact absurd rfl h
  | c :: rest =>
    refine ⟨_, rfl, ?_⟩
    rcases pickFold_mem rest c with h | h
    · rw [h]; simp
    · simp [h]

/-- `analyzeColorCube` succeeds on a nonempty cube. -/
theorem analyzeColorCube_ok (colors : List RGBColor) (h : colors ≠ []) :
    ∃ st, analyzeColorCube colors = .ok st := by
  cases h2 : analyzeColorCube colors with
  | ok st => exact ⟨st, rfl⟩
  | error e =>
    exfalso
    unfold analyzeColorCube at h2
    rw [if_neg (List.length_pos.mpr h).ne'] at h2
    exact Except.noConfusion h2

/-- `findMedian` succeeds on a nonempty cube (the median rank is in range). -/
theorem findMedian_ok (colors : List RGBColor) (comp : CComp)
    (h : colors ≠ []) : ∃ v, findMedian colors comp = .ok v := by
  cases h2 : findMedian colors comp with
  | ok v => exact ⟨v, rfl⟩
  | error e =>
    exfalso
    unfold findMedian selectKthElement at h2
    have hlen : 0 < colors.length := List.length_pos.mpr h
    rw [if_neg ?_] at h2
    · exact Except.noConfusion h2
    · simp only [List.length_map]
      exact Nat.not_le.mpr (Nat.div_lt_self hlen (by omega))

/-- `splitColorCube` on a cube of two or more colors succeeds, returning
either the unsplit cube or two nonempty halves. -/
theorem splitColorCube_ok (colors : List RGBColor)
    (h : 2 ≤ colors.length) :
    ∃ splits, splitColorCube colors = .ok splits ∧
      (splits = [colors] ∨
        ∃ a b, splits = [a, b] ∧ a ≠ [] ∧ b ≠ []) := by
  have hne : colors ≠ [] := by
    intro hnil; rw [hnil] at h; simp at h
  unfold splitColorCube
  rw [if_neg (by omega)]
  obtain ⟨st, hst⟩ := analyzeColorCube_ok colors hne
  rw [hst]
  simp only []
  obtain ⟨med, hmed⟩ := findMedian_ok colors (findLargestComponent st) hne
  rw [hmed]
  simp only []
  split
  · exact ⟨_, rfl, Or.inl rfl⟩
  · next hcond =>
    rw [not_or] at hcond
    refine ⟨_, rfl, Or.inr ⟨_, _, rfl, ?_, ?_⟩⟩
    · exact fun hnil => hcond.1 (by rw [hnil]; rfl)
    · exact fun hnil => hcond.2 (by rw [hnil]; rfl)

end GifTools

namespace GifTools

/-- The index `indexOf` returns for a list member is in range. -/
theorem indexOf_lt_length_of_mem {α : Type} [BEq α] [LawfulBEq α] :
    ∀ (l : List α) (a : α), a ∈ l → List.indexOf a l < l.length := by
  intro l
  induction l with
  | nil => intro a h; simp at h
  | cons b t ih =>
    intro a h
    rw [List.indexOf_cons]
    by_cases hba : (b == a) = true
    · simp [hba]
    · have hat : a ∈ t := by
        rcases List.mem_cons.mp h with h | h
        · exact absurd (by simp [h]) hba
        · exact h
      simp only [hba, cond_false, List.length_cons]
      exact Nat.succ_lt_succ (ih a hat)

/-- The `medianCut` splitting loop preserves the cube-list invariant and
never throws, for any fuel. -/
theorem medianCutGo_inv (N : ℕ) :
    ∀ (fuel : ℕ) (cubes : List ColorCube), cubes ≠ [] →
      cubes.length ≤ N → (∀ c ∈ cubes, c ≠ []) →
      ∃ cubes2, medianCutGo N fuel cubes = .ok cubes2 ∧
        CubesOk N cubes2 := by
  intro fuel
  induction fuel with
  | zero => intro cubes h1 h2 h3; exact ⟨cubes, rfl, h1, h2, h3⟩
  | succ fuel ih =>
    intro cubes h1 h2 h3
    simp only [medianCutGo]
    by_cases hlt : cubes.length < N
    · rw [if_pos hlt]
      obtain ⟨largest, hL, hmem⟩ := findLargestCube_mem cubes h1
      rw [hL]
      simp only []
      by_cases hl1 : largest.length ≤ 1
      · rw [if_pos hl1]
        exact ⟨cubes, rfl, h1, h2, h3⟩
      · rw [if_neg hl1]
        obtain ⟨splits, hS, hsplits⟩ :=
          splitColorCube_ok largest (by omega)
        rw [hS]
        simp only []
        rcases hsplits with hone | ⟨a, b, hab, ha, hb⟩
        · rw [hone]
          rw [if_pos (by simp)]
          exact ⟨cubes, rfl, h1, h2, h3⟩
        · subst hab
          rw [if_neg (by simp)]
          have hidx : cubes.indexOf largest < cubes.length :=
            indexOf_lt_length_of_mem cubes largest hmem
        
          refine ih (cubes.eraseIdx (cubes.indexOf largest) ++ [a, b])
            (by simp) ?_ ?_
          · rw [List.length_append, List.length_eraseIdx, if_pos hidx]
            simp only [List.length_cons, List.length_nil]
            omega
          · intro c hc
            rcases List.mem_append.mp hc with hc | hc
            · exact h3 c (List.Sublist.mem hc (List.eraseIdx_sublist _ _))
            · rcases List.mem_cons.mp hc with hc | hc
              · rw [hc]; exact ha
              · simp at hc; rw [hc]; exact hb
    · rw [if_neg hlt]
      exact ⟨cubes, rfl, h1, h2, h3⟩

/-- `medianCut` on a nonempty color list with a positive budget succeeds and
satisfies the cube-list invariant. -/
theorem medianCut_inv (colors : List RGBColor) (N : ℕ)
    (hc : colors ≠ []) (hN : 1 ≤ N) :
    ∃ cubes, medianCut colors N = .ok cubes ∧ CubesOk N cubes := by
  unfold medianCut
  rw [if_neg (by omega)]
  by_cases hle : colors.length ≤ N
  · rw [if_pos hle]
    refine ⟨_, rfl, ?_, by simpa using hle, ?_⟩
    · simpa using hc
    · intro c hcm
      obtain ⟨x, _, hx⟩ := List.mem_map.mp hcm
      rw [← hx]; simp
  · rw [if_neg hle]
    exact medianCutGo_inv N N [colors] (by simp) (by simp; omega)
      (by simpa using hc)

end GifTools

namespace GifTools

/-- C8: on any RGBA image with at least one pixel and matching data length,
`quantize` with a budget `N ∈ [1, 256]` succeeds and returns an indexed
image of the same dimensions whose palette holds between 1 and `N` colors
(3 bytes each) and whose `width·height` data bytes are all valid palette
indices. -/
theorem quantize_invariants_spec (img : ImageDataR) (N : ℕ)
    (h1 : 1 ≤ N) (h2 : N ≤ 256)
    (h0 : 1 ≤ img.width * img.height)
    (_hd : img.data.length = img.width * img.height * 4) :
    ∃ res P, quantize N img = .ok res ∧
      res.width = img.width ∧ res.height = img.height ∧
      res.palette.length = 3 * P ∧ 1 ≤ P ∧ P ≤ N ∧
      res.data.length = img.width * img.height ∧
      ∀ b ∈ res.data, b < P := by
  have hec := extractColors_ne_nil img h0
  obtain ⟨cubes, hmc, hne, hlenN, hcube⟩ := medianCut_inv _ N hec h1
  obtain ⟨palette, hpal, hplen⟩ := mapAvg_ok cubes hcube
  have hppos : 0 < palette.length := by
    rw [hplen]; exact List.length_pos.mpr hne
  have hpne : palette ≠ [] := List.length_pos.mp hppos
  have hbnd : ∀ p ∈ buildColorMap cubes, p.2 < palette.length := by
    intro p hp
    rw [hplen]
    exact buildColorMap_lt cubes p hp
  obtain ⟨out, m2, hc2i, hOutLen, hOutLt⟩ :=
    c2iGo_ok palette img hpne
      (List.range (img.width * img.height)) (buildColorMap cubes) hbnd
  have hconv : convertToIndexed palette (buildColorMap cubes) img =
      .ok out := by
    unfold convertToIndexed
    rw [hc2i]
  have hq : quantize N img = .ok
      { width := img.width, height := img.height, data := out,
        palette := getPaletteData palette } := by
    unfold quantize
    rw [if_neg (by omega)]
    dsimp only
    rw [hmc]
    simp only []
    rw [hpal]
    simp only []
    rw [hconv]
  refine ⟨_, palette.length, hq, rfl, rfl,
    getPaletteData_length palette, hppos, ?_, ?_, hOutLt⟩
  · rw [hplen]; exact hlenN
  · rw [hOutLen, List.length_range]

end GifTools

namespace GifTools

/-- Witness for the C8 theorem at a 1×1 image and a budget of 2. -/
theorem quantize_invariants_spec_witness :
    (1 ≤ 2 ∧ 2 ≤ 256 ∧
      1 ≤ (1 : ℕ) * 1 ∧ ([10, 20, 30, 255] : List ℕ).length = 1 * 1 * 4) ∧
    ∃ res P,
      quantize 2 { width := 1, height := 1, data := [10, 20, 30, 255] } =
        .ok res ∧
      res.width = 1 ∧ res.height = 1 ∧
      res.palette.length = 3 * P ∧ 1 ≤ P ∧ P ≤ 2 ∧
      res.data.length = 1 * 1 ∧ ∀ b ∈ res.data, b < P :=
  ⟨by decide,
    quantize_invariants_spec
      { width := 1, height := 1, data := [10, 20, 30, 255] } 2
      (by decide) (by decide) (by decide) (by decide)⟩

/-- A zero-pixel image satisfies the claim's data-length hypothesis, yet
`quantize` returns an empty palette (fewer than one color). -/
theorem quantize_zero_pixel_counterexample :
    ([] : List ℕ).length = 0 * 0 * 4 ∧
    quantize 256 { width := 0, height := 0, data := [] } =
      .ok { width := 0, height := 0, data := [], palette := [] } := by
  exact ⟨rfl, rfl⟩

end GifTools

namespace GifTools

/-- OR-ing disjoint bit ranges is addition. -/
theorem lor_disjoint (a b n : ℕ) (ha : a < 2 ^ n) :
    a ||| (b <<< n) = a + b * 2 ^ n := by
  rw [Nat.shiftLeft_eq, Nat.lor_comm, Nat.mul_comm b (2 ^ n),
    ← Nat.mul_add_lt_is_or ha b]
  ring

/-- `dataVal` splits over append. -/
theorem dataVal_append (l1 l2 : List ℕ) :
    dataVal (l1 ++ l2) = dataVal l1 + 2 ^ (8 * l1.length) * dataVal l2 := by
  induction l1 with
  | nil => simp [dataVal]
  | cons b t ih =>
    simp only [List.cons_append, dataVal, List.length_cons, List.append_eq]
    rw [ih]
    have h : (2 : ℕ) ^ (8 * (t.length + 1)) = 256 * 2 ^ (8 * t.length) := by
      rw [show 8 * (t.length + 1) = 8 + 8 * t.length by ring, pow_add]
      norm_num
    rw [h]
    ring

/-- A byte list's value is below `2^(8·length)`. -/
theorem dataVal_lt (l : List ℕ) (h : ∀ b ∈ l, b < 256) :
    dataVal l < 2 ^ (8 * l.length) := by
  induction l with
  | nil => simp [dataVal]
  | cons b t ih =>
    have hb : b < 256 := h b (by simp)
    have ht := ih (fun x hx => h x (by simp [hx]))
    simp only [dataVal, List.length_cons]
    have hp : (2 : ℕ) ^ (8 * (t.length + 1)) = 256 * 2 ^ (8 * t.length) := by
      rw [show 8 * (t.length + 1) = 8 + 8 * t.length by ring, pow_add]
      norm_num
    rw [hp]
    omega

/-- Splitting a code at `t` low bits and recombining at offset `B`. -/
theorem splitCombine (code t V B : ℕ) :
    V + code % 2 ^ t * 2 ^ B + code / 2 ^ t * 2 ^ (B + t) =
      V + code * 2 ^ B := by
  have hs := Nat.mod_add_div code (2 ^ t)
  calc V + code % 2 ^ t * 2 ^ B + code / 2 ^ t * 2 ^ (B + t)
      = V + (code % 2 ^ t + 2 ^ t * (code / 2 ^ t)) * 2 ^ B := by
        rw [pow_add]; ring
  _ = V + code * 2 ^ B := by rw [hs]

/-- The `push` loop appends `code`'s `w` bits above the held bits. -/
theorem pushGo_spec :
    ∀ (fuel : ℕ) (st : CodeToBytes) (code w : ℕ), w ≤ fuel →
      ConvInv st → code < 2 ^ w →
      ConvInv (pushGo fuel st code w) ∧
      convVal (pushGo fuel st code w) =
        convVal st + code * 2 ^ convBits st ∧
      convBits (pushGo fuel st code w) = convBits st + w := by
  intro fuel
  induction fuel with
  | zero =>
    intro st code w hwf hinv hc
    have hw : w = 0 := Nat.le_zero.mp hwf
    subst hw
    have hc0 : code = 0 := Nat.lt_one_iff.mp hc
    subst hc0
    simp [pushGo, hinv]
  | succ fuel ih =>
    intro st code w hwf hinv hc
    by_cases hw : w = 0
    · subst hw
      have hc0 : code = 0 := Nat.lt_one_iff.mp hc
      subst hc0
      simp [pushGo, hinv]
    · obtain ⟨hrb, hrv, hbytes⟩ := hinv
      simp only [pushGo, if_neg hw]
      set t := Min.min w (8 - st.remainingBits) with ht
      have ht1 : 1 ≤ t := by omega
      have ht8 : st.remainingBits + t ≤ 8 := by omega
      have htw : t ≤ w := by omega
      have hbits : code &&& (2 ^ t - 1) = code % 2 ^ t :=
        Nat.and_pow_two_sub_one_eq_mod code t
      have hbl : code % 2 ^ t < 2 ^ t :=
        Nat.mod_lt _ (Nat.pos_pow_of_pos t (by omega))
      have hrv' : st.remainingValue |||
            ((code &&& (2 ^ t - 1)) <<< st.remainingBits) =
          st.remainingValue + code % 2 ^ t * 2 ^ st.remainingBits := by
        rw [hbits, lor_disjoint _ _ _ hrv]
      have hrvlt : st.remainingValue + code % 2 ^ t * 2 ^ st.remainingBits <
          2 ^ (st.remainingBits + t) := by
        have h1 : code % 2 ^ t * 2 ^ st.remainingBits ≤
            (2 ^ t - 1) * 2 ^ st.remainingBits :=
          Nat.mul_le_mul_right _ (by omega)
        have h2 : (2 : ℕ) ^ (st.remainingBits + t) =
            2 ^ t * 2 ^ st.remainingBits := by rw [pow_add]; ring
        have h3 : (1 : ℕ) ≤ 2 ^ st.remainingBits := Nat.one_le_two_pow
        nlinarith
      have hcdiv : code >>> t = code / 2 ^ t := Nat.shiftRight_eq_div_pow code t
      have hcdlt : code / 2 ^ t < 2 ^ (w - t) := by
        apply Nat.div_lt_of_lt_mul
        calc code < 2 ^ w := hc
        _ = 2 ^ t * 2 ^ (w - t) := by rw [← pow_add]; congr 1; omega
      by_cases h8 : st.remainingBits + t ≥ 8
      · have h8' : st.remainingBits + t = 8 := by omega
        rw [if_pos h8]
        have hmod : (st.remainingValue + code % 2 ^ t * 2 ^ st.remainingBits) % 256 =
            st.remainingValue + code % 2 ^ t * 2 ^ st.remainingBits := by
          apply Nat.mod_eq_of_lt
          calc st.remainingValue + code % 2 ^ t * 2 ^ st.remainingBits
              < 2 ^ (st.remainingBits + t) := hrvlt
          _ = 256 := by rw [h8']; norm_num
        have hdiv : (st.remainingValue + code % 2 ^ t * 2 ^ st.remainingBits) / 256 = 0 := by
          apply Nat.div_eq_of_lt
          calc st.remainingValue + code % 2 ^ t * 2 ^ st.remainingBits
              < 2 ^ (st.remainingBits + t) := hrvlt
          _ = 256 := by rw [h8']; norm_num
        set st2 : CodeToBytes := ⟨st.output ++ [(st.remainingValue |||
            ((code &&& (2 ^ t - 1)) <<< st.remainingBits)) % 256],
            st.remainingBits + t - 8,
            (st.remainingValue ||| ((code &&& (2 ^ t - 1)) <<< st.remainingBits)) / 256⟩
          with hst2
        have hinv2 : ConvInv st2 := by
          refine ⟨by simp [hst2]; omega, ?_, ?_⟩
          · simp only [hst2, hrv', hdiv]
            have hz : st.remainingBits + t - 8 = 0 := by omega
            rw [hz]
            norm_num
          · intro b hb
            simp only [hst2] at hb
            rcases List.mem_append.mp hb with h | h
            · exact hbytes b h
            · simp only [List.mem_singleton] at h
              rw [h, hrv', hmod]
              omega
        have hcv2 : convVal st2 = convVal st + code % 2 ^ t * 2 ^ convBits st := by
          simp only [hst2, convVal, convBits, List.length_append,
            List.length_cons, List.length_nil, hrv', hmod, hdiv,
            dataVal_append, dataVal]
          rw [pow_add]
          ring
        have hcb2 : convBits st2 = convBits st + t := by
          simp only [hst2, convBits, List.length_append, List.length_cons,
            List.length_nil]
          omega
        have hrec := ih st2 (code >>> t) (w - t) (by omega) hinv2
          (by rw [hcdiv]; exact hcdlt)
        refine ⟨hrec.1, ?_, ?_⟩
        · rw [hrec.2.1, hcv2, hcb2, hcdiv]
          exact splitCombine code t (convVal st) (convBits st)
        · rw [hrec.2.2, hcb2]
          omega
      · rw [if_neg h8]
        set st2 : CodeToBytes := ⟨st.output, st.remainingBits + t,
            st.remainingValue ||| ((code &&& (2 ^ t - 1)) <<< st.remainingBits)⟩
          with hst2
        have hinv2 : ConvInv st2 :=
          ⟨by simp only [hst2]; omega,
            by simp only [hst2]; rw [hrv']; exact hrvlt, hbytes⟩
        have hcv2 : convVal st2 = convVal st + code % 2 ^ t * 2 ^ convBits st := by
          simp only [hst2, convVal, convBits, hrv']
          rw [pow_add]
          ring
        have hcb2 : convBits st2 = convBits st + t := by
          simp only [hst2, convBits]
          omega
        have hrec := ih st2 (code >>> t) (w - t) (by omega) hinv2
          (by rw [hcdiv]; exact hcdlt)
        refine ⟨hrec.1, ?_, ?_⟩
        · rw [hrec.2.1, hcv2, hcb2, hcdiv]
          exact splitCombine code t (convVal st) (convBits st)
        · rw [hrec.2.2, hcb2]
          omega

end GifTools

namespace GifTools

/-- `CodeToBytes.push` with a positive width succeeds and appends the code's
bits. -/
theorem push_spec (st : CodeToBytes) (code w : ℕ) (hw : 1 ≤ w)
    (hinv : ConvInv st) (hc : code < 2 ^ w) :
    ∃ st2, st.push code w = .ok st2 ∧ ConvInv st2 ∧
      convVal st2 = convVal st + code * 2 ^ convBits st ∧
      convBits st2 = convBits st + w := by
  unfold CodeToBytes.push
  rw [if_neg (by omega)]
  obtain ⟨h1, h2, h3⟩ := pushGo_spec w st code w le_rfl hinv hc
  exact ⟨_, rfl, h1, h2, h3⟩

/-- `CodeToBytes.flush` emits exactly the held bits, zero-padded to whole
bytes. -/
theorem flush_spec (st : CodeToBytes) (hinv : ConvInv st) :
    dataVal st.flush = convVal st ∧ (∀ b ∈ st.flush, b < 256) ∧
      convBits st ≤ 8 * st.flush.length ∧
      (1 ≤ convBits st → st.flush ≠ []) := by
  obtain ⟨hrb, hrv, hbytes⟩ := hinv
  unfold CodeToBytes.flush
  by_cases h : st.remainingBits > 0
  · rw [if_pos h]
    have hmod : st.remainingValue % 256 = st.remainingValue := by
      apply Nat.mod_eq_of_lt
      calc st.remainingValue < 2 ^ st.remainingBits := hrv
      _ ≤ 2 ^ 8 := Nat.pow_le_pow_right (by omega) (by omega)
      _ = 256 := by norm_num
    refine ⟨?_, ?_, ?_, fun _ => by simp⟩
    · rw [dataVal_append, hmod]
      simp only [convVal, dataVal]
      ring
    · intro b hb
      rcases List.mem_append.mp hb with hb | hb
      · exact hbytes b hb
      · simp only [List.mem_singleton] at hb
        rw [hb, hmod]
        calc st.remainingValue < 2 ^ st.remainingBits := hrv
        _ ≤ 2 ^ 8 := Nat.pow_le_pow_right (by omega) (by omega)
        _ = 256 := by norm_num
    · simp only [convBits, List.length_append, List.length_cons,
        List.length_nil]
      omega
  · rw [if_neg h]
    have hrb0 : st.remainingBits = 0 := by omega
    have hrv0 : st.remainingValue = 0 := by
      rw [hrb0] at hrv
      simpa using hrv
    refine ⟨?_, hbytes, by simp [convBits, hrb0], ?_⟩
    · simp [convVal, hrv0]
    · intro hcb
      simp only [convBits, hrb0, Nat.add_zero] at hcb
      intro hnil
      rw [hnil] at hcb
      simp at hcb

end GifTools

namespace GifTools

/-- The refill loop of `readCode` preserves the unconsumed stream and
reaches the requested bit count (or the end of the supply). -/
theorem fillGo_spec :
    ∀ (fuel : ℕ) (st : BytesToCode) (w : ℕ),
      st.bitBuffer < 2 ^ st.bitsInBuffer → st.position ≤ st.data.length →
      (∀ b ∈ st.data, b < 256) → w ≤ st.bitsInBuffer + 8 * fuel →
      (fillGo fuel st w).data = st.data ∧
      rVal (fillGo fuel st w) = rVal st ∧
      tBits (fillGo fuel st w) = tBits st ∧
      (fillGo fuel st w).bitBuffer < 2 ^ (fillGo fuel st w).bitsInBuffer ∧
      (fillGo fuel st w).position ≤ st.data.length ∧
      Min.min w (tBits st) ≤ (fillGo fuel st w).bitsInBuffer ∧
      (fillGo fuel st w).bitsInBuffer ≤ Max.max (w + 7) st.bitsInBuffer := by
  intro fuel
  induction fuel with
  | zero =>
    intro st w hbb hpos hbytes hwf
    have hwb : w ≤ st.bitsInBuffer := by omega
    refine ⟨rfl, rfl, rfl, hbb, hpos, ?_, ?_⟩
    · show Min.min w (tBits st) ≤ st.bitsInBuffer
      exact le_trans (Nat.min_le_left _ _) hwb
    · show st.bitsInBuffer ≤ Max.max (w + 7) st.bitsInBuffer
      omega
  | succ fuel ih =>
    intro st w hbb hpos hbytes hwf
    simp only [fillGo]
    split
    · next hcond =>
      obtain ⟨hlt, hplen⟩ := hcond
      have hbyte : st.data.getD st.position 0 < 256 := by
        rw [List.getD_eq_getElem st.data 0 hplen]
        exact hbytes _ (List.getElem_mem hplen)
      have hor : st.bitBuffer |||
          (st.data.getD st.position 0 <<< st.bitsInBuffer) =
          st.bitBuffer + st.data.getD st.position 0 * 2 ^ st.bitsInBuffer :=
        lor_disjoint _ _ _ hbb
      have hdrop : st.data.drop st.position =
          st.data.getD st.position 0 :: st.data.drop (st.position + 1) := by
        rw [List.getD_eq_getElem st.data 0 hplen]
        exact List.drop_eq_getElem_cons hplen
      have hrv : rVal { st with
          bitBuffer := st.bitBuffer |||
            (st.data.getD st.position 0 <<< st.bitsInBuffer),
          bitsInBuffer := st.bitsInBuffer + 8,
          position := st.position + 1 } = rVal st := by
        simp only [rVal, hor]
        rw [hdrop]
        simp only [dataVal]
        rw [pow_add]
        ring
      have htb : tBits { st with
          bitBuffer := st.bitBuffer |||
            (st.data.getD st.position 0 <<< st.bitsInBuffer),
          bitsInBuffer := st.bitsInBuffer + 8,
          position := st.position + 1 } = tBits st := by
        simp only [tBits]
        omega
      have hbb2 : st.bitBuffer +
          st.data.getD st.position 0 * 2 ^ st.bitsInBuffer <
          2 ^ (st.bitsInBuffer + 8) := by
        have h1 : st.data.getD st.position 0 * 2 ^ st.bitsInBuffer ≤
            255 * 2 ^ st.bitsInBuffer := Nat.mul_le_mul_right _ (by omega)
        rw [pow_add]
        nlinarith
      have hrec := ih { st with
          bitBuffer := st.bitBuffer |||
            (st.data.getD st.position 0 <<< st.bitsInBuffer),
          bitsInBuffer := st.bitsInBuffer + 8,
          position := st.position + 1 } w
        (by simp only [hor]; exact hbb2) (by simpa using hplen)
        (by simpa using hbytes) (by simp only []; omega)
      simp only [] at hrec
      refine ⟨hrec.1, hrec.2.1.trans hrv, hrec.2.2.1.trans htb, hrec.2.2.2.1,
        hrec.2.2.2.2.1, ?_, ?_⟩
      · have := hrec.2.2.2.2.2.1
        rw [htb] at this
        exact this
      · have := hrec.2.2.2.2.2.2
        omega
    · next hcond =>
      rw [not_and_or] at hcond
      refine ⟨rfl, rfl, rfl, hbb, hpos, ?_, by omega⟩
      rcases hcond with h | h
      · exact le_trans (Nat.min_le_left _ _) (by omega)
      · have hpe : st.position = st.data.length := by omega
        have : tBits st = st.bitsInBuffer := by
          simp only [tBits, hpe]
          omega
        rw [← this]
        exact Nat.min_le_right _ _

end GifTools

namespace GifTools

/-- `readCode` extracts the lowest `w`-bit field of the unconsumed stream. -/
theorem readCode_field (st : BytesToCode) (c w v : ℕ)
    (hd : DInv st) (hw1 : 1 ≤ w) (hw16 : w ≤ 16)
    (hr : rVal st = c + 2 ^ w * v) (hc : c < 2 ^ w) (htb : w ≤ tBits st) :
    ∃ st2, readCode st w = .ok (some c, st2) ∧ DInv st2 ∧
      st2.data = st.data ∧ rVal st2 = v ∧ tBits st2 = tBits st - w := by
  obtain ⟨hbib, hbb, hpos, hbytes⟩ := hd
  unfold readCode
  rw [if_neg (by omega)]
  obtain ⟨hdata, hrv, htb2, hbb2, hpos2, hmin, hmax⟩ :=
    fillGo_spec w st w hbb hpos hbytes (by omega)
  have hwle : w ≤ (fillGo w st w).bitsInBuffer := by
    have : Min.min w (tBits st) = w := Nat.min_eq_left htb
    omega
  rw [if_neg (by omega)]
  set stf := fillGo w st w with hstf
  have hsplit : rVal stf = stf.bitBuffer +
      2 ^ w * (2 ^ (stf.bitsInBuffer - w) *
        dataVal (stf.data.drop stf.position)) := by
    rw [rVal, ← mul_assoc, ← pow_add]
    congr 3
    omega
  have hval : stf.bitBuffer &&& (2 ^ w - 1) = c := by
    rw [Nat.and_pow_two_sub_one_eq_mod]
    have h1 : stf.bitBuffer % 2 ^ w = rVal stf % 2 ^ w := by
      rw [hsplit, Nat.add_mul_mod_self_left]
    rw [h1, hrv, hr, Nat.add_mul_mod_self_left]
    exact Nat.mod_eq_of_lt hc
  have hpow : (0 : ℕ) < 2 ^ w := Nat.pos_pow_of_pos w (by omega)
  have hmax7 : stf.bitsInBuffer ≤ w + 7 := by
    rcases le_max_iff.mp hmax with h | h
    · exact h
    · omega
  refine ⟨⟨stf.data, stf.position, stf.bitBuffer >>> w,
      stf.bitsInBuffer - w⟩, ?_, ?_, ?_, ?_, ?_⟩
  · dsimp only
    rw [hval]
  · refine ⟨?_, ?_, ?_, ?_⟩
    · show stf.bitsInBuffer - w < 8
      omega
    · show stf.bitBuffer >>> w < 2 ^ (stf.bitsInBuffer - w)
      rw [Nat.shiftRight_eq_div_pow]
      apply Nat.div_lt_of_lt_mul
      calc stf.bitBuffer < 2 ^ stf.bitsInBuffer := hbb2
      _ = 2 ^ w * 2 ^ (stf.bitsInBuffer - w) := by
          rw [← pow_add]
          congr 1
          omega
    · show stf.position ≤ stf.data.length
      rw [hdata]
      exact hpos2
    · show ∀ b ∈ stf.data, b < 256
      intro b hb
      rw [hdata] at hb
      exact hbytes b hb
  · exact hdata
  · show stf.bitBuffer >>> w +
        2 ^ (stf.bitsInBuffer - w) * dataVal (stf.data.drop stf.position) = v
    rw [Nat.shiftRight_eq_div_pow]
    have h2 : rVal stf / 2 ^ w = stf.bitBuffer / 2 ^ w +
        2 ^ (stf.bitsInBuffer - w) * dataVal (stf.data.drop stf.position) := by
      rw [hsplit, Nat.add_mul_div_left _ _ hpow]
    have h3 : rVal stf / 2 ^ w = v := by
      rw [hrv, hr, Nat.add_mul_div_left _ _ hpow, Nat.div_eq_of_lt hc,
        Nat.zero_add]
    omega
  · show stf.bitsInBuffer - w + 8 * (stf.data.length - stf.position) =
        tBits st - w
    have h4 : tBits stf = stf.bitsInBuffer +
        8 * (stf.data.length - stf.position) := rfl
    omega

/-- `readCode` returns `none` when fewer than `w` bits remain. -/
theorem readCode_short (st : BytesToCode) (w : ℕ)
    (hd : DInv st) (hw1 : 1 ≤ w) (hw16 : w ≤ 16) (htb : tBits st < w) :
    ∃ st2, readCode st w = .ok (none, st2) := by
  obtain ⟨hbib, hbb, hpos, hbytes⟩ := hd
  unfold readCode
  rw [if_neg (by omega)]
  obtain ⟨hdata, hrv, htb2, hbb2, hpos2, hmin, hmax⟩ :=
    fillGo_spec w st w hbb hpos hbytes (by omega)
  have hble : (fillGo w st w).bitsInBuffer ≤ tBits st := by
    have h4 : tBits (fillGo w st w) = (fillGo w st w).bitsInBuffer +
        8 * ((fillGo w st w).data.length - (fillGo w st w).position) := rfl
    omega
  rw [if_pos (by omega)]
  exact ⟨_, rfl⟩

/-- A reader with at least one unconsumed bit reports more data. -/
theorem hasMore_of_tBits (st : BytesToCode) (h : 1 ≤ tBits st) :
    hasMore st := by
  unfold hasMore
  unfold tBits at h
  omega

end GifTools

namespace GifTools

/-- Core facts about the `calculateCodeBits` loop: the result is between
`bits` and 12, bounds `maxCode` (for `maxCode < 2^12`), and is minimal. -/
theorem ccbGo_facts :
    ∀ (fuel bits maxCode : ℕ), bits ≤ 12 → 12 - bits ≤ fuel →
      (maxCode < 4096 → maxCode < 2 ^ ccbGo fuel bits (2 ^ bits) maxCode) ∧
      bits ≤ ccbGo fuel bits (2 ^ bits) maxCode ∧
      ccbGo fuel bits (2 ^ bits) maxCode ≤ 12 ∧
      ∀ b, bits ≤ b → maxCode < 2 ^ b →
        ccbGo fuel bits (2 ^ bits) maxCode ≤ b := by
  intro fuel
  induction fuel with
  | zero =>
    intro bits maxCode hb12 hf
    have hb : bits = 12 := by omega
    subst hb
    simp only [ccbGo]
    refine ⟨fun h => ?_, by omega, by omega, fun b hb _ => by omega⟩
    calc maxCode < 4096 := h
    _ ≤ 2 ^ Min.min 12 12 := by norm_num
  | succ fuel ih =>
    intro bits maxCode hb12 hf
    simp only [ccbGo]
    split
    · next hcond =>
      have hrw : 2 ^ bits * 2 = 2 ^ (bits + 1) := by rw [pow_succ]
      rw [hrw]
      have hrec := ih (bits + 1) maxCode (by omega) (by omega)
      refine ⟨hrec.1, by omega, hrec.2.2.1, ?_⟩
      intro b hbb hmb
      have hb1 : bits + 1 ≤ b := by
        rcases Nat.eq_or_lt_of_le hbb with h | h
        · exfalso
          rw [← h] at hmb
          omega
        · omega
      exact hrec.2.2.2 b hb1 hmb
    · next hcond =>
      rw [not_and_or] at hcond
      have hmin : Min.min bits 12 = bits := Nat.min_eq_left hb12
      rw [hmin]
      refine ⟨?_, le_refl _, hb12, fun b hbb _ => hbb⟩
      intro h4096
      rcases hcond with h | h
      · omega
      · have hb : bits = 12 := by omega
        rw [hb]
        norm_num
        omega

/-- `calculateCodeBits` bounds its argument (arguments below `2^12`). -/
theorem ccb_lt (maxCode B : ℕ) (h4 : maxCode < 4096) (hB : B ≤ 12) :
    maxCode < 2 ^ calculateCodeBits maxCode B := by
  unfold calculateCodeBits
  split
  · next h => exact h
  · exact (ccbGo_facts 12 B maxCode hB (by omega)).1 h4

/-- `calculateCodeBits` is at least its initial width. -/
theorem ccb_ge (maxCode B : ℕ) (hB : B ≤ 12) :
    B ≤ calculateCodeBits maxCode B := by
  unfold calculateCodeBits
  split
  · exact le_refl _
  · exact (ccbGo_facts 12 B maxCode hB (by omega)).2.1

/-- `calculateCodeBits` is capped at 12. -/
theorem ccb_le12 (maxCode B : ℕ) (hB : B ≤ 12) :
    calculateCodeBits maxCode B ≤ 12 := by
  unfold calculateCodeBits
  split
  · exact hB
  · exact (ccbGo_facts 12 B maxCode hB (by omega)).2.2.1

/-- `calculateCodeBits` is minimal among admissible widths. -/
theorem ccb_min (maxCode B b : ℕ) (hB : B ≤ 12) (hBb : B ≤ b)
    (hmb : maxCode < 2 ^ b) : calculateCodeBits maxCode B ≤ b := by
  unfold calculateCodeBits
  split
  · exact hBb
  · exact (ccbGo_facts 12 B maxCode hB (by omega)).2.2.2 b hBb hmb

/-- Incrementing the largest code grows the width exactly when the new code
reaches `2^W`; the decoder's growth test agrees with the encoder's. -/
theorem ccb_next (B m W : ℕ) (hB : B ≤ 12) (hm : m + 1 ≤ 4095)
    (hW : W = calculateCodeBits m B) :
    ((2 ^ W ≤ m + 1 ∧ W < 12) ↔ m + 1 = 2 ^ W) ∧
    calculateCodeBits (m + 1) B =
      (if m + 1 = 2 ^ W then W + 1 else W) := by
  have hmlt : m < 2 ^ W := hW ▸ ccb_lt m B (by omega) hB
  have hWB : B ≤ W := hW ▸ ccb_ge m B hB
  have hW12 : W ≤ 12 := hW ▸ ccb_le12 m B hB
  by_cases heq : m + 1 = 2 ^ W
  · have hWlt : W < 12 := by
      by_contra h12
      have : W = 12 := by omega
      rw [this] at heq
      norm_num at heq
      omega
    have hnew : calculateCodeBits (m + 1) B = W + 1 := by
      have hup : calculateCodeBits (m + 1) B ≤ W + 1 := by
        apply ccb_min _ _ _ hB (by omega)
        rw [heq]
        exact Nat.pow_lt_pow_right (by omega) (by omega)
      have hlo : W < calculateCodeBits (m + 1) B := by
        by_contra hle
        push_neg at hle
        have h1 : m + 1 < 2 ^ calculateCodeBits (m + 1) B :=
          ccb_lt (m + 1) B (by omega) hB
        have h2 : (2 : ℕ) ^ calculateCodeBits (m + 1) B ≤ 2 ^ W :=
          Nat.pow_le_pow_right (by omega) hle
        omega
      omega
    rw [if_pos heq, hnew]
    exact ⟨⟨fun _ => heq, fun _ => ⟨by omega, hWlt⟩⟩, rfl⟩
  · have hlt : m + 1 < 2 ^ W := by omega
    have hnew : calculateCodeBits (m + 1) B = W := by
      have hup : calculateCodeBits (m + 1) B ≤ W := ccb_min _ _ _ hB hWB hlt
      have hlo : W ≤ calculateCodeBits (m + 1) B := by
        by_contra hle
        push_neg at hle
        have h1 : m + 1 < 2 ^ calculateCodeBits (m + 1) B :=
          ccb_lt (m + 1) B (by omega) hB
        have h2 : calculateCodeBits m B ≤ calculateCodeBits (m + 1) B := by
          apply ccb_min _ _ _ hB (ccb_ge _ _ hB)
          omega
        omega
      omega
    rw [if_neg heq, hnew]
    refine ⟨⟨fun h => by omega, fun h => absurd h heq⟩, rfl⟩

/-- The encoder's conditional width update equals the recomputed width. -/
theorem enc_width_update (B m W : ℕ) (hB : B ≤ 12) (hm : m + 1 ≤ 4095)
    (hW : W = calculateCodeBits m B) :
    (if calculateCodeBits (m + 1) B > W ∧ calculateCodeBits (m + 1) B ≤ 12
      then calculateCodeBits (m + 1) B else W) =
    calculateCodeBits (m + 1) B := by
  obtain ⟨hiff, hval⟩ := ccb_next B m W hB hm hW
  by_cases heq : m + 1 = 2 ^ W
  · rw [hval, if_pos heq]
    rw [if_pos]
    constructor
    · omega
    · have hWlt : W < 12 := (hiff.mpr heq).2
      omega
  · rw [hval, if_neg heq]
    rw [if_neg]
    intro hcon
    omega

end GifTools

namespace GifTools

/-- A hit in the first part of a concatenated dictionary wins. -/
theorem dictGet_append_some (l1 l2 : List (List ℕ × ℕ)) (s : List ℕ) (c : ℕ)
    (h : dictGet l1 s = some c) : dictGet (l1 ++ l2) s = some c := by
  induction l1 with
  | nil => simp [dictGet] at h
  | cons p t ih =>
    match p with
    | (key, v) =>
      simp only [dictGet, List.cons_append] at h ⊢
      split at h
      · next hk => rw [if_pos hk]; exact h
      · next hk => rw [if_neg hk]; exact ih h

/-- A miss in the first part of a concatenated dictionary defers. -/
theorem dictGet_append_none (l1 l2 : List (List ℕ × ℕ)) (s : List ℕ)
    (h : dictGet l1 s = none) : dictGet (l1 ++ l2) s = dictGet l2 s := by
  induction l1 with
  | nil => simp
  | cons p t ih =>
    match p with
    | (key, v) =>
      simp only [dictGet, List.cons_append] at h ⊢
      split at h
      · exact absurd h (by simp)
      · next hk => rw [if_neg hk]; exact ih h

/-- Any hit in a singles dictionary is a single-byte key equal to its code. -/
theorem dictGet_singles_shape (l : List ℕ) (s : List ℕ) (c : ℕ)
    (h : dictGet (l.map fun i => ([i], i)) s = some c) :
    s = [c] ∧ c ∈ l := by
  induction l with
  | nil => simp [dictGet] at h
  | cons i t ih =>
    simp only [List.map_cons, dictGet] at h
    split at h
    · next hk =>
      cases h
      exact ⟨hk.symm, by simp⟩
    · obtain ⟨h1, h2⟩ := ih h
      exact ⟨h1, by simp [h2]⟩

/-- Every listed byte is found in a singles dictionary. -/
theorem dictGet_singles_mem (l : List ℕ) (b : ℕ) (h : b ∈ l) :
    dictGet (l.map fun i => ([i], i)) [b] = some b := by
  induction l with
  | nil => simp at h
  | cons i t ih =>
    simp only [List.map_cons, dictGet]
    by_cases hib : i = b
    · subst hib
      rw [if_pos rfl]
    · rw [if_neg (by simp [hib])]
      exact ih (by rcases List.mem_cons.mp h with h | h
                   · exact absurd h.symm hib
                   · exact h)

/-- Single bytes below `2^k` are in the encoder's base dictionary. -/
theorem encReset_get (k b : ℕ) (h : b < 2 ^ k) :
    dictGet (encResetEntries k) [b] = some b :=
  dictGet_singles_mem _ b (List.mem_range.mpr h)

/-- Every hit in the encoder's base dictionary is a single below `2^k`. -/
theorem encReset_shape (k : ℕ) (s : List ℕ) (c : ℕ)
    (h : dictGet (encResetEntries k) s = some c) : s = [c] ∧ c < 2 ^ k := by
  obtain ⟨h1, h2⟩ := dictGet_singles_shape _ s c h
  exact ⟨h1, List.mem_range.mp h2⟩

/-- The decoder's reset dictionary resolves all single-byte codes. -/
theorem decReset_get (k c : ℕ) (h : c < 2 ^ k) :
    (decReset k).get c = some [c] := by
  unfold DecDict.get decReset
  have hlen : c < ((List.range (2 ^ k)).map fun i => some [i]).length := by
    simpa using h
  rw [List.get?_append hlen, List.get?_map, List.get?_range h]
  rfl

/-- Length and next code of the reset decoder dictionary. -/
theorem decReset_len (k : ℕ) :
    (decReset k).entries.length = (decReset k).nextCode := by
  simp [decReset]

/-- `DecDict.add` with room: the new entry lands at the old `nextCode`. -/
theorem decAdd_spec (D : DecDict) (s : List ℕ)
    (hlen : D.entries.length = D.nextCode) (hroom : D.nextCode < 4095) :
    (D.add s).nextCode = D.nextCode + 1 ∧
    (D.add s).entries.length = D.nextCode + 1 ∧
    (D.add s).get D.nextCode = some s ∧
    ∀ c, c < D.nextCode → (D.add s).get c = D.get c := by
  unfold DecDict.add
  rw [if_pos (by unfold MAX_CODE_VALUE; omega)]
  refine ⟨rfl, by simp [hlen], ?_, ?_⟩
  · show DecDict.get ⟨D.entries ++ [some s], D.nextCode + 1⟩ D.nextCode = some s
    unfold DecDict.get
    rw [← hlen, List.get?_concat_length]
  · intro c hc
    show DecDict.get ⟨D.entries ++ [some s], D.nextCode + 1⟩ c = D.get c
    unfold DecDict.get
    rw [List.get?_append (by omega)]

/-- Taking the head of `prev ++ cur.take 1` when `cur` extends `prev`. -/
theorem kwkwk_eq (prev cur : List ℕ) (hp : prev ≠ [])
    (h : cur = prev ++ cur.take 1) : cur = prev ++ prev.take 1 := by
  have h1 : cur.take 1 = prev.take 1 := by
    conv_lhs => rw [h]
    rw [List.take_append_of_le_length]
    have : 0 < prev.length := List.length_pos.mpr hp
    omega
  rw [h, h1]

end GifTools

namespace GifTools

/-- `calculateCodeBits` below the initial threshold. -/
theorem ccb_base (m B : ℕ) (h : m < 2 ^ B) : calculateCodeBits m B = B := by
  unfold calculateCodeBits
  rw [if_pos h]

/-- Decomposing a hit in a dictionary extended by one entry. -/
theorem dictGet_append_single_inv (l : List (List ℕ × ℕ)) (key s : List ℕ)
    (v c : ℕ) (h : dictGet (l ++ [(key, v)]) s = some c) :
    dictGet l s = some c ∨ (dictGet l s = none ∧ s = key ∧ c = v) := by
  cases hl : dictGet l s with
  | some c2 =>
    rw [dictGet_append_some l _ s c2 hl] at h
    cases h
    exact Or.inl rfl
  | none =>
    rw [dictGet_append_none l _ s hl] at h
    simp only [dictGet] at h
    split at h
    · next hk => cases h; exact Or.inr ⟨rfl, hk.symm, rfl⟩
    · simp at h

/-- The width of a reachable encoder state is between `k+1` and 12. -/
theorem enc_width_bounds (k : ℕ) (E : EncState) (hk8 : k ≤ 8)
    (hE : EncOk k E) : k + 1 ≤ E.currentBits ∧ E.currentBits ≤ 12 := by
  obtain ⟨h1, _, _, _, _, _⟩ := hE
  rw [h1]
  exact ⟨ccb_ge _ _ (by omega), ccb_le12 _ _ (by omega)⟩

/-- Every stored code of a reachable encoder state fits the current width;
so do the clear and end codes. -/
theorem enc_code_lt (k : ℕ) (E : EncState) (hk1 : 1 ≤ k) (hk8 : k ≤ 8)
    (hE : EncOk k E) :
    (∀ s c, dictGet E.entries s = some c → c < 2 ^ E.currentBits) ∧
    2 ^ k + 1 < 2 ^ E.currentBits := by
  obtain ⟨h1, h2, h3, _, _, h6⟩ := hE
  have hlt : E.nextCode - 1 < 2 ^ E.currentBits := by
    rw [h1]
    exact ccb_lt _ _ (by omega) (by omega)
  have hend : 2 ^ k + 1 < 2 ^ E.currentBits := by
    have hkc : k + 1 ≤ E.currentBits := by
      rw [h1]; exact ccb_ge _ _ (by omega)
    calc 2 ^ k + 1 < 2 ^ (k + 1) := by
          have : (2:ℕ) ^ (k+1) = 2 * 2 ^ k := by rw [pow_succ]; ring
          have h2k : 2 ≤ 2 ^ k := by
            calc (2:ℕ) = 2 ^ 1 := by norm_num
            _ ≤ 2 ^ k := Nat.pow_le_pow_right (by omega) hk1
          omega
    _ ≤ 2 ^ E.currentBits := Nat.pow_le_pow_right (by omega) hkc
  refine ⟨fun s c hc => ?_, hend⟩
  have := (h6 s c hc).1
  omega

/-- `stepAbs` preserves the encoder invariant. -/
theorem encOk_step (k : ℕ) (hk2 : 2 ≤ k) (hk8 : k ≤ 8) (E : EncState)
    (b : ℕ) (hb : b < 2 ^ k) (hE : EncOk k E) : EncOk k (stepAbs k E b) := by
  obtain ⟨h1, h2, h3, h4, h5, h6⟩ := hE
  unfold stepAbs
  dsimp only
  split
  · next hmem =>
    exact ⟨h1, h2, h3, fun _ => hmem, h5, h6⟩
  · next hmem =>
    cases hcur : dictGet E.entries E.currentString with
    | none =>
      exfalso
      by_cases hnil : E.currentString = []
      · rw [hnil] at hmem
        rw [List.nil_append] at hmem
        rw [h5 b hb] at hmem
        simp at hmem
      · rw [hcur] at h4
        simpa using h4 hnil
    | some c0 =>
      simp only []
      split
      · next hfull =>
        refine ⟨?_, ?_, ?_, fun _ => ?_, ?_, ?_⟩
        · show k + 1 = calculateCodeBits (2 ^ k + 2 - 1) (k + 1)
          rw [ccb_base]
          have : (2:ℕ) ^ (k+1) = 2 * 2 ^ k := by rw [pow_succ]; ring
          have h2k : 2 ≤ 2 ^ k := by
            calc (2:ℕ) = 2 ^ 1 := by norm_num
            _ ≤ 2 ^ k := Nat.pow_le_pow_right (by omega) (by omega)
          omega
        · show 2 ^ k + 2 ≤ 2 ^ k + 2
          exact le_refl _
        · show 2 ^ k + 2 ≤ 4096
          have : (2:ℕ) ^ k ≤ 2 ^ 8 := Nat.pow_le_pow_right (by omega) hk8
          norm_num at this ⊢
          omega
        · show (dictGet (encResetEntries k) [b]).isSome
          rw [encReset_get k b hb]
          rfl
        · exact fun b2 hb2 => encReset_get k b2 hb2
        · intro s c hc
          obtain ⟨hs, hck⟩ := encReset_shape k s c hc
          have h2k : 1 ≤ 2 ^ k := Nat.one_le_two_pow
          refine ⟨?_, by omega, by omega⟩
          show c < 2 ^ k + 2
          omega
      · next hfull =>
        have hnc : E.nextCode ≤ 4095 := by
          unfold MAX_CODE_VALUE at hfull
          omega
        refine ⟨?_, ?_, ?_, fun _ => ?_, ?_, ?_⟩
        · show (if calculateCodeBits E.nextCode (k + 1) > E.currentBits ∧
              calculateCodeBits E.nextCode (k + 1) ≤ 12
            then calculateCodeBits E.nextCode (k + 1) else E.currentBits) =
            calculateCodeBits (E.nextCode + 1 - 1) (k + 1)
          have hm : E.nextCode - 1 + 1 = E.nextCode := by omega
          have := enc_width_update (k + 1) (E.nextCode - 1) E.currentBits
            (by omega) (by omega) h1
          rw [hm] at this
          rw [this]
          congr 1
        · show 2 ^ k + 2 ≤ E.nextCode + 1
          omega
        · show E.nextCode + 1 ≤ 4096
          omega
        · show (dictGet (E.entries ++ [(E.currentString ++ [b], E.nextCode)])
            [b]).isSome
          rw [dictGet_append_some _ _ _ b (h5 b hb)]
          rfl
        · intro b2 hb2
          exact dictGet_append_some _ _ _ b2 (h5 b2 hb2)
        · intro s c hc
          rcases dictGet_append_single_inv _ _ _ _ _ hc with h | ⟨_, _, hcv⟩
          · have := h6 s c h
            refine ⟨?_, this.2.1, this.2.2⟩
            show c < E.nextCode + 1
            omega
          · subst hcv
            refine ⟨?_, by omega, by omega⟩
            show E.nextCode < E.nextCode + 1
            omega

end GifTools

namespace GifTools

/-- `stepAbs` ignores the converter component. -/
theorem stepAbs_conv (k : ℕ) (st : EncState) (c : CodeToBytes) (b : ℕ) :
    stepAbs k { st with conv := c } b = { stepAbs k st b with conv := c } := by
  unfold stepAbs
  dsimp only
  split
  · rfl
  · split
    · rfl
    · split <;> rfl

/-- `stepFields` ignores the converter component. -/
theorem stepFields_conv (k : ℕ) (st : EncState) (c : CodeToBytes) (b : ℕ) :
    stepFields k { st with conv := c } b = stepFields k st b := rfl

/-- `bodyFields` ignores the converter component. -/
theorem bodyFields_conv (k : ℕ) :
    ∀ (l : List ℕ) (st : EncState) (c : CodeToBytes),
      bodyFields k l { st with conv := c } = bodyFields k l st := by
  intro l
  induction l with
  | nil => intro st c; rfl
  | cons b t ih =>
    intro st c
    simp only [bodyFields, stepFields_conv, stepAbs_conv]
    rw [ih]

/-- Folding `stepAbs` ignores the converter component. -/
theorem foldl_stepAbs_conv (k : ℕ) :
    ∀ (l : List ℕ) (st : EncState) (c : CodeToBytes),
      List.foldl (stepAbs k) { st with conv := c } l =
        { List.foldl (stepAbs k) st l with conv := c } := by
  intro l
  induction l with
  | nil => intro st c; rfl
  | cons b t ih =>
    intro st c
    simp only [List.foldl_cons, stepAbs_conv]
    rw [ih]

/-- `tailFields` ignores the converter component. -/
theorem tailFields_conv (k : ℕ) (st : EncState) (c : CodeToBytes) :
    tailFields k { st with conv := c } = tailFields k st := rfl

/-- Bind of a success in `Except`. -/
theorem ok_bind {ε α β : Type} (v : α) (f : α → Except ε β) :
    (Except.ok v >>= f) = f v := rfl

/-- One `compressStep` refines one `stepAbs` plus the pushed fields. -/
theorem compressStep_refine (k : ℕ) (hk2 : 2 ≤ k) (hk8 : k ≤ 8)
    (E : EncState) (b : ℕ) (hb : b < 2 ^ k) (hE : EncOk k E)
    (hc : ConvInv E.conv) :
    ∃ conv2, compressStep k E b = .ok { stepAbs k E b with conv := conv2 } ∧
      ConvInv conv2 ∧
      convVal conv2 = convVal E.conv +
        2 ^ convBits E.conv * packVal (stepFields k E b) ∧
      convBits conv2 = convBits E.conv + wsum (stepFields k E b) := by
  obtain ⟨hW, hnc1, hnc2, hcur, hsingles, hcodes⟩ := hE
  have hWb : k + 1 ≤ E.currentBits ∧ E.currentBits ≤ 12 :=
    enc_width_bounds k E hk8 ⟨hW, hnc1, hnc2, hcur, hsingles, hcodes⟩
  have hclt := enc_code_lt k E (by omega) hk8
    ⟨hW, hnc1, hnc2, hcur, hsingles, hcodes⟩
  unfold compressStep stepAbs stepFields
  dsimp only
  split
  · next hmem =>
    refine ⟨E.conv, rfl, hc, ?_, ?_⟩
    · simp [packVal]
    · simp [wsum]
  · next hmem =>
    cases hcg : dictGet E.entries E.currentString with
    | none =>
      exfalso
      by_cases hnil : E.currentString = []
      · rw [hnil] at hmem
        rw [List.nil_append] at hmem
        rw [hsingles b hb] at hmem
        simp at hmem
      · rw [hcg] at hcur
        simpa using hcur hnil
    | some c0 =>
      simp only []
      have hc0lt : c0 < 2 ^ E.currentBits := hclt.1 _ _ hcg
      obtain ⟨conv1, hpush1, hinv1, hval1, hbits1⟩ :=
        push_spec E.conv c0 E.currentBits (by omega) hc hc0lt
      rw [hpush1, ok_bind]
      split
      · next hfull =>
        obtain ⟨conv2, hpush2, hinv2, hval2, hbits2⟩ :=
          push_spec conv1 (2 ^ k) E.currentBits (by omega) hinv1
            (by omega)
        rw [hpush2, ok_bind]
        refine ⟨conv2, rfl, hinv2, ?_, ?_⟩
        · rw [hval2, hval1, hbits1]
          simp only [packVal]
          rw [pow_add]
          ring
        · rw [hbits2, hbits1]
          simp only [wsum]
          omega
      · next hfull =>
        have hmax : ¬ E.nextCode > MAX_CODE_VALUE := hfull
        unfold dictAdd
        rw [if_neg hmax, ok_bind]
        refine ⟨conv1, rfl, hinv1, ?_, ?_⟩
        · rw [hval1]
          simp only [packVal]
          ring
        · rw [hbits1]
          simp only [wsum]
          omega

end GifTools

namespace GifTools

/-- `packVal` splits over append. -/
theorem packVal_append (A B : List (ℕ × ℕ)) :
    packVal (A ++ B) = packVal A + 2 ^ wsum A * packVal B := by
  induction A with
  | nil => simp [packVal, wsum]
  | cons p t ih =>
    match p with
    | (c, w) =>
      simp only [List.cons_append, packVal, wsum, List.append_eq, pow_add]
      rw [ih]
      ring

/-- `wsum` splits over append. -/
theorem wsum_append (A B : List (ℕ × ℕ)) :
    wsum (A ++ B) = wsum A + wsum B := by
  induction A with
  | nil => simp [wsum]
  | cons p t ih =>
    match p with
    | (c, w) =>
      simp only [List.cons_append, wsum, List.append_eq]
      rw [ih]
      omega

/-- The encoder loop refines the ghost fold and pushes `bodyFields`. -/
theorem foldlM_refine (k : ℕ) (hk2 : 2 ≤ k) (hk8 : k ≤ 8) :
    ∀ (data' : List ℕ) (E : EncState), (∀ b ∈ data', b < 2 ^ k) →
      EncOk k E → ConvInv E.conv →
      ∃ conv2, data'.foldlM (compressStep k) E =
          .ok { List.foldl (stepAbs k) E data' with conv := conv2 } ∧
        ConvInv conv2 ∧
        convVal conv2 = convVal E.conv +
          2 ^ convBits E.conv * packVal (bodyFields k data' E) ∧
        convBits conv2 = convBits E.conv + wsum (bodyFields k data' E) := by
  intro data'
  induction data' with
  | nil =>
    intro E hall hE hc
    refine ⟨E.conv, ?_, hc, by simp [bodyFields, packVal],
      by simp [bodyFields, wsum]⟩
    rw [List.foldlM_nil]
    rfl
  | cons b t ih =>
    intro E hall hE hc
    obtain ⟨conv1, hstep, hinv1, hval1, hbits1⟩ :=
      compressStep_refine k hk2 hk8 E b (hall b (by simp)) hE hc
    rw [List.foldlM_cons, hstep, ok_bind]
    have hE1Ok : EncOk k ({ stepAbs k E b with conv := conv1 } : EncState) :=
      encOk_step k hk2 hk8 E b (hall b (by simp)) hE
    obtain ⟨conv2, hfold, hinv2, hval2, hbits2⟩ :=
      ih { stepAbs k E b with conv := conv1 }
        (fun x hx => hall x (by simp [hx])) hE1Ok hinv1
    refine ⟨conv2, ?_, hinv2, ?_, ?_⟩
    · rw [hfold, foldl_stepAbs_conv]
      simp only [List.foldl_cons]
    · dsimp only at hval2
      rw [bodyFields_conv] at hval2
      rw [hval2, hval1, hbits1]
      simp only [bodyFields]
      rw [packVal_append, pow_add]
      ring
    · dsimp only at hbits2
      rw [bodyFields_conv] at hbits2
      rw [hbits2, hbits1]
      simp only [bodyFields]
      rw [wsum_append]
      omega

end GifTools

namespace GifTools

/-- Main simulation: from any aligned encoder/decoder point, the decoder
run on the remaining emitted fields reproduces the remaining input. -/
theorem decodeSim (k : ℕ) (hk2 : 2 ≤ k) (hk8 : k ≤ 8) :
    ∀ (data' : List ℕ) (E : EncState) (conv : BytesToCode) (D : DecDict)
      (prev output : List ℕ) (fuel : ℕ),
      (∀ b ∈ data', b < 2 ^ k) →
      EncOk k E → SimOk k E D prev → DInv conv →
      rVal conv = packVal (bodyFields k data' E ++
        tailFields k (List.foldl (stepAbs k) E data')) →
      wsum (bodyFields k data' E ++
        tailFields k (List.foldl (stepAbs k) E data')) ≤ tBits conv →
      tBits conv + 1 ≤ fuel →
      decodeGo k fuel conv D E.currentBits prev output =
        .ok (output ++ E.currentString ++ data') := by
  intro data'
  induction data' with
  | nil =>
    intro E conv D prev output fuel hall hE hsim hd hr hws hfuel
    simp only [bodyFields, List.foldl_nil, List.nil_append] at hr hws
    obtain ⟨hW, hnc1, hnc2, hcur, hsingles, hcodes⟩ := hE
    have hEx : EncOk k E := ⟨hW, hnc1, hnc2, hcur, hsingles, hcodes⟩
    have hWb := enc_width_bounds k E hk8 hEx
    have hclt := enc_code_lt k E (by omega) hk8 hEx
    by_cases hnil : E.currentString = []
    · -- no final string: the tail is just the end code
      have htf : tailFields k E = [(2 ^ k + 1, E.currentBits)] := by
        unfold tailFields
        rw [if_neg (by rw [hnil]; simp)]
      rw [htf] at hr hws
      simp only [packVal, wsum, Nat.mul_zero, Nat.add_zero] at hr hws
      cases fuel with
      | zero => omega
      | succ f =>
        simp only [decodeGo]
        rw [if_pos (hasMore_of_tBits conv (by omega))]
        obtain ⟨conv1, hread, hd1, hdata1, hrv1, htb1⟩ :=
          readCode_field conv (2 ^ k + 1) E.currentBits 0 hd (by omega)
            (by omega) (by rw [hr]; ring) hclt.2 (by omega)
        rw [hread]
        simp only []
        rw [if_neg (by omega), if_pos (by trivial), hnil]
        simp
    · -- final string present: its code, then the end code
      cases hc0 : dictGet E.entries E.currentString with
      | none =>
        exfalso
        have := hcur hnil
        rw [hc0] at this
        simp at this
      | some c0 =>
        have htf : tailFields k E =
            [(c0, E.currentBits), (2 ^ k + 1, E.currentBits)] := by
          unfold tailFields
          rw [if_pos (by simpa using List.length_pos.mpr hnil), hc0]
        rw [htf] at hr hws
        simp only [packVal, wsum, Nat.mul_zero, Nat.add_zero] at hr hws
        have hc0W : c0 < 2 ^ E.currentBits := hclt.1 _ _ hc0
        have hc0rng := hcodes _ _ hc0
        cases fuel with
        | zero => omega
        | succ f =>
          simp only [decodeGo]
          rw [if_pos (hasMore_of_tBits conv (by omega))]
          obtain ⟨conv1, hread, hd1, hdata1, hrv1, htb1⟩ :=
            readCode_field conv c0 E.currentBits
              (2 ^ k + 1 + 2 ^ E.currentBits * 0) hd (by omega) (by omega)
              (by rw [hr]; ring) hc0W (by omega)
          rw [hread]
          simp only []
          rw [if_neg hc0rng.2.1, if_neg hc0rng.2.2]
          have hrv1' : rVal conv1 = 2 ^ k + 1 := by rw [hrv1]; ring
          have hfin : ∀ (D2 : DecDict) (W2 f2 : ℕ), 1 ≤ W2 → W2 ≤ 16 →
              2 ^ k + 1 < 2 ^ W2 → tBits conv1 + 1 ≤ f2 →
              decodeGo k f2 conv1 D2 W2 E.currentString
                (output ++ E.currentString) =
                .ok (output ++ E.currentString ++ []) := by
            intro D2 W2 f2 hW21 hW216 hend2 hf2
            cases f2 with
            | zero => omega
            | succ f3 =>
              simp only [decodeGo]
              rw [if_pos (hasMore_of_tBits conv1 (by omega))]
              by_cases hch : W2 ≤ tBits conv1
              · obtain ⟨conv2, hread2, _, _, _, _⟩ :=
                  readCode_field conv1 (2 ^ k + 1) W2 0 hd1 hW21 hW216
                    (by rw [hrv1']; ring) hend2 hch
                rw [hread2]
                simp only []
                rw [if_neg (by omega), if_pos (by trivial)]
                simp
              · obtain ⟨conv2, hread2⟩ :=
                  readCode_short conv1 W2 hd1 hW21 hW216 (by omega)
                rw [hread2]
                simp only []
                simp
          obtain ⟨hlen, hfresh | hsteady⟩ := hsim
          · -- fresh mode
            obtain ⟨hprev, hent, hnc, hDeq⟩ := hfresh
            rw [hent] at hc0
            obtain ⟨hcur_eq, hc0k⟩ := encReset_shape k _ _ hc0
            have hDnc : D.nextCode = 2 ^ k + 2 := by rw [hDeq]; rfl
            have hget : D.get c0 = some [c0] := by
              rw [hDeq]
              exact decReset_get k c0 hc0k
            rw [if_pos (by omega)]
            simp only [hget, Option.getD_some]
            rw [if_neg (by rw [hprev]; simp)]
            simp only []
            rw [← hcur_eq]
            exact hfin D E.currentBits f (by omega) (by omega) hclt.2
              (by omega)
          · -- steady mode
            obtain ⟨hprev, hcurne, hnc, hclause⟩ := hsteady
            have hprevlen : prev.length ≠ 0 := (List.length_pos.mpr hprev).ne'
            rcases hclause _ _ hc0 with ⟨hlt, hget⟩ | ⟨heq, hshape⟩
            · rw [if_pos hlt]
              simp only [hget, Option.getD_some]
              by_cases hroom : prev.length > 0 ∧ D.nextCode < MAX_CODE_VALUE
              · rw [if_pos hroom]
                simp only []
                refine hfin _ _ f ?_ ?_ ?_ (by omega)
                · split <;> omega
                · have := hWb.2
                  split <;> omega
                · have h1 : (2:ℕ) ^ E.currentBits ≤
                      2 ^ (if (D.add (prev ++ E.currentString.take 1)).nextCode ≥
                          2 ^ E.currentBits ∧ E.currentBits < 12
                        then E.currentBits + 1 else E.currentBits) := by
                    apply Nat.pow_le_pow_right (by omega)
                    split <;> omega
                  omega
              · rw [if_neg hroom]
                simp only []
                exact hfin D E.currentBits f (by omega) (by omega) hclt.2
                  (by omega)
            · rw [if_neg (by omega), if_pos heq, if_neg hprevlen]
              simp only []
              have hkw : prev ++ prev.take 1 = E.currentString :=
                (kwkwk_eq prev E.currentString hprev hshape).symm
              rw [hkw]
              by_cases hroom : prev.length > 0 ∧ D.nextCode < MAX_CODE_VALUE
              · rw [if_pos hroom]
                simp only []
                refine hfin _ _ f ?_ ?_ ?_ (by omega)
                · split <;> omega
                · have := hWb.2
                  split <;> omega
                · have h1 : (2:ℕ) ^ E.currentBits ≤
                      2 ^ (if (D.add (prev ++ E.currentString.take 1)).nextCode ≥
                          2 ^ E.currentBits ∧ E.currentBits < 12
                        then E.currentBits + 1 else E.currentBits) := by
                    apply Nat.pow_le_pow_right (by omega)
                    split <;> omega
                  omega
              · rw [if_neg hroom]
                simp only []
                exact hfin D E.currentBits f (by omega) (by omega) hclt.2
                  (by omega)
  | cons b rest ih =>
    intro E conv D prev output fuel hall hE hsim hd hr hws hfuel
    obtain ⟨hW, hnc1, hnc2, hcur, hsingles, hcodes⟩ := hE
    have hEx : EncOk k E := ⟨hW, hnc1, hnc2, hcur, hsingles, hcodes⟩
    have hWb := enc_width_bounds k E hk8 hEx
    have hclt := enc_code_lt k E (by omega) hk8 hEx
    have hb : b < 2 ^ k := hall b (by simp)
    simp only [bodyFields, List.foldl_cons, List.append_assoc] at hr hws
    by_cases hmem : (dictGet E.entries (E.currentString ++ [b])).isSome
    · -- the new string is in the dictionary: no emission, no decoder step
      have hsf : stepFields k E b = [] := by
        unfold stepFields
        dsimp only
        rw [if_pos hmem]
      have hsA : stepAbs k E b =
          { E with currentString := E.currentString ++ [b] } := by
        unfold stepAbs
        dsimp only
        rw [if_pos hmem]
      rw [hsf] at hr hws
      simp only [List.nil_append] at hr hws
      have hE2 : EncOk k (stepAbs k E b) := encOk_step k hk2 hk8 E b hb hEx
      have hsim2 : SimOk k (stepAbs k E b) D prev := by
        rw [hsA]
        obtain ⟨hlen, hm⟩ := hsim
        refine ⟨hlen, ?_⟩
        rcases hm with ⟨hp, he, hn, hD⟩ | ⟨hp, hc, hn, hcl⟩
        · exact Or.inl ⟨hp, he, hn, hD⟩
        · refine Or.inr ⟨hp, ?_, hn, ?_⟩
          · show E.currentString ++ [b] ≠ []
            simp
          · intro s c hsc
            rcases hcl s c hsc with h1 | ⟨h2a, h2b⟩
            · exact Or.inl h1
            · refine Or.inr ⟨h2a, ?_⟩
              rw [h2b]
              show prev ++ E.currentString.take 1 =
                prev ++ (E.currentString ++ [b]).take 1
              rw [List.take_append_of_le_length
                (by simpa using List.length_pos.mpr hc)]
      have hgoal := ih (stepAbs k E b) conv D prev output fuel
        (fun x hx => hall x (by simp [hx])) hE2 hsim2 hd hr hws hfuel
      rw [hsA] at hgoal
      dsimp only at hgoal
      exact hgoal.trans (by simp)
    · -- an emission: the decoder consumes the emitted code
      have hcurne : E.currentString ≠ [] := by
        intro hnilc
        rw [hnilc, List.nil_append, hsingles b hb] at hmem
        simp at hmem
      cases hc0 : dictGet E.entries E.currentString with
      | none =>
        exfalso
        have := hcur hcurne
        rw [hc0] at this
        simp at this
      | some c0 =>
        have hc0W : c0 < 2 ^ E.currentBits := hclt.1 _ _ hc0
        have hc0rng := hcodes _ _ hc0
        by_cases hfull : E.nextCode > MAX_CODE_VALUE
        · -- dictionary full: the code then a clear code; both sides reset
          have hnc4 : E.nextCode = 4096 := by
            unfold MAX_CODE_VALUE at hfull
            omega
          have hsf : stepFields k E b =
              [(c0, E.currentBits), (2 ^ k, E.currentBits)] := by
            unfold stepFields
            dsimp only
            rw [if_neg hmem, hc0]
            simp only []
            rw [if_pos hfull]
          have hsA : stepAbs k E b = { E with
              entries := encResetEntries k, nextCode := 2 ^ k + 2,
              currentBits := k + 1, currentString := [b] } := by
            unfold stepAbs
            dsimp only
            rw [if_neg hmem, hc0]
            simp only []
            rw [if_pos hfull]
          rw [hsf] at hr hws
          simp only [List.cons_append, List.nil_append, packVal, wsum,
            List.append_eq] at hr hws
          obtain ⟨hlen, hfresh | hsteady⟩ := hsim
          · exfalso
            obtain ⟨_, _, hncE, _⟩ := hfresh
            have h28 : (2:ℕ) ^ k ≤ 2 ^ 8 := Nat.pow_le_pow_right (by omega) hk8
            norm_num at h28
            omega
          · obtain ⟨hprev, hcurneS, hncD, hclause⟩ := hsteady
            have hprevlen : prev.length ≠ 0 :=
              (List.length_pos.mpr hprev).ne'
            have hDnc : D.nextCode = 4095 := by omega
            cases fuel with
            | zero => omega
            | succ f =>
              simp only [decodeGo]
              rw [if_pos (hasMore_of_tBits conv (by omega))]
              obtain ⟨conv1, hread, hd1, hdata1, hrv1, htb1⟩ :=
                readCode_field conv c0 E.currentBits
                  (2 ^ k + 2 ^ E.currentBits *
                    packVal (bodyFields k rest (stepAbs k E b) ++
                      tailFields k (List.foldl (stepAbs k) (stepAbs k E b) rest)))
                  hd (by omega) (by omega) hr hc0W (by omega)
              rw [hread]
              simp only []
              rw [if_neg hc0rng.2.1, if_neg hc0rng.2.2]
              have hnoroom : ¬ (prev.length > 0 ∧
                  D.nextCode < MAX_CODE_VALUE) := by
                unfold MAX_CODE_VALUE
                omega
              have hfin : tBits conv1 + 1 ≤ f →
                  decodeGo k f conv1 D E.currentBits E.currentString
                    (output ++ E.currentString) =
                  .ok (output ++ E.currentString ++ b :: rest) := by
                intro hf2
                cases f with
                | zero => omega
                | succ f2 =>
                  simp only [decodeGo]
                  rw [if_pos (hasMore_of_tBits conv1 (by omega))]
                  obtain ⟨conv2, hread2, hd2, hdata2, hrv2, htb2⟩ :=
                    readCode_field conv1 (2 ^ k) E.currentBits
                      (packVal (bodyFields k rest (stepAbs k E b) ++
                        tailFields k
                          (List.foldl (stepAbs k) (stepAbs k E b) rest)))
                      hd1 (by omega) (by omega) hrv1 (by omega) (by omega)
                  rw [hread2]
                  simp only []
                  rw [if_pos (by trivial)]
                  have hE2 : EncOk k (stepAbs k E b) :=
                    encOk_step k hk2 hk8 E b hb hEx
                  have hsim2 : SimOk k (stepAbs k E b) (decReset k) [] := by
                    rw [hsA]
                    exact ⟨decReset_len k, Or.inl ⟨rfl, rfl, rfl, rfl⟩⟩
                  have hgoal := ih (stepAbs k E b) conv2 (decReset k) []
                    (output ++ E.currentString) f2
                    (fun x hx => hall x (by simp [hx])) hE2 hsim2 hd2 hrv2
                    (by omega) (by omega)
                  rw [hsA] at hgoal
                  dsimp only at hgoal
                  exact hgoal.trans (by simp)
              rcases hclause _ _ hc0 with ⟨hlt, hget⟩ | ⟨heq, hshape⟩
              · rw [if_pos hlt]
                simp only [hget, Option.getD_some]
                rw [if_neg hnoroom]
                simp only []
                exact hfin (by omega)
              · rw [if_neg (by omega), if_pos heq, if_neg hprevlen]
                simp only []
                have hkw : prev ++ prev.take 1 = E.currentString :=
                  (kwkwk_eq prev E.currentString hprev hshape).symm
                rw [hkw]
                rw [if_neg hnoroom]
                simp only []
                exact hfin (by omega)
        · -- room in the dictionary: encoder adds; decoder mirrors one behind
          have hnc3 : E.nextCode ≤ 4095 := by
            unfold MAX_CODE_VALUE at hfull
            omega
          have hmm : E.nextCode - 1 + 1 = E.nextCode := by omega
          have hWnew0 := enc_width_update (k + 1) (E.nextCode - 1)
            E.currentBits (by omega) (by omega) hW
          rw [hmm] at hWnew0
          obtain ⟨hiff, hccb⟩ := ccb_next (k + 1) (E.nextCode - 1)
            E.currentBits (by omega) (by omega) hW
          rw [hmm] at hiff hccb
          have hsf : stepFields k E b = [(c0, E.currentBits)] := by
            unfold stepFields
            dsimp only
            rw [if_neg hmem, hc0]
            simp only []
            rw [if_neg hfull]
          have hsA : stepAbs k E b = { E with
              entries := E.entries ++ [(E.currentString ++ [b], E.nextCode)],
              nextCode := E.nextCode + 1,
              currentBits := calculateCodeBits E.nextCode (k + 1),
              currentString := [b] } := by
            unfold stepAbs
            dsimp only
            rw [if_neg hmem, hc0]
            simp only []
            rw [if_neg hfull, hWnew0]
          rw [hsf] at hr hws
          simp only [List.singleton_append, packVal, wsum, List.append_eq,
            List.nil_append] at hr hws
          have hE2 : EncOk k (stepAbs k E b) := encOk_step k hk2 hk8 E b hb hEx
          cases fuel with
          | zero => omega
          | succ f =>
            simp only [decodeGo]
            rw [if_pos (hasMore_of_tBits conv (by omega))]
            obtain ⟨conv1, hread, hd1, hdata1, hrv1, htb1⟩ :=
              readCode_field conv c0 E.currentBits
                (packVal (bodyFields k rest (stepAbs k E b) ++
                  tailFields k (List.foldl (stepAbs k) (stepAbs k E b) rest)))
                hd (by omega) (by omega) hr hc0W (by omega)
            rw [hread]
            simp only []
            rw [if_neg hc0rng.2.1, if_neg hc0rng.2.2]
            obtain ⟨hlen, hfresh | hsteady⟩ := hsim
            · -- fresh decoder: no decoder add, widths stay at k+1
              obtain ⟨hprev, hent, hncE, hDeq⟩ := hfresh
              have hc0b := hc0
              rw [hent] at hc0b
              obtain ⟨hcur_eq, hc0k⟩ := encReset_shape k _ _ hc0b
              have hDnc : D.nextCode = 2 ^ k + 2 := by rw [hDeq]; rfl
              have hget : D.get c0 = some [c0] := by
                rw [hDeq]
                exact decReset_get k c0 hc0k
              rw [if_pos (by omega)]
              simp only [hget, Option.getD_some]
              rw [if_neg (by rw [hprev]; simp)]
              simp only []
              rw [← hcur_eq]
              have h2k2 : (2:ℕ) ^ k + 2 < 2 ^ (k + 1) := by
                have h1 : (2:ℕ) ^ (k + 1) = 2 * 2 ^ k := by rw [pow_succ]; ring
                have h2 : (4:ℕ) ≤ 2 ^ k := by
                  calc (4:ℕ) = 2 ^ 2 := by norm_num
                  _ ≤ 2 ^ k := Nat.pow_le_pow_right (by omega) hk2
                omega
              have hcb2 : calculateCodeBits E.nextCode (k + 1) = k + 1 := by
                rw [hncE]
                exact ccb_base _ _ h2k2
              have hcb1 : E.currentBits = k + 1 := by
                rw [hW, hncE]
                have h21 : (2:ℕ) ^ k + 2 - 1 = 2 ^ k + 1 := by omega
                rw [h21]
                exact ccb_base _ _ (by omega)
              have hsim2 : SimOk k (stepAbs k E b) D E.currentString := by
                rw [hsA]
                refine ⟨hlen, Or.inr ⟨hcurne, by simp, ?_, ?_⟩⟩
                · show D.nextCode = E.nextCode + 1 - 1
                  rw [hDnc, hncE]
                  omega
                · intro s c hsc
                  rw [hent] at hsc
                  rcases dictGet_append_single_inv _ _ _ _ _ hsc with
                    h1 | ⟨_, hskey, hcv⟩
                  · obtain ⟨hs1, hck⟩ := encReset_shape k s c h1
                    refine Or.inl ⟨?_, ?_⟩
                    · show c < D.nextCode
                      omega
                    · rw [hDeq, hs1]
                      exact decReset_get k c hck
                  · refine Or.inr ⟨?_, ?_⟩
                    · show c = D.nextCode
                      rw [hcv, hncE, hDnc]
                    · rw [hskey]
                      rfl
              have hgoal := ih (stepAbs k E b) conv1 D E.currentString
                (output ++ E.currentString) f
                (fun x hx => hall x (by simp [hx])) hE2 hsim2 hd1 hrv1
                (by omega) (by omega)
              rw [hsA] at hgoal
              dsimp only at hgoal
              rw [hcb2, ← hcb1] at hgoal
              exact hgoal.trans (by simp)
            · -- steady decoder: mirrored add, synchronized width growth
              obtain ⟨hprev, hcurneS, hncD, hclause⟩ := hsteady
              have hprevlen : prev.length ≠ 0 :=
                (List.length_pos.mpr hprev).ne'
              have hroomD : D.nextCode < MAX_CODE_VALUE := by
                unfold MAX_CODE_VALUE
                omega
              obtain ⟨hA1, hA2, hA3, hA4⟩ :=
                decAdd_spec D (prev ++ E.currentString.take 1) hlen hroomD
              have hW2 : (if (D.add (prev ++ E.currentString.take 1)).nextCode ≥
                    2 ^ E.currentBits ∧ E.currentBits < 12
                  then E.currentBits + 1 else E.currentBits) =
                  calculateCodeBits E.nextCode (k + 1) := by
                rw [hA1]
                have hDn : D.nextCode + 1 = E.nextCode := by omega
                rw [hDn, hccb]
                by_cases hpow : E.nextCode = 2 ^ E.currentBits
                · rw [if_pos ⟨by omega, (hiff.mpr hpow).2⟩, if_pos hpow]
                · rw [if_neg ?_, if_neg hpow]
                  intro hcond
                  exact hpow (hiff.mp ⟨hcond.1, hcond.2⟩)
              have hsim2 : SimOk k (stepAbs k E b)
                  (D.add (prev ++ E.currentString.take 1)) E.currentString := by
                rw [hsA]
                refine ⟨by rw [hA2, hA1], Or.inr ⟨hcurne, by simp, ?_, ?_⟩⟩
                · show (D.add (prev ++ E.currentString.take 1)).nextCode =
                    E.nextCode + 1 - 1
                  rw [hA1]
                  omega
                · intro s c hsc
                  rcases dictGet_append_single_inv _ _ _ _ _ hsc with
                    h1 | ⟨_, hskey, hcv⟩
                  · rcases hclause s c h1 with ⟨hlt1, hget1⟩ | ⟨heq1, hsh1⟩
                    · refine Or.inl ⟨?_, ?_⟩
                      · show c < (D.add (prev ++ E.currentString.take 1)).nextCode
                        rw [hA1]
                        omega
                      · rw [hA4 c hlt1]
                        exact hget1
                    · refine Or.inl ⟨?_, ?_⟩
                      · show c < (D.add (prev ++ E.currentString.take 1)).nextCode
                        rw [hA1]
                        omega
                      · rw [heq1, hA3, hsh1]
                  · refine Or.inr ⟨?_, ?_⟩
                    · show c = (D.add (prev ++ E.currentString.take 1)).nextCode
                      rw [hcv, hA1]
                      omega
                    · rw [hskey]
                      rfl
              rcases hclause _ _ hc0 with ⟨hlt, hget⟩ | ⟨heq, hshape⟩
              · rw [if_pos hlt]
                simp only [hget, Option.getD_some]
                rw [if_pos ⟨by omega, hroomD⟩]
                simp only []
                rw [hW2]
                have hgoal := ih (stepAbs k E b) conv1
                  (D.add (prev ++ E.currentString.take 1)) E.currentString
                  (output ++ E.currentString) f
                  (fun x hx => hall x (by simp [hx])) hE2 hsim2 hd1 hrv1
                  (by omega) (by omega)
                rw [hsA] at hgoal
                dsimp only at hgoal
                exact hgoal.trans (by simp)
              · rw [if_neg (by omega), if_pos heq, if_neg hprevlen]
                simp only []
                have hkw : prev ++ prev.take 1 = E.currentString :=
                  (kwkwk_eq prev E.currentString hprev hshape).symm
                rw [hkw]
                rw [if_pos ⟨by omega, hroomD⟩]
                simp only []
                rw [hW2]
                have hgoal := ih (stepAbs k E b) conv1
                  (D.add (prev ++ E.currentString.take 1)) E.currentString
                  (output ++ E.currentString) f
                  (fun x hx => hall x (by simp [hx])) hE2 hsim2 hd1 hrv1
                  (by omega) (by omega)
                rw [hsA] at hgoal
                dsimp only at hgoal
                exact hgoal.trans (by simp)

end GifTools

namespace GifTools

/-- `EncOk` is preserved by folding `stepAbs` over valid input bytes. -/
theorem encOk_fold (k : ℕ) (hk2 : 2 ≤ k) (hk8 : k ≤ 8) :
    ∀ (l : List ℕ) (E : EncState), (∀ b ∈ l, b < 2 ^ k) → EncOk k E →
      EncOk k (List.foldl (stepAbs k) E l) := by
  intro l
  induction l with
  | nil => intro E _ hE; exact hE
  | cons b t ih =>
    intro E hall hE
    simp only [List.foldl_cons]
    exact ih (stepAbs k E b) (fun x hx => hall x (by simp [hx]))
      (encOk_step k hk2 hk8 E b (hall b (by simp)) hE)

/-- The initial abstract encoder state (converter component unused). -/
def encInit (k : ℕ) : EncState :=
  { conv := ⟨[], 0, 0⟩, entries := encResetEntries k, nextCode := 2 ^ k + 2,
    currentBits := k + 1, currentString := [] }

/-- The initial encoder state satisfies the invariant. -/
theorem encInit_ok (k : ℕ) (hk2 : 2 ≤ k) (hk8 : k ≤ 8) :
    EncOk k (encInit k) := by
  have h2k : 2 ≤ 2 ^ k := by
    calc (2:ℕ) = 2 ^ 1 := by norm_num
    _ ≤ 2 ^ k := Nat.pow_le_pow_right (by omega) (by omega)
  have h28 : (2:ℕ) ^ k ≤ 2 ^ 8 := Nat.pow_le_pow_right (by omega) hk8
  refine ⟨?_, ?_, ?_, ?_, ?_, ?_⟩
  · show k + 1 = calculateCodeBits (2 ^ k + 2 - 1) (k + 1)
    have h21 : (2:ℕ) ^ k + 2 - 1 = 2 ^ k + 1 := by omega
    rw [h21]
    have hpow : (2:ℕ) ^ (k + 1) = 2 * 2 ^ k := by rw [pow_succ]; ring
    rw [ccb_base _ _ (by omega)]
  · exact le_refl _
  · show 2 ^ k + 2 ≤ 4096
    norm_num at h28
    omega
  · intro h
    exact absurd rfl h
  · exact fun b hb => encReset_get k b hb
  · intro s c hc
    obtain ⟨hs, hck⟩ := encReset_shape k s c hc
    refine ⟨?_, by omega, by omega⟩
    show c < 2 ^ k + 2
    omega

/-- `compressLZW` refines the ghost emission: it succeeds and packs the
clear code followed by the body and tail fields. -/
theorem compress_spec (k : ℕ) (hk2 : 2 ≤ k) (hk8 : k ≤ 8) (data : List ℕ)
    (hne : data ≠ []) (hall : ∀ b ∈ data, b < 2 ^ k) :
    ∃ out, compressLZW data k = .ok out ∧
      (∀ b ∈ out, b < 256) ∧ out ≠ [] ∧
      dataVal out = 2 ^ k + 2 ^ (k + 1) *
        packVal (bodyFields k data (encInit k) ++
          tailFields k (List.foldl (stepAbs k) (encInit k) data)) ∧
      (k + 1) + wsum (bodyFields k data (encInit k) ++
          tailFields k (List.foldl (stepAbs k) (encInit k) data)) ≤
        8 * out.length := by
  have hE0 := encInit_ok k hk2 hk8
  unfold compressLZW
  rw [if_neg (List.length_pos.mpr hne).ne', if_neg (by omega)]
  have hinv0 : ConvInv ⟨[], 0, 0⟩ := ⟨by norm_num, by norm_num, by simp⟩
  have hclear : (2:ℕ) ^ k < 2 ^ (k + 1) :=
    Nat.pow_lt_pow_right (by omega) (by omega)
  obtain ⟨conv0, hpush0, hinv1, hval0, hbits0⟩ :=
    push_spec ⟨[], 0, 0⟩ (2 ^ k) (k + 1) (by omega) hinv0 hclear
  dsimp only
  rw [hpush0, ok_bind]
  have hval0' : convVal conv0 = 2 ^ k := by
    rw [hval0]
    simp [convVal, convBits, dataVal]
  have hbits0' : convBits conv0 = k + 1 := by
    rw [hbits0]
    simp [convBits]
  -- the loop state equals the ghost init with the converter swapped in
  have hst0 : EncState.mk conv0 (encResetEntries k) (2 ^ k + 2) (k + 1) [] =
      { encInit k with conv := conv0 } := rfl
  have hE0' : EncOk k ({ encInit k with conv := conv0 } : EncState) := hE0
  obtain ⟨convF, hfold, hinvF, hvalF, hbitsF⟩ :=
    foldlM_refine k hk2 hk8 data { encInit k with conv := conv0 } hall
      hE0' hinv1
  rw [hst0, hfold, ok_bind]
  rw [foldl_stepAbs_conv, bodyFields_conv] at *
  set stF := List.foldl (stepAbs k) (encInit k) data with hstF
  have hEF : EncOk k stF :=
    encOk_fold k hk2 hk8 data (encInit k) hall hE0
  have hWFb := enc_width_bounds k stF hk8 hEF
  have hcltF := enc_code_lt k stF (by omega) hk8 hEF
  dsimp only
  dsimp only at hvalF hbitsF
  rw [hval0', hbits0'] at hvalF
  rw [hbits0'] at hbitsF
  by_cases hcs : stF.currentString = []
  · -- no final string: only the end code is pushed
    rw [if_neg (by rw [hcs]; simp)]
    have htf : tailFields k stF = [(2 ^ k + 1, stF.currentBits)] := by
      unfold tailFields
      rw [if_neg (by rw [hcs]; simp)]
    rw [ok_bind]
    obtain ⟨conv2, hpushE, hinv2, hval2, hbits2⟩ :=
      push_spec convF (2 ^ k + 1) stF.currentBits (by omega) hinvF hcltF.2
    rw [hpushE, ok_bind]
    obtain ⟨hfv, hfb, hfl, hfne⟩ := flush_spec conv2 hinv2
    refine ⟨conv2.flush, rfl, hfb, hfne (by omega), ?_, ?_⟩
    · rw [hfv, hval2, hvalF, hbitsF, htf]
      simp only [packVal_append, packVal, wsum_append, wsum, pow_add,
        mul_zero, add_zero, Nat.mul_zero, Nat.add_zero]
      ring
    · rw [htf]
      simp only [wsum_append, wsum, Nat.add_zero]
      omega
  · -- final string: its code then the end code
    rw [if_pos (by simpa using List.length_pos.mpr hcs)]
    cases hcg : dictGet stF.entries stF.currentString with
    | none =>
      exfalso
      have := hEF.2.2.2.1 hcs
      rw [hcg] at this
      simp at this
    | some c0 =>
      simp only []
      have htf : tailFields k stF =
          [(c0, stF.currentBits), (2 ^ k + 1, stF.currentBits)] := by
        unfold tailFields
        rw [if_pos (by simpa using List.length_pos.mpr hcs), hcg]
      obtain ⟨conv1, hpush1, hinv1b, hval1, hbits1⟩ :=
        push_spec convF c0 stF.currentBits (by omega) hinvF
          (hcltF.1 _ _ hcg)
      rw [hpush1, ok_bind]
      obtain ⟨conv2, hpush2, hinv2, hval2, hbits2⟩ :=
        push_spec conv1 (2 ^ k + 1) stF.currentBits (by omega) hinv1b
          hcltF.2
      rw [hpush2, ok_bind]
      obtain ⟨hfv, hfb, hfl, hfne⟩ := flush_spec conv2 hinv2
      refine ⟨conv2.flush, rfl, hfb, hfne (by omega), ?_, ?_⟩
      · rw [hfv, hval2, hval1, hbits1, hvalF, hbitsF, htf]
        simp only [packVal_append, packVal, wsum_append, wsum, pow_add,
          mul_zero, add_zero, Nat.mul_zero, Nat.add_zero]
        ring
      · rw [htf]
        simp only [wsum_append, wsum, Nat.add_zero]
        omega

end GifTools

namespace GifTools

/-- Universal LZW round-trip over the embedded `compressLZW` and
`decompressLZW`. -/
theorem lzw_roundtrip_main (k : ℕ) (hk2 : 2 ≤ k) (hk8 : k ≤ 8)
    (data : List ℕ) (hne : data ≠ []) (hall : ∀ b ∈ data, b < 2 ^ k) :
    ∃ out, compressLZW data k = .ok out ∧ decompressLZW out k = .ok data := by
  obtain ⟨out, hcomp, hbytes, houtne, hval, hbits⟩ :=
    compress_spec k hk2 hk8 data hne hall
  refine ⟨out, hcomp, ?_⟩
  have hlp : 0 < out.length := List.length_pos.mpr houtne
  unfold decompressLZW
  rw [if_neg hlp.ne', if_neg (by omega)]
  have hd0 : DInv ⟨out, 0, 0, 0⟩ := ⟨by norm_num, by norm_num, by simp, hbytes⟩
  have hr0 : rVal ⟨out, 0, 0, 0⟩ = dataVal out := by
    simp [rVal]
  have ht0 : tBits ⟨out, 0, 0, 0⟩ = 8 * out.length := by
    simp [tBits]
  have hclear : (2:ℕ) ^ k < 2 ^ (k + 1) :=
    Nat.pow_lt_pow_right (by omega) (by omega)
  have hfuel8 : 8 * out.length + 16 = (8 * out.length + 15) + 1 := by omega
  rw [hfuel8]
  rw [decodeGo]
  rw [if_pos (hasMore_of_tBits _ (by rw [ht0]; omega))]
  obtain ⟨conv1, hread, hd1, hdata1, hrv1, htb1⟩ :=
    readCode_field ⟨out, 0, 0, 0⟩ (2 ^ k) (k + 1)
      (packVal (bodyFields k data (encInit k) ++
        tailFields k (List.foldl (stepAbs k) (encInit k) data)))
      hd0 (by omega) (by omega) (by rw [hr0, hval]) hclear
      (by rw [ht0]; omega)
  rw [hread]
  simp only []
  rw [if_pos (by trivial)]
  have hsim0 : SimOk k (encInit k) (decReset k) [] :=
    ⟨decReset_len k, Or.inl ⟨rfl, rfl, rfl, rfl⟩⟩
  have hgoal := decodeSim k hk2 hk8 data (encInit k) conv1 (decReset k)
    [] [] (8 * out.length + 15) hall (encInit_ok k hk2 hk8) hsim0 hd1 hrv1
    (by omega) (by omega)
  refine hgoal.trans ?_
  have hcs : (encInit k).currentString = [] := rfl
  rw [hcs]
  simp

end GifTools

namespace GifTools

/-- C1: for every nonempty byte sequence over `[0, 2^k)` with
`k ∈ [2, 8]`, decompressing the compressed stream returns the original
sequence; in particular the known vector for `k = 2` round-trips through
the exact bytes `[68, 100, 120, 5]`. -/
theorem lzw_roundtrip_spec :
    (∀ (s : List ℕ) (k : ℕ), s ≠ [] → 2 ≤ k → k ≤ 8 →
      (∀ b ∈ s, b < 2 ^ k) →
      ∃ out, compressLZW s k = .ok out ∧ decompressLZW out k = .ok s) ∧
    compressLZW [0, 1, 2, 0, 1, 2, 0, 1, 2] 2 = .ok [68, 100, 120, 5] ∧
    decompressLZW [68, 100, 120, 5] 2 = .ok [0, 1, 2, 0, 1, 2, 0, 1, 2] :=
  ⟨fun s k hne hk2 hk8 hall => lzw_roundtrip_main k hk2 hk8 s hne hall,
    by decide, by decide⟩

/-- Witness for the C1 theorem at the sequence `[0]` with `k = 2`. -/
theorem lzw_roundtrip_spec_witness :
    (([0] : List ℕ) ≠ [] ∧ 2 ≤ 2 ∧ 2 ≤ 8 ∧
      ∀ b ∈ ([0] : List ℕ), b < 2 ^ 2) ∧
    ∃ out, compressLZW [0] 2 = .ok out ∧ decompressLZW out 2 = .ok [0] :=
  ⟨⟨by decide, by decide, by decide, by decide⟩,
    lzw_roundtrip_spec.1 [0] 2 (by decide) (by decide) (by decide)
      (by decide)⟩

end GifTools
